import Mathlib

/-!
# Arithmetic-expression evaluator (`Go_IVS_calc_backend/logic.go`)

A shallow embedding of the four pipeline stages `Tokenize`, `ValidateExpression`,
`ShuntingYard` and `EvaluateRPN`, and of their composition `Calculate`.

Conventions of the embedding:

* a Go `string` converted with `[]rune(...)` is a `List Char`; token texts are `String`s;
* a Go slice that is only appended to (`tokens`, `output`) is a `List` growing at its end;
* a Go slice used as a stack (`stack`) is a `List` whose head is the top of the stack;
* a Go `(T, error)` result is an `Except CalcError T`;
* the Go standard library (`unicode`, `strings.ToLower`, `strconv.ParseFloat`, `math`,
  `float64` arithmetic) is not part of the program: its Latin-1 / ASCII behaviour is written
  out, and everything beyond is a parameter (`UnicodeTables`, `Float64`).
-/

namespace Calc

/-! ## Data model -/

/-- The five token kinds (`TokenType` constants, in `iota` order). -/
inductive TokenType where
  | TokenNumber
  | TokenOperator
  | TokenLParen
  | TokenRParen
  | TokenFunction
  deriving DecidableEq, Repr

open TokenType

/-- A lexical unit: `Token{Type, Value}` (the field `Type` is spelled `Typ`). -/
structure Token where
  Typ : TokenType
  Value : String
  deriving DecidableEq, Repr

/-- The errors built with `fmt.Errorf` (and the one returned by `strconv.ParseFloat`), one
constructor per message; the arguments are the values formatted into the message. -/
inductive CalcError where
  /-- The message "unexpected number of decimal points". -/
  | invalidNumberFormat
  /-- The message "unexpected character: %c". -/
  | unexpectedCharacter (char : Char)
  /-- The message "expression cannot start with '%s'". -/
  | leadingToken (first : String)
  /-- The message "expression cannot end with '%s'". -/
  | trailingToken (last : String)
  /-- The five messages "unexpected token '%s' after ...", selected by the kind of `current`. -/
  | unexpectedToken (next current : Token)
  /-- The message "mismatched parentheses". -/
  | mismatchedParentheses
  /-- The error of `strconv.ParseFloat` on the given text. -/
  | numberParse (text : String)
  /-- The messages "insufficient operands for operator %s" and "... for function %s". -/
  | insufficientOperands (token : Token)
  /-- The message "unknown operator %s". -/
  | unknownOperator (op : String)
  /-- The message "division by zero". -/
  | divisionByZero
  /-- The message "sqrt of negative number". -/
  | negativeSqrt
  /-- The message "unknown function %s". -/
  | unknownFunction (name : String)
  /-- The message "invalid expression". -/
  | invalidExpression
  deriving DecidableEq, Repr

/-! ## Standard-library parameters -/

/-- The range tables of Go's `unicode` package beyond Latin-1 (`unicode.White_Space`,
`unicode.Digit`, `unicode.Letter`) and the lower-case mapping beyond ASCII. -/
structure UnicodeTables where
  White_Space : Char → Bool
  Digit : Char → Bool
  Letter : Char → Bool
  LowerCase : Char → Char

/-- Go's `unicode.IsSpace`: the Latin-1 white space is `\t \n \v \f \r`, space, U+0085 and
U+00A0; other runes are looked up in the table. -/
def IsSpace (U : UnicodeTables) (r : Char) : Bool :=
  if r.toNat ≤ 0xFF then
    decide (r.toNat = 0x09 ∨ r.toNat = 0x0A ∨ r.toNat = 0x0B ∨ r.toNat = 0x0C ∨ r.toNat = 0x0D ∨
      r.toNat = 0x20 ∨ r.toNat = 0x85 ∨ r.toNat = 0xA0)
  else U.White_Space r

/-- Go's `unicode.IsDigit`: the Latin-1 digits are `0` to `9`; other runes are looked up. -/
def IsDigit (U : UnicodeTables) (r : Char) : Bool :=
  if r.toNat ≤ 0xFF then decide (0x30 ≤ r.toNat ∧ r.toNat ≤ 0x39) else U.Digit r

/-- Go's `unicode.IsLetter`: the Latin-1 letters are `A-Z`, `a-z`, U+00AA, U+00B5, U+00BA,
U+00C0 to U+00D6, U+00D8 to U+00F6 and U+00F8 to U+00FF; other runes are looked up. -/
def IsLetter (U : UnicodeTables) (r : Char) : Bool :=
  if r.toNat ≤ 0xFF then
    decide ((0x41 ≤ r.toNat ∧ r.toNat ≤ 0x5A) ∨ (0x61 ≤ r.toNat ∧ r.toNat ≤ 0x7A) ∨
      r.toNat = 0xAA ∨ r.toNat = 0xB5 ∨ r.toNat = 0xBA ∨ (0xC0 ≤ r.toNat ∧ r.toNat ≤ 0xD6) ∨
      (0xD8 ≤ r.toNat ∧ r.toNat ≤ 0xF6) ∨ (0xF8 ≤ r.toNat ∧ r.toNat ≤ 0xFF))
  else U.Letter r

/-- Go's `unicode.ToLower` on one rune: ASCII `A-Z` is shifted to `a-z`, other ASCII runes are
unchanged, and runes beyond ASCII are mapped by the table. -/
def runeToLower (U : UnicodeTables) (r : Char) : Char :=
  if r.toNat ≤ 0x7F then
    (if 0x41 ≤ r.toNat ∧ r.toNat ≤ 0x5A then Char.ofNat (r.toNat + 0x20) else r)
  else U.LowerCase r

/-- Go's `strings.ToLower`: every rune is mapped by `unicode.ToLower`. -/
def ToLower (U : UnicodeTables) (s : String) : String :=
  String.mk (s.toList.map (runeToLower U))

/-- The `float64` type with the operations the evaluator uses: `strconv.ParseFloat(s, 64)`
(`none` when it returns an error), the arithmetic operators, `math.Mod`, `math.Pow`,
`math.Sqrt`, `math.Sin`, `math.Cos`, `math.Tan`, and the comparisons `x == 0` and `x < 0`. -/
structure Float64 where
  F : Type
  ParseFloat : String → Option F
  add : F → F → F
  sub : F → F → F
  mul : F → F → F
  div : F → F → F
  Mod : F → F → F
  Pow : F → F → F
  Sqrt : F → F
  Sin : F → F
  Cos : F → F
  Tan : F → F
  eqZero : F → Bool
  ltZero : F → Bool

/-! ## `precedence` and `isOperator` -/

/-- The function `precedence`: the binding strength of an operator text, `0` when unknown. -/
def precedence (op : String) : Nat :=
  if op = "+" ∨ op = "-" then 1
  else if op = "*" ∨ op = "/" ∨ op = "%" then 2
  else if op = "^" then 3
  else 0

/-- The function `isOperator`: whether the text is one of the six supported operators. -/
def isOperator (s : String) : Bool :=
  s == "+" || s == "-" || s == "*" || s == "/" || s == "%" || s == "^"

/-! ## `Tokenize` -/

/-- The inner loop of a numeric literal in `Tokenize`
(`for i+1 < len(runes) && (unicode.IsDigit(runes[i+1]) || runes[i+1] == '.')`), started with
the flag `decimal` on the runes after position `i`. It returns the runes it steps over, or
the error raised at a second decimal point. -/
def scanNumber (U : UnicodeTables) : Bool → List Char → Except CalcError (List Char)
  | _, [] => .ok []
  | decimal, next :: rest =>
    if IsDigit U next || next == '.' then
      if decimal && next == '.' then .error .invalidNumberFormat
      else
        match scanNumber U (decimal || next == '.') rest with
        | .error e => .error e
        | .ok run => .ok (next :: run)
    else .ok []

/-- The inner loop of a function name in `Tokenize`
(`for i+1 < len(runes) && unicode.IsLetter(runes[i+1])`): the runes it steps over. -/
def scanLetters (U : UnicodeTables) : List Char → List Char
  | [] => []
  | next :: rest => if IsLetter U next then next :: scanLetters U rest else []

/-- The condition on the tokens emitted so far under which a `-` may start a negative number:
`len(tokens) == 0 || tokens[len(tokens)-1].Type == TokenOperator ||
tokens[len(tokens)-1].Type == TokenLParen`. -/
def signPosition (tokens : List Token) : Bool :=
  match tokens.getLast? with
  | none => true
  | some last => last.Typ == TokenOperator || last.Typ == TokenLParen

/-- One iteration of the main loop of `Tokenize` at a rune `char` that is not white space:
`tokens` is the slice built so far and `rest` holds the runes after position `i`. It returns
the new `tokens` and the number of positions by which the body advanced `i`, or the error. -/
def tokenizeStep (U : UnicodeTables) (tokens : List Token) (char : Char) (rest : List Char) :
    Except CalcError (List Token × Nat) :=
  if IsDigit U char || char == '.' then
    match scanNumber U (char == '.') rest with
    | .error e => .error e
    | .ok run => .ok (tokens ++ [⟨TokenNumber, String.mk (char :: run)⟩], run.length)
  else if char == '(' then .ok (tokens ++ [⟨TokenLParen, "("⟩], 0)
  else if char == ')' then .ok (tokens ++ [⟨TokenRParen, ")"⟩], 0)
  else if isOperator (String.mk [char]) then
    if char == '-' && signPosition tokens then
      match rest with
      | [] => .ok (tokens ++ [⟨TokenOperator, String.mk [char]⟩], 0)
      | next :: rest2 =>
        if IsDigit U next || next == '.' then
          match scanNumber U (next == '.') rest2 with
          | .error e => .error e
          | .ok run =>
            .ok (tokens ++ [⟨TokenNumber, String.mk (char :: next :: run)⟩], 1 + run.length)
        else .ok (tokens ++ [⟨TokenOperator, String.mk [char]⟩], 0)
    else .ok (tokens ++ [⟨TokenOperator, String.mk [char]⟩], 0)
  else if IsLetter U char then
    .ok (tokens ++ [⟨TokenFunction, String.mk (char :: scanLetters U rest)⟩],
      (scanLetters U rest).length)
  else .error (.unexpectedCharacter char)

/-- The main loop of `Tokenize`, `for i := 0; i < len(runes); i++`, on the runes from
position `i` on: white space is skipped, any other rune starts the iteration
`tokenizeStep`, and the loop goes on after the positions the iteration stepped over. -/
def tokenizeLoop (U : UnicodeTables) (tokens : List Token) (runes : List Char) :
    Except CalcError (List Token) :=
  match runes with
  | [] => .ok tokens
  | char :: rest =>
    if IsSpace U char then tokenizeLoop U tokens rest
    else
      match tokenizeStep U tokens char rest with
      | .error e => .error e
      | .ok (tokens1, advance) => tokenizeLoop U tokens1 (rest.drop advance)
termination_by runes.length
decreasing_by
  all_goals simp_wf
  all_goals omega

/-- The function `Tokenize`: splits the expression into tokens. -/
def Tokenize (U : UnicodeTables) (expr : String) : Except CalcError (List Token) :=
  tokenizeLoop U [] expr.toList

/-! ## `ShuntingYard` -/

/-- The loop of the `TokenOperator` case: while the top of the stack is an operator of
precedence at least that of `token`, move it to the output. Returns `(output, stack)`. -/
def popOperators (token : Token) : List Token → List Token → List Token × List Token
  | output, [] => (output, [])
  | output, top :: stack =>
    if top.Typ = TokenOperator then
      if precedence top.Value ≥ precedence token.Value then
        popOperators token (output ++ [top]) stack
      else (output, top :: stack)
    else (output, top :: stack)

/-- The loop of the `TokenRParen` case: pop the stack into the output until a left
parenthesis has been popped. Returns `(output, stack, foundLParen)`. -/
def popToLParen : List Token → List Token → List Token × List Token × Bool
  | output, [] => (output, [], false)
  | output, top :: stack =>
    if top.Typ = TokenLParen then (output, stack, true)
    else popToLParen (output ++ [top]) stack

/-- The final loop of `ShuntingYard`: move the rest of the stack to the output; a left
parenthesis on the stack is an error. -/
def drainStack : List Token → List Token → Except CalcError (List Token)
  | output, [] => .ok output
  | output, top :: stack =>
    if top.Typ = TokenLParen then .error .mismatchedParentheses
    else drainStack (output ++ [top]) stack

/-- The body of `ShuntingYard` from some token on: `for _, token := range tokens` on the
remaining tokens with the current `output` and `stack`, then the final loop. -/
def shuntingLoop : List Token → List Token → List Token → Except CalcError (List Token)
  | [], output, stack => drainStack output stack
  | token :: tokens, output, stack =>
    match token.Typ with
    | TokenNumber => shuntingLoop tokens (output ++ [token]) stack
    | TokenFunction => shuntingLoop tokens output (token :: stack)
    | TokenOperator =>
      shuntingLoop tokens (popOperators token output stack).1
        (token :: (popOperators token output stack).2)
    | TokenLParen => shuntingLoop tokens output (token :: stack)
    | TokenRParen =>
      match popToLParen output stack with
      | (_, _, false) => .error .mismatchedParentheses
      | (output1, [], true) => shuntingLoop tokens output1 []
      | (output1, top :: stack1, true) =>
        if top.Typ = TokenFunction then shuntingLoop tokens (output1 ++ [top]) stack1
        else shuntingLoop tokens output1 (top :: stack1)

/-- The function `ShuntingYard`: converts infix tokens to reverse Polish notation. -/
def ShuntingYard (tokens : List Token) : Except CalcError (List Token) :=
  shuntingLoop tokens [] []

/-! ## `EvaluateRPN` -/

/-- The `switch token.Value` of the `TokenOperator` case, on the operands `a` and `b`. -/
def applyOperator (M : Float64) (op : String) (a b : M.F) : Except CalcError M.F :=
  if op = "+" then .ok (M.add a b)
  else if op = "-" then .ok (M.sub a b)
  else if op = "*" then .ok (M.mul a b)
  else if op = "/" then
    if M.eqZero b then .error .divisionByZero else .ok (M.div a b)
  else if op = "%" then .ok (M.Mod a b)
  else if op = "^" then .ok (M.Pow a b)
  else .error (.unknownOperator op)

/-- The `switch strings.ToLower(token.Value)` of the `TokenFunction` case, on `arg`. -/
def applyFunction (U : UnicodeTables) (M : Float64) (name : String) (arg : M.F) :
    Except CalcError M.F :=
  if ToLower U name = "sqrt" then
    if M.ltZero arg then .error .negativeSqrt else .ok (M.Sqrt arg)
  else if ToLower U name = "sin" then .ok (M.Sin arg)
  else if ToLower U name = "cos" then .ok (M.Cos arg)
  else if ToLower U name = "tan" then .ok (M.Tan arg)
  else .error (.unknownFunction name)

/-- The body of `EvaluateRPN` from some token on, with the current operand `stack` (top at
the head), then the final check that exactly one value is left. Tokens of kind
`TokenLParen` and `TokenRParen` match no case of the `switch` and are skipped. -/
def evaluateLoop (U : UnicodeTables) (M : Float64) :
    List Token → List M.F → Except CalcError M.F
  | [], stack =>
    match stack with
    | [result] => .ok result
    | _ => .error .invalidExpression
  | token :: tokens, stack =>
    match token.Typ with
    | TokenNumber =>
      match M.ParseFloat token.Value with
      | none => .error (.numberParse token.Value)
      | some val => evaluateLoop U M tokens (val :: stack)
    | TokenOperator =>
      match stack with
      | b :: a :: stack1 =>
        match applyOperator M token.Value a b with
        | .error e => .error e
        | .ok res => evaluateLoop U M tokens (res :: stack1)
      | _ => .error (.insufficientOperands token)
    | TokenFunction =>
      match stack with
      | arg :: stack1 =>
        match applyFunction U M token.Value arg with
        | .error e => .error e
        | .ok res => evaluateLoop U M tokens (res :: stack1)
      | [] => .error (.insufficientOperands token)
    | TokenLParen => evaluateLoop U M tokens stack
    | TokenRParen => evaluateLoop U M tokens stack

/-- The function `EvaluateRPN`: evaluates a token list in reverse Polish notation. -/
def EvaluateRPN (U : UnicodeTables) (M : Float64) (tokens : List Token) :
    Except CalcError M.F :=
  evaluateLoop U M tokens []

/-! ## `ValidateExpression` -/

/-- The `switch current.Type` of the adjacency loop: whether `next` may not follow
`current`. -/
def illegalNext (current next : TokenType) : Bool :=
  match current with
  | TokenNumber => next == TokenNumber || next == TokenFunction || next == TokenLParen
  | TokenOperator => next == TokenOperator || next == TokenRParen
  | TokenFunction => next == TokenOperator || next == TokenRParen
  | TokenLParen => next == TokenOperator || next == TokenRParen
  | TokenRParen => next == TokenNumber || next == TokenFunction || next == TokenLParen

/-- The adjacency loop `for i := 0; i < len(tokens)-1; i++` on the tokens from position `i`
on: the first illegal pair `(tokens[i], tokens[i+1])` is reported. -/
def checkPairs : List Token → Except CalcError Unit
  | current :: next :: tokens =>
    if illegalNext current.Typ next.Typ then .error (.unexpectedToken next current)
    else checkPairs (next :: tokens)
  | _ => .ok ()

/-- The function `ValidateExpression`: checks for structural errors in the token sequence
(`Except.ok ()` is the `nil` error). -/
def ValidateExpression (tokens : List Token) : Except CalcError Unit :=
  match tokens.head?, tokens.getLast? with
  | some first, some last =>
    if first.Typ = TokenOperator ∨ first.Typ = TokenRParen then
      .error (.leadingToken first.Value)
    else if last.Typ = TokenOperator ∨ last.Typ = TokenFunction ∨ last.Typ = TokenLParen then
      .error (.trailingToken last.Value)
    else checkPairs tokens
  | _, _ => .ok ()

/-! ## `Calculate` -/

/-- The function `Calculate`: the four stages in sequence, stopping at the first error. -/
def Calculate (U : UnicodeTables) (M : Float64) (expr : String) : Except CalcError M.F :=
  match Tokenize U expr with
  | .error e => .error e
  | .ok tokens =>
    match ValidateExpression tokens with
    | .error e => .error e
    | .ok _ =>
      match ShuntingYard tokens with
      | .error e => .error e
      | .ok rpn => EvaluateRPN U M rpn

/-! ## An exact instance of the arithmetic parameter -/

/-- The value of a run of ASCII decimal digits, most significant first, added to `acc`;
`none` when a rune is not an ASCII digit. -/
def digitsValue : Nat → List Char → Option Nat
  | acc, [] => some acc
  | acc, d :: ds =>
    if 0x30 ≤ d.toNat ∧ d.toNat ≤ 0x39 then digitsValue (10 * acc + (d.toNat - 0x30)) ds
    else none

/-- The unsigned decimal literals `digits`, `digits.digits`, `digits.` and `.digits` (at
least one digit) with their exact rational value. -/
def decimalValue (body : List Char) : Option ℚ :=
  let whole := body.takeWhile (fun r => r != '.')
  let frac := (body.dropWhile (fun r => r != '.')).drop 1
  if whole ++ frac = [] then none
  else
    match digitsValue 0 (whole ++ frac) with
    | none => none
    | some n => some ((n : ℚ) / (10 : ℚ) ^ frac.length)

/-- Exact reading of an optionally signed decimal literal. -/
def exactParse (s : String) : Option (Option ℚ) :=
  match s.toList with
  | '-' :: body => (decimalValue body).map (fun q => some (-q))
  | '+' :: body => (decimalValue body).map some
  | body => (decimalValue body).map some

/-- Exact arithmetic on the rationals: a value is `some q` for the rational `q`, or `none`
where the exact result is not a rational number this instance computes (a quotient by zero,
an irrational root, a non-integral power, a trigonometric value away from `0`). On the
values it does compute it agrees with real-number arithmetic. -/
def exactArith : Float64 where
  F := Option ℚ
  ParseFloat := exactParse
  add a b := a.bind fun x => b.map fun y => x + y
  sub a b := a.bind fun x => b.map fun y => x - y
  mul a b := a.bind fun x => b.map fun y => x * y
  div a b := a.bind fun x => b.bind fun y => if y = 0 then none else some (x / y)
  Mod a b := a.bind fun x => b.bind fun y =>
    if y = 0 then none else some (x - y * ((x / y).num.tdiv (x / y).den : ℤ))
  Pow a b := a.bind fun x => b.bind fun y =>
    if y.den = 1 ∧ (x ≠ 0 ∨ 0 ≤ y.num) then some (x ^ y.num) else none
  Sqrt a := a.bind fun x =>
    if 0 ≤ x.num ∧ (Nat.sqrt x.num.toNat) ^ 2 = x.num.toNat ∧ (Nat.sqrt x.den) ^ 2 = x.den then
      some ((Nat.sqrt x.num.toNat : ℚ) / (Nat.sqrt x.den : ℚ))
    else none
  Sin a := a.bind fun x => if x = 0 then some 0 else none
  Cos a := a.bind fun x => if x = 0 then some 1 else none
  Tan a := a.bind fun x => if x = 0 then some 0 else none
  eqZero a := match a with
    | some x => decide (x = 0)
    | none => false
  ltZero a := match a with
    | some x => decide (x < 0)
    | none => false

/-- The identity tables: no white space, digit or letter beyond Latin-1 and no case mapping
beyond ASCII. -/
def latin1Tables : UnicodeTables where
  White_Space _ := false
  Digit _ := false
  Letter _ := false
  LowerCase r := r

/-! ## Vocabulary of the properties -/

/-- A rune of a numeric literal: a digit or the decimal point. -/
def numericRune (U : UnicodeTables) (r : Char) : Bool :=
  IsDigit U r || r == '.'

/-- The numeric run at the head of `runes`: its longest prefix of digits and decimal
points. -/
def numericRun (U : UnicodeTables) (runes : List Char) : List Char :=
  runes.takeWhile (numericRune U)

/-- The two conditions under which a `-` is read as a sign: (a) the rune right after it is a
digit or a decimal point, and (b) no token has been emitted yet or the last emitted token is
an operator or a left parenthesis. -/
def MinusIsSign (U : UnicodeTables) (tokens : List Token) (rest : List Char) : Prop :=
  (∃ next, rest.head? = some next ∧ (IsDigit U next = true ∨ next = '.')) ∧
  (tokens = [] ∨
    ∃ last, tokens.getLast? = some last ∧ (last.Typ = TokenOperator ∨ last.Typ = TokenLParen))

/-- The table of illegal adjacencies `(current, next)` of the validator. -/
def illegalAdjacencies : List (TokenType × TokenType) :=
  [(TokenNumber, TokenNumber), (TokenNumber, TokenFunction), (TokenNumber, TokenLParen),
   (TokenOperator, TokenOperator), (TokenOperator, TokenRParen),
   (TokenFunction, TokenOperator), (TokenFunction, TokenRParen),
   (TokenLParen, TokenOperator), (TokenLParen, TokenRParen),
   (TokenRParen, TokenNumber), (TokenRParen, TokenFunction), (TokenRParen, TokenLParen)]

/-- The structural rules of the validator on a token sequence: the first token is not an
operator or a right parenthesis, the last token is not an operator, a function or a left
parenthesis, and no consecutive pair is an illegal adjacency. -/
def StructurallyValid (ts : List Token) : Prop :=
  (∀ first, ts.head? = some first →
    first.Typ ≠ TokenOperator ∧ first.Typ ≠ TokenRParen) ∧
  (∀ last, ts.getLast? = some last →
    last.Typ ≠ TokenOperator ∧ last.Typ ≠ TokenFunction ∧ last.Typ ≠ TokenLParen) ∧
  (∀ i current next, ts[i]? = some current → ts[i + 1]? = some next →
    (current.Typ, next.Typ) ∉ illegalAdjacencies)

/-- The number of left parentheses in a token sequence. -/
def leftParens (ts : List Token) : Nat :=
  ts.countP (fun t => decide (t.Typ = TokenLParen))

/-- The number of right parentheses in a token sequence. -/
def rightParens (ts : List Token) : Nat :=
  ts.countP (fun t => decide (t.Typ = TokenRParen))

/-- Unbalanced parentheses, with `depth` left parentheses already open: some prefix closes
more parentheses than are open, or the whole sequence leaves a parenthesis open. -/
def UnbalancedFrom (depth : Nat) (ts : List Token) : Prop :=
  (∃ p, p <+: ts ∧ depth + leftParens p < rightParens p) ∨
    rightParens ts < depth + leftParens ts

/-- Unbalanced parentheses: some prefix contains more right than left parentheses, or the
whole sequence contains more left than right parentheses. -/
def Unbalanced (ts : List Token) : Prop :=
  (∃ p, p <+: ts ∧ leftParens p < rightParens p) ∨ rightParens ts < leftParens ts

/-- Expression trees: number leaves, binary operator nodes and unary function nodes, each
carrying the text of its token. -/
inductive ExprTree where
  | number (text : String)
  | binary (op : String) (left right : ExprTree)
  | call (name : String) (arg : ExprTree)

/-- The fully parenthesised token sequence of a tree: a leaf is its number token, a binary
node is `( left op right )`, a function node is `name ( arg )`. -/
def ExprTree.tokens : ExprTree → List Token
  | .number text => [⟨TokenNumber, text⟩]
  | .binary op left right =>
    [⟨TokenLParen, "("⟩] ++ left.tokens ++ [⟨TokenOperator, op⟩] ++ right.tokens ++
      [⟨TokenRParen, ")"⟩]
  | .call name arg =>
    [⟨TokenFunction, name⟩, ⟨TokenLParen, "("⟩] ++ arg.tokens ++ [⟨TokenRParen, ")"⟩]

/-- The post-order traversal of a tree: operands first, then the operator or function. -/
def ExprTree.postOrder : ExprTree → List Token
  | .number text => [⟨TokenNumber, text⟩]
  | .binary op left right => left.postOrder ++ right.postOrder ++ [⟨TokenOperator, op⟩]
  | .call name arg => arg.postOrder ++ [⟨TokenFunction, name⟩]

/-- The runes `Tokenize` has a case for: white space, digits, the decimal point, letters,
the two parentheses and the six operators. -/
def AllowedRune (U : UnicodeTables) (r : Char) : Prop :=
  IsSpace U r = true ∨ IsDigit U r = true ∨ r = '.' ∨ IsLetter U r = true ∨ r = '(' ∨ r = ')' ∨
    r ∈ ['+', '-', '*', '/', '%', '^']

/-- The input contains a rune `Tokenize` has no case for. -/
def HasUnexpectedRune (U : UnicodeTables) (runes : List Char) : Prop :=
  ∃ r ∈ runes, ¬ AllowedRune U r

/-- The input contains a maximal run of consecutive digits and decimal points (not preceded
and not followed by a digit or decimal point) with two or more decimal points. -/
def HasOverlongRun (U : UnicodeTables) (runes : List Char) : Prop :=
  ∃ pre run post, runes = pre ++ run ++ post ∧
    (∀ r ∈ run, numericRune U r = true) ∧
    (∀ r, pre.getLast? = some r → numericRune U r = false) ∧
    (∀ r, post.head? = some r → numericRune U r = false) ∧
    2 ≤ run.count '.'

/-- Some position of the input is followed by a numeric run with two or more decimal
points. -/
def OverlongAhead (U : UnicodeTables) (runes : List Char) : Prop :=
  ∃ t, t <:+ runes ∧ 2 ≤ (numericRun U t).count '.'

/-- An ASCII decimal digit. -/
def asciiDigit (r : Char) : Bool :=
  decide (0x30 ≤ r.toNat ∧ r.toNat ≤ 0x39)

/-- The text of one literal number, optionally signed and optionally decimal: an optional
`-` followed by a non-empty run of ASCII digits and at most one decimal point. -/
def SignedDecimalText (s : String) : Prop :=
  ∃ body, (s.toList = body ∨ s.toList = '-' :: body) ∧ body ≠ [] ∧
    (∀ r ∈ body, asciiDigit r = true ∨ r = '.') ∧ body.count '.' ≤ 1

/-- Whether a token is a parenthesis. -/
def Token.isParen (t : Token) : Bool :=
  t.Typ == TokenLParen || t.Typ == TokenRParen

/-- Whether a token is a number. -/
def Token.isNumber (t : Token) : Bool :=
  t.Typ == TokenNumber

/-- The tokens of a sequence that are not parentheses, in order. -/
def withoutParens (ts : List Token) : List Token :=
  ts.filter (fun t => !t.isParen)

/-- The number tokens of a sequence, in order. -/
def numbersOf (ts : List Token) : List Token :=
  ts.filter Token.isNumber

/-- The texts `Tokenize` gives to number tokens: an optional `-` followed by a non-empty run
of digits and decimal points with at most one decimal point. -/
def NumberText (U : UnicodeTables) (s : String) : Prop :=
  ∃ body, (s.toList = body ∨ s.toList = '-' :: body) ∧ body ≠ [] ∧
    (∀ r ∈ body, numericRune U r = true) ∧ body.count '.' ≤ 1

/-- The `for` loop of `EvaluateRPN` alone, without the final check: the operand stack (top at
the head) after the tokens, or the error raised on the way. -/
def evaluateStack (U : UnicodeTables) (M : Float64) :
    List Token → List M.F → Except CalcError (List M.F)
  | [], stack => .ok stack
  | token :: tokens, stack =>
    match token.Typ with
    | TokenNumber =>
      match M.ParseFloat token.Value with
      | none => .error (.numberParse token.Value)
      | some val => evaluateStack U M tokens (val :: stack)
    | TokenOperator =>
      match stack with
      | b :: a :: stack1 =>
        match applyOperator M token.Value a b with
        | .error e => .error e
        | .ok res => evaluateStack U M tokens (res :: stack1)
      | _ => .error (.insufficientOperands token)
    | TokenFunction =>
      match stack with
      | arg :: stack1 =>
        match applyFunction U M token.Value arg with
        | .error e => .error e
        | .ok res => evaluateStack U M tokens (res :: stack1)
      | [] => .error (.insufficientOperands token)
    | TokenLParen => evaluateStack U M tokens stack
    | TokenRParen => evaluateStack U M tokens stack

/-- The number of number tokens in a sequence. -/
def countNumbers (ts : List Token) : Nat :=
  ts.countP (fun t => decide (t.Typ = TokenNumber))

/-- The number of operator tokens in a sequence. -/
def countOperators (ts : List Token) : Nat :=
  ts.countP (fun t => decide (t.Typ = TokenOperator))

/-- The depth of the operand stack after a postfix sequence, started at depth `d`: a number
adds one value, an operator needs two values and leaves one, a function needs one value and
leaves one; `none` when a token finds too few values. -/
def arityDepth : Nat → List Token → Option Nat
  | d, [] => some d
  | d, t :: ts =>
    match t.Typ with
    | TokenNumber => arityDepth (d + 1) ts
    | TokenOperator => if 2 ≤ d then arityDepth (d - 1) ts else none
    | TokenFunction => if 1 ≤ d then arityDepth d ts else none
    | TokenLParen => arityDepth d ts
    | TokenRParen => arityDepth d ts

/-- Whether an operand has to follow a token of this kind (an operator, a left parenthesis
or a function) rather than an operator or a right parenthesis. -/
def expectsOperand (k : TokenType) : Bool :=
  k == TokenOperator || k == TokenLParen || k == TokenFunction

/-- Whether a token sequence alternates as the validator requires, starting where an
operand is expected (`operand = true`) or where an operator or a right parenthesis is
expected, and ending after a number or a right parenthesis. -/
def sequenced : Bool → List Token → Bool
  | operand, [] => !operand
  | operand, t :: ts =>
    (if operand then t.Typ == TokenNumber || t.Typ == TokenFunction || t.Typ == TokenLParen
      else t.Typ == TokenOperator || t.Typ == TokenRParen) &&
    sequenced (expectsOperand t.Typ) ts

/-- The texts of a token sequence, concatenated in order. -/
def tokenTexts (ts : List Token) : List Char :=
  (ts.map (fun t => t.Value.toList)).flatten

/-- The runes of an input that are not white space, in order. -/
def withoutSpaces (U : UnicodeTables) (runes : List Char) : List Char :=
  runes.filter (fun r => !IsSpace U r)

/-- The property of the Unicode tables that no white-space rune is a digit or a letter. -/
def SpacesApart (U : UnicodeTables) : Prop :=
  ∀ r, IsSpace U r = true → IsDigit U r = false ∧ IsLetter U r = false

/-- The outcome of running Go code on slices: a run-time fault (an index or a slice bound
out of range), a loop still running after the number of iterations allowed, or a return
with a result. -/
inductive Outcome (α : Type) where
  | fault
  | unfinished
  | returned (result : α)

/-- The Go index expression `s[i]` for an `int` index: `none` when `i` is out of range. -/
def indexAt {α : Type} (s : List α) (i : Int) : Option α :=
  if 0 ≤ i then s[i.toNat]? else none

/-- The Go slice expression `s[lo:hi]` for `int` bounds within the length of `s`: `none`
when the bounds are out of range. -/
def sliceAt {α : Type} (s : List α) (lo hi : Int) : Option (List α) :=
  if 0 ≤ lo ∧ lo ≤ hi ∧ hi ≤ s.length then some ((s.take hi.toNat).drop lo.toNat) else none

/-- The function `EvaluateRPN` on its slices: `stack` grows at its end as `append` does, and
every read `stack[len(stack)-1]`, `stack[len(stack)-2]`, `stack[0]` and every reslice
`stack[:len(stack)-1]`, `stack[:len(stack)-2]` is a fault when out of range. -/
def evaluateIndexed (U : UnicodeTables) (M : Float64) :
    List Token → List M.F → Outcome (Except CalcError M.F)
  | [], stack =>
    if stack.length ≠ 1 then .returned (.error .invalidExpression)
    else
      match indexAt stack 0 with
      | none => .fault
      | some result => .returned (.ok result)
  | token :: tokens, stack =>
    match token.Typ with
    | TokenNumber =>
      match M.ParseFloat token.Value with
      | none => .returned (.error (.numberParse token.Value))
      | some val => evaluateIndexed U M tokens (stack ++ [val])
    | TokenOperator =>
      if stack.length < 2 then .returned (.error (.insufficientOperands token))
      else
        match indexAt stack (stack.length - 1), indexAt stack (stack.length - 2),
          sliceAt stack 0 (stack.length - 2) with
        | some b, some a, some stack1 =>
          match applyOperator M token.Value a b with
          | .error e => .returned (.error e)
          | .ok res => evaluateIndexed U M tokens (stack1 ++ [res])
        | _, _, _ => .fault
    | TokenFunction =>
      if stack.length < 1 then .returned (.error (.insufficientOperands token))
      else
        match indexAt stack (stack.length - 1), sliceAt stack 0 (stack.length - 1) with
        | some arg, some stack1 =>
          match applyFunction U M token.Value arg with
          | .error e => .returned (.error e)
          | .ok res => evaluateIndexed U M tokens (stack1 ++ [res])
        | _, _ => .fault
    | TokenLParen => evaluateIndexed U M tokens stack
    | TokenRParen => evaluateIndexed U M tokens stack

/-- The operator loop of `ShuntingYard` on its slices, run for at most `fuel` iterations:
`stack` grows at its end, and `stack[len(stack)-1]` and `stack[:len(stack)-1]` are faults
when out of range. -/
def popOperatorsIndexed (token : Token) :
    Nat → List Token → List Token → Outcome (List Token × List Token)
  | 0, _, _ => .unfinished
  | fuel + 1, output, stack =>
    if stack.length > 0 then
      match indexAt stack (stack.length - 1) with
      | none => .fault
      | some top =>
        if top.Typ = TokenOperator then
          if precedence top.Value ≥ precedence token.Value then
            match sliceAt stack 0 (stack.length - 1) with
            | none => .fault
            | some stack1 => popOperatorsIndexed token fuel (output ++ [top]) stack1
          else .returned (output, stack)
        else .returned (output, stack)
    else .returned (output, stack)

/-- The right-parenthesis loop of `ShuntingYard` on its slices, run for at most `fuel`
iterations. -/
def popToLParenIndexed :
    Nat → List Token → List Token → Outcome (List Token × List Token × Bool)
  | 0, _, _ => .unfinished
  | fuel + 1, output, stack =>
    if stack.length > 0 then
      match indexAt stack (stack.length - 1), sliceAt stack 0 (stack.length - 1) with
      | some top, some stack1 =>
        if top.Typ = TokenLParen then .returned (output, stack1, true)
        else popToLParenIndexed fuel (output ++ [top]) stack1
      | _, _ => .fault
    else .returned (output, stack, false)

/-- The final loop of `ShuntingYard` on its slices, run for at most `fuel` iterations. -/
def drainIndexed :
    Nat → List Token → List Token → Outcome (Except CalcError (List Token))
  | 0, _, _ => .unfinished
  | fuel + 1, output, stack =>
    if stack.length > 0 then
      match indexAt stack (stack.length - 1) with
      | none => .fault
      | some top =>
        if top.Typ = TokenLParen then .returned (.error .mismatchedParentheses)
        else
          match sliceAt stack 0 (stack.length - 1) with
          | none => .fault
          | some stack1 => drainIndexed fuel (output ++ [top]) stack1
    else .returned (.ok output)

/-- The function `ShuntingYard` on its slices: each inner loop is allowed one iteration more
than the stack has elements. -/
def shuntingIndexed :
    List Token → List Token → List Token → Outcome (Except CalcError (List Token))
  | [], output, stack => drainIndexed (stack.length + 1) output stack
  | token :: tokens, output, stack =>
    match token.Typ with
    | TokenNumber => shuntingIndexed tokens (output ++ [token]) stack
    | TokenFunction => shuntingIndexed tokens output (stack ++ [token])
    | TokenOperator =>
      match popOperatorsIndexed token (stack.length + 1) output stack with
      | .fault => .fault
      | .unfinished => .unfinished
      | .returned (output1, stack1) => shuntingIndexed tokens output1 (stack1 ++ [token])
    | TokenLParen => shuntingIndexed tokens output (stack ++ [token])
    | TokenRParen =>
      match popToLParenIndexed (stack.length + 1) output stack with
      | .fault => .fault
      | .unfinished => .unfinished
      | .returned (output1, stack1, found) =>
        if found = false then .returned (.error .mismatchedParentheses)
        else if stack1.length > 0 then
          match indexAt stack1 (stack1.length - 1) with
          | none => .fault
          | some top =>
            if top.Typ = TokenFunction then
              match sliceAt stack1 0 (stack1.length - 1) with
              | none => .fault
              | some stack2 => shuntingIndexed tokens (output1 ++ [top]) stack2
            else shuntingIndexed tokens output1 stack1
        else shuntingIndexed tokens output1 stack1

/-- The adjacency loop of `ValidateExpression` on its slice,
`for i := 0; i < len(tokens)-1; i++`, from index `i` for at most `fuel` iterations: the
reads `tokens[i]` and `tokens[i+1]` are faults when out of range. -/
def checkPairsIndexed (tokens : List Token) : Nat → Nat → Outcome (Except CalcError Unit)
  | 0, _ => .unfinished
  | fuel + 1, i =>
    if (i : Int) < (tokens.length : Int) - 1 then
      match indexAt tokens i, indexAt tokens ((i : Int) + 1) with
      | some current, some next =>
        if illegalNext current.Typ next.Typ then
          .returned (.error (.unexpectedToken next current))
        else checkPairsIndexed tokens fuel (i + 1)
      | _, _ => .fault
    else .returned (.ok ())

/-- The function `ValidateExpression` on its slice: the reads `tokens[0]` and
`tokens[len(tokens)-1]` are faults when out of range, and the adjacency loop is allowed as
many iterations as there are tokens. -/
def validateIndexed (tokens : List Token) : Outcome (Except CalcError Unit) :=
  if tokens.length = 0 then .returned (.ok ())
  else
    match indexAt tokens 0 with
    | none => .fault
    | some first =>
      if first.Typ = TokenOperator ∨ first.Typ = TokenRParen then
        .returned (.error (.leadingToken first.Value))
      else
        match indexAt tokens ((tokens.length : Int) - 1) with
        | none => .fault
        | some last =>
          if last.Typ = TokenOperator ∨ last.Typ = TokenFunction ∨ last.Typ = TokenLParen then
            .returned (.error (.trailingToken last.Value))
          else checkPairsIndexed tokens tokens.length 0

/-- The inner loop of a numeric literal in `Tokenize` on the slice `runes`, entered with the
index `i` and the flag `decimal` and run for at most `fuel` iterations: the look-ahead
`runes[i+1]` is a fault when out of range. It returns the final value of `i`. -/
def scanNumberIndexed (U : UnicodeTables) (runes : List Char) :
    Nat → Nat → Bool → Outcome (Except CalcError Nat)
  | 0, _, _ => .unfinished
  | fuel + 1, i, decimal =>
    if i + 1 < runes.length then
      match indexAt runes ((i : Int) + 1) with
      | none => .fault
      | some next =>
        if IsDigit U next || next == '.' then
          if decimal && next == '.' then .returned (.error .invalidNumberFormat)
          else scanNumberIndexed U runes fuel (i + 1) (decimal || next == '.')
        else .returned (.ok i)
    else .returned (.ok i)

/-- The inner loop of a function name in `Tokenize` on the slice `runes`, entered with the
index `i` and run for at most `fuel` iterations. It returns the final value of `i`. -/
def scanLettersIndexed (U : UnicodeTables) (runes : List Char) : Nat → Nat → Outcome Nat
  | 0, _ => .unfinished
  | fuel + 1, i =>
    if i + 1 < runes.length then
      match indexAt runes ((i : Int) + 1) with
      | none => .fault
      | some next =>
        if IsLetter U next then scanLettersIndexed U runes fuel (i + 1)
        else .returned i
    else .returned i

/-- The condition `len(tokens) == 0 || tokens[len(tokens)-1].Type == TokenOperator ||
tokens[len(tokens)-1].Type == TokenLParen` on the slice `tokens`; `none` is a fault of the
index expression. -/
def signPositionIndexed (tokens : List Token) : Option Bool :=
  if tokens.length = 0 then some true
  else
    match indexAt tokens ((tokens.length : Int) - 1) with
    | none => none
    | some last => some (last.Typ == TokenOperator || last.Typ == TokenLParen)

/-- The token `Token{Type: TokenNumber, Value: string(runes[start : i+1])}` appended to
`tokens`, with the final index `i`; a fault when the slice expression is out of range. -/
def emitSlice (runes : List Char) (tokens : List Token) (typ : TokenType) (start i : Nat) :
    Outcome (Except CalcError (List Token × Nat)) :=
  match sliceAt runes (start : Int) ((i : Int) + 1) with
  | none => .fault
  | some text => .returned (.ok (tokens ++ [⟨typ, String.mk text⟩], i))

/-- One iteration of the main loop of `Tokenize` on the slice `runes`, at the index `i` with
`char = runes[i]` not white space. It returns the new `tokens` and the value of `i` at the
end of the body. The inner loops are allowed as many iterations as there are runes. -/
def tokenizeStepIndexed (U : UnicodeTables) (runes : List Char) (tokens : List Token)
    (i : Nat) (char : Char) : Outcome (Except CalcError (List Token × Nat)) :=
  if IsDigit U char || char == '.' then
    match scanNumberIndexed U runes runes.length i (char == '.') with
    | .fault => .fault
    | .unfinished => .unfinished
    | .returned (.error e) => .returned (.error e)
    | .returned (.ok j) => emitSlice runes tokens TokenNumber i j
  else if char == '(' then .returned (.ok (tokens ++ [⟨TokenLParen, "("⟩], i))
  else if char == ')' then .returned (.ok (tokens ++ [⟨TokenRParen, ")"⟩], i))
  else if isOperator (String.mk [char]) then
    if char == '-' then
      match signPositionIndexed tokens with
      | none => .fault
      | some false => .returned (.ok (tokens ++ [⟨TokenOperator, String.mk [char]⟩], i))
      | some true =>
        if i + 1 < runes.length then
          match indexAt runes ((i : Int) + 1) with
          | none => .fault
          | some next =>
            if IsDigit U next || next == '.' then
              match indexAt runes ((i + 1 : Nat) : Int) with
              | none => .fault
              | some current =>
                match scanNumberIndexed U runes runes.length (i + 1) (current == '.') with
                | .fault => .fault
                | .unfinished => .unfinished
                | .returned (.error e) => .returned (.error e)
                | .returned (.ok j) => emitSlice runes tokens TokenNumber i j
            else .returned (.ok (tokens ++ [⟨TokenOperator, String.mk [char]⟩], i))
        else .returned (.ok (tokens ++ [⟨TokenOperator, String.mk [char]⟩], i))
    else .returned (.ok (tokens ++ [⟨TokenOperator, String.mk [char]⟩], i))
  else if IsLetter U char then
    match scanLettersIndexed U runes runes.length i with
    | .fault => .fault
    | .unfinished => .unfinished
    | .returned j => emitSlice runes tokens TokenFunction i j
  else .returned (.error (.unexpectedCharacter char))

/-- The main loop of `Tokenize` on the slice `runes`, `for i := 0; i < len(runes); i++`,
entered with the index `i` and run for at most `fuel` tests of its condition: the read
`runes[i]` is a fault when out of range. -/
def tokenizeIndexed (U : UnicodeTables) (runes : List Char) :
    Nat → Nat → List Token → Outcome (Except CalcError (List Token))
  | 0, _, _ => .unfinished
  | fuel + 1, i, tokens =>
    if i < runes.length then
      match indexAt runes (i : Int) with
      | none => .fault
      | some char =>
        if IsSpace U char then tokenizeIndexed U runes fuel (i + 1) tokens
        else
          match tokenizeStepIndexed U runes tokens i char with
          | .fault => .fault
          | .unfinished => .unfinished
          | .returned (.error e) => .returned (.error e)
          | .returned (.ok (tokens1, j)) => tokenizeIndexed U runes fuel (j + 1) tokens1
    else .returned (.ok tokens)

/-- The function `Tokenize` on its slices: the main loop is allowed one test of its condition
more than there are runes. -/
def TokenizeIndexed (U : UnicodeTables) (expr : String) :
    Outcome (Except CalcError (List Token)) :=
  tokenizeIndexed U expr.toList (expr.toList.length + 1) 0 []

/-- The function `Calculate` on the slice-level stages: a fault or an unfinished loop of a
stage is one of `Calculate`. -/
def CalculateIndexed (U : UnicodeTables) (M : Float64) (expr : String) :
    Outcome (Except CalcError M.F) :=
  match TokenizeIndexed U expr with
  | .fault => .fault
  | .unfinished => .unfinished
  | .returned (.error e) => .returned (.error e)
  | .returned (.ok tokens) =>
    match validateIndexed tokens with
    | .fault => .fault
    | .unfinished => .unfinished
    | .returned (.error e) => .returned (.error e)
    | .returned (.ok _) =>
      match shuntingIndexed tokens [] [] with
      | .fault => .fault
      | .unfinished => .unfinished
      | .returned (.error e) => .returned (.error e)
      | .returned (.ok rpn) => evaluateIndexed U M rpn []

/-- The result of one iteration of `Tokenize` in terms of the index: the list-level
iteration with its advance added to `i`. -/
def stepAt (i : Nat) : Except CalcError (List Token × Nat) → Except CalcError (List Token × Nat)
  | .error e => .error e
  | .ok (tokens1, advance) => .ok (tokens1, i + advance)

/-! ## Operator precedence in `ShuntingYard` -/

/-- C1: for number texts `a`, `b`, `c` and supported operators `op1`, `op2` (precedence
`+ -` = 1, `* / %` = 2, `^` = 3), `ShuntingYard` succeeds on `a op1 b op2 c`, with output
`a b op1 c op2` when `precedence op1 ≥ precedence op2` (so equal precedence groups to the
left, `^` included) and `a b c op2 op1` otherwise. -/
theorem shuntingYard_precedence (a b c op1 op2 : String)
    (h1 : isOperator op1 = true) (h2 : isOperator op2 = true) :
    (precedence "+" = 1 ∧ precedence "-" = 1 ∧ precedence "*" = 2 ∧ precedence "/" = 2 ∧
      precedence "%" = 2 ∧ precedence "^" = 3) ∧
    1 ≤ precedence op1 ∧ 1 ≤ precedence op2 ∧
    (precedence op1 ≥ precedence op2 →
      ShuntingYard [⟨TokenNumber, a⟩, ⟨TokenOperator, op1⟩, ⟨TokenNumber, b⟩,
          ⟨TokenOperator, op2⟩, ⟨TokenNumber, c⟩] =
        .ok [⟨TokenNumber, a⟩, ⟨TokenNumber, b⟩, ⟨TokenOperator, op1⟩, ⟨TokenNumber, c⟩,
          ⟨TokenOperator, op2⟩]) ∧
    (precedence op1 < precedence op2 →
      ShuntingYard [⟨TokenNumber, a⟩, ⟨TokenOperator, op1⟩, ⟨TokenNumber, b⟩,
          ⟨TokenOperator, op2⟩, ⟨TokenNumber, c⟩] =
        .ok [⟨TokenNumber, a⟩, ⟨TokenNumber, b⟩, ⟨TokenNumber, c⟩, ⟨TokenOperator, op2⟩,
          ⟨TokenOperator, op1⟩]) ∧
    ShuntingYard [⟨TokenNumber, a⟩, ⟨TokenOperator, "^"⟩, ⟨TokenNumber, b⟩,
        ⟨TokenOperator, "^"⟩, ⟨TokenNumber, c⟩] =
      .ok [⟨TokenNumber, a⟩, ⟨TokenNumber, b⟩, ⟨TokenOperator, "^"⟩, ⟨TokenNumber, c⟩,
        ⟨TokenOperator, "^"⟩] := by
  refine ⟨by decide, ?_, ?_, ?_, ?_, ?_⟩
  · simp only [isOperator, Bool.or_eq_true, beq_iff_eq] at h1
    rcases h1 with ((((h | h) | h) | h) | h) | h <;> subst h <;> decide
  · simp only [isOperator, Bool.or_eq_true, beq_iff_eq] at h2
    rcases h2 with ((((h | h) | h) | h) | h) | h <;> subst h <;> decide
  · intro h
    simp [ShuntingYard, shuntingLoop, popOperators, drainStack, h]
  · intro h
    have h' : ¬ precedence op2 ≤ precedence op1 := by omega
    simp [ShuntingYard, shuntingLoop, popOperators, drainStack, h']
  · simp [ShuntingYard, shuntingLoop, popOperators, drainStack]

/-- C1 at `2 + 3 * 4`: the product is emitted before the sum; with the exact arithmetic
`2 + 3 * 4` evaluates to `14` and `2 + 3 * 4 ^ 2` to `50`. -/
theorem shuntingYard_precedence_witness :
    (isOperator "+" = true ∧ isOperator "*" = true) ∧
    ShuntingYard [⟨TokenNumber, "2"⟩, ⟨TokenOperator, "+"⟩, ⟨TokenNumber, "3"⟩,
        ⟨TokenOperator, "*"⟩, ⟨TokenNumber, "4"⟩] =
      .ok [⟨TokenNumber, "2"⟩, ⟨TokenNumber, "3"⟩, ⟨TokenNumber, "4"⟩, ⟨TokenOperator, "*"⟩,
        ⟨TokenOperator, "+"⟩] ∧
    (∀ U : UnicodeTables, Calculate U exactArith "2 + 3 * 4" = .ok (some 14)) ∧
    (∀ U : UnicodeTables, Calculate U exactArith "2 + 3 * 4 ^ 2" = .ok (some 50)) := by
  refine ⟨⟨by decide, by decide⟩, ?_, ?_, ?_⟩
  · exact (shuntingYard_precedence "2" "3" "4" "+" "*" (by decide) (by decide)).2.2.2.2.1
      (by decide)
  · intro U
    simp [Calculate, Tokenize, tokenizeLoop, tokenizeStep, scanNumber, IsSpace, IsDigit, IsLetter, isOperator,
      signPosition, ValidateExpression, checkPairs, illegalNext, ShuntingYard, shuntingLoop,
      popOperators, popToLParen, drainStack, precedence, EvaluateRPN, evaluateLoop,
      applyOperator, exactArith, exactParse, decimalValue, digitsValue]
    norm_num
  · intro U
    simp [Calculate, Tokenize, tokenizeLoop, tokenizeStep, scanNumber, IsSpace, IsDigit, IsLetter, isOperator,
      signPosition, ValidateExpression, checkPairs, illegalNext, ShuntingYard, shuntingLoop,
      popOperators, popToLParen, drainStack, precedence, EvaluateRPN, evaluateLoop,
      applyOperator, exactArith, exactParse, decimalValue, digitsValue]
    norm_num

/-! ## Unary minus in `Tokenize` -/

/-- The inner loop of a numeric literal steps over the numeric run, and fails exactly when
the run, together with the decimal point already seen, holds two decimal points. -/
theorem scanNumber_eq (U : UnicodeTables) (decimal : Bool) (rest : List Char) :
    scanNumber U decimal rest =
      if (numericRun U rest).count '.' + decimal.toNat ≤ 1 then .ok (numericRun U rest)
      else .error .invalidNumberFormat := by
  induction rest generalizing decimal with
  | nil => cases decimal <;> simp [scanNumber, numericRun]
  | cons next rest ih =>
    unfold scanNumber
    by_cases hn : (IsDigit U next || next == '.') = true
    · have hrun : numericRun U (next :: rest) = next :: numericRun U rest := by
        simp [numericRun, numericRune, hn]
      rw [if_pos hn, hrun, ih]
      by_cases hdot : next = '.'
      · subst hdot
        rw [List.count_cons_self]
        cases decimal
        · have e1 : (false && ('.' == '.')) = false := rfl
          have e2 : (false || ('.' == '.')) = true := rfl
          rw [e1, e2]
          simp only [Bool.false_eq_true, if_false, Bool.toNat_true, Bool.toNat_false]
          by_cases hc : List.count '.' (numericRun U rest) + 1 ≤ 1
          · rw [if_pos hc, if_pos (by omega)]
          · rw [if_neg hc, if_neg (by omega)]
        · have e1 : (true && ('.' == '.')) = true := rfl
          rw [e1, if_pos rfl, if_neg]
          simp
      · have hne : (next == '.') = false := by simpa using hdot
        have hcount : List.count '.' (next :: numericRun U rest) =
            List.count '.' (numericRun U rest) := by
          rw [List.count_cons]
          simp [hne]
        rw [hcount, hne, Bool.and_false, Bool.or_false]
        simp only [Bool.false_eq_true, if_false]
        by_cases hc : List.count '.' (numericRun U rest) + decimal.toNat ≤ 1
        · rw [if_pos hc, if_pos hc]
        · rw [if_neg hc, if_neg hc]
    · have hrun : numericRun U (next :: rest) = [] := by
        simp [numericRun, numericRune, hn]
      rw [if_neg hn, hrun]
      cases decimal <;> simp

/-- C2 (amended): at a `-` that starts a token, with `tokens` emitted so far and `rest` the
runes after it, the loop runs the iteration `tokenizeStep` (the `-` is not skipped), and
* if (a) the next rune is a digit or a decimal point and (b) no token has been emitted or
  the last one is an operator or a left parenthesis, then the iteration emits the single
  number token made of the `-` and the numeric run after it when that run has at most one
  decimal point, and fails with the invalid-number error when the run has two or more;
* otherwise the iteration emits the operator token with text `-`. -/
theorem tokenize_minus_sign (U : UnicodeTables) (tokens : List Token) (rest : List Char) :
    (tokenizeLoop U tokens ('-' :: rest) =
      match tokenizeStep U tokens '-' rest with
      | .error e => .error e
      | .ok (tokens1, advance) => tokenizeLoop U tokens1 (rest.drop advance)) ∧
    (MinusIsSign U tokens rest → (numericRun U rest).count '.' ≤ 1 →
      tokenizeStep U tokens '-' rest =
        .ok (tokens ++ [⟨TokenNumber, String.mk ('-' :: numericRun U rest)⟩],
          (numericRun U rest).length)) ∧
    (MinusIsSign U tokens rest → 2 ≤ (numericRun U rest).count '.' →
      tokenizeStep U tokens '-' rest = .error .invalidNumberFormat) ∧
    (¬ MinusIsSign U tokens rest →
      tokenizeStep U tokens '-' rest = .ok (tokens ++ [⟨TokenOperator, "-"⟩], 0)) := by
  have hsp : IsSpace U '-' = false := by simp [IsSpace]
  have hdg : IsDigit U '-' = false := by simp [IsDigit]
  have hop : isOperator (String.mk ['-']) = true := by decide
  have hpos : signPosition tokens = true ↔
      (tokens = [] ∨ ∃ last, tokens.getLast? = some last ∧
        (last.Typ = TokenOperator ∨ last.Typ = TokenLParen)) := by
    unfold signPosition
    cases hl : tokens.getLast? with
    | none => simp [List.getLast?_eq_none_iff.mp hl]
    | some last =>
      have hne : tokens ≠ [] := by
        intro h
        simp [h] at hl
      simp [hne]
  have hstep : tokenizeStep U tokens '-' rest =
      if signPosition tokens = true then
        match rest with
        | [] => .ok (tokens ++ [⟨TokenOperator, "-"⟩], 0)
        | next :: rest2 =>
          if (IsDigit U next || next == '.') = true then
            match scanNumber U (next == '.') rest2 with
            | .error e => .error e
            | .ok run =>
              .ok (tokens ++ [⟨TokenNumber, String.mk ('-' :: next :: run)⟩], 1 + run.length)
          else .ok (tokens ++ [⟨TokenOperator, "-"⟩], 0)
      else .ok (tokens ++ [⟨TokenOperator, "-"⟩], 0) := by
    unfold tokenizeStep
    simp [hdg, hop]
  refine ⟨?_, ?_, ?_, ?_⟩
  · rw [tokenizeLoop]
    simp [hsp]
  · rintro ⟨⟨next, hhead, hnum⟩, hb⟩ hcount
    cases rest with
    | nil => simp at hhead
    | cons r rest2 =>
      simp only [List.head?_cons, Option.some.injEq] at hhead
      subst hhead
      have hn : (IsDigit U r || r == '.') = true := by simpa using hnum
      have hrun : numericRun U (r :: rest2) = r :: numericRun U rest2 := by
        simp [numericRun, numericRune, hn]
      rw [hstep, if_pos (hpos.mpr hb)]
      simp only [hn, if_true]
      rw [scanNumber_eq, hrun]
      rw [hrun, List.count_cons] at hcount
      have hle : List.count '.' (numericRun U rest2) + (r == '.').toNat ≤ 1 := by
        cases hr : (r == '.') <;> simp [hr] at hcount ⊢ <;> omega
      rw [if_pos hle]
      simp [Nat.add_comm]
  · rintro ⟨⟨next, hhead, hnum⟩, hb⟩ hcount
    cases rest with
    | nil => simp at hhead
    | cons r rest2 =>
      simp only [List.head?_cons, Option.some.injEq] at hhead
      subst hhead
      have hn : (IsDigit U r || r == '.') = true := by simpa using hnum
      have hrun : numericRun U (r :: rest2) = r :: numericRun U rest2 := by
        simp [numericRun, numericRune, hn]
      rw [hstep, if_pos (hpos.mpr hb)]
      simp only [hn, if_true]
      rw [scanNumber_eq]
      rw [hrun, List.count_cons] at hcount
      have hle : ¬ (List.count '.' (numericRun U rest2) + (r == '.').toNat ≤ 1) := by
        cases hr : (r == '.')
        · simp only [hr, Bool.false_eq_true, if_false, Bool.toNat_false] at hcount ⊢
          omega
        · simp only [hr, if_true, Bool.toNat_true] at hcount ⊢
          omega
      rw [if_neg hle]
  · intro hnot
    rw [hstep]
    by_cases hs : signPosition tokens = true
    · rw [if_pos hs]
      cases rest with
      | nil => rfl
      | cons r rest2 =>
        have hn : ¬ (IsDigit U r || r == '.') = true := by
          intro hn
          exact hnot ⟨⟨r, rfl, by simpa using hn⟩, hpos.mp hs⟩
        simp [hn]
    · rw [if_neg hs]

/-- C2 at concrete positions: the leading `-` of `-5 + 3` is a sign, the leading `-` of
`-1.2.3` is a sign in front of a malformed literal, and a `-` after the number `5` is an
operator; the four sample expressions tokenize as stated. -/
theorem tokenize_minus_sign_witness :
    (MinusIsSign latin1Tables [] ['5', ' ', '+', ' ', '3'] ∧
      (numericRun latin1Tables ['5', ' ', '+', ' ', '3']).count '.' ≤ 1 ∧
      tokenizeStep latin1Tables [] '-' ['5', ' ', '+', ' ', '3'] =
        .ok ([⟨TokenNumber, "-5"⟩], 1)) ∧
    (MinusIsSign latin1Tables [] ['1', '.', '2', '.', '3'] ∧
      2 ≤ (numericRun latin1Tables ['1', '.', '2', '.', '3']).count '.' ∧
      tokenizeStep latin1Tables [] '-' ['1', '.', '2', '.', '3'] =
        .error .invalidNumberFormat) ∧
    (¬ MinusIsSign latin1Tables [⟨TokenNumber, "5"⟩] ['3'] ∧
      tokenizeStep latin1Tables [⟨TokenNumber, "5"⟩] '-' ['3'] =
        .ok ([⟨TokenNumber, "5"⟩, ⟨TokenOperator, "-"⟩], 0)) ∧
    (∀ U : UnicodeTables, Tokenize U "-5 + 3" =
      .ok [⟨TokenNumber, "-5"⟩, ⟨TokenOperator, "+"⟩, ⟨TokenNumber, "3"⟩]) ∧
    (∀ U : UnicodeTables, Tokenize U "5 - -3" =
      .ok [⟨TokenNumber, "5"⟩, ⟨TokenOperator, "-"⟩, ⟨TokenNumber, "-3"⟩]) ∧
    (∀ U : UnicodeTables, Tokenize U "5 * (-3 + 2)" =
      .ok [⟨TokenNumber, "5"⟩, ⟨TokenOperator, "*"⟩, ⟨TokenLParen, "("⟩, ⟨TokenNumber, "-3"⟩,
        ⟨TokenOperator, "+"⟩, ⟨TokenNumber, "2"⟩, ⟨TokenRParen, ")"⟩]) ∧
    (∀ U : UnicodeTables, Tokenize U "-2 ^ 2" =
      .ok [⟨TokenNumber, "-2"⟩, ⟨TokenOperator, "^"⟩, ⟨TokenNumber, "2"⟩]) := by
  have h1 : MinusIsSign latin1Tables [] ['5', ' ', '+', ' ', '3'] :=
    ⟨⟨'5', rfl, Or.inl (by decide)⟩, Or.inl rfl⟩
  have h1c : (numericRun latin1Tables ['5', ' ', '+', ' ', '3']).count '.' ≤ 1 := by decide
  have h2 : MinusIsSign latin1Tables [] ['1', '.', '2', '.', '3'] :=
    ⟨⟨'1', rfl, Or.inl (by decide)⟩, Or.inl rfl⟩
  have h2c : 2 ≤ (numericRun latin1Tables ['1', '.', '2', '.', '3']).count '.' := by decide
  have h3 : ¬ MinusIsSign latin1Tables [⟨TokenNumber, "5"⟩] ['3'] := by
    rintro ⟨-, h | ⟨last, hl, ht⟩⟩
    · exact absurd h (by decide)
    · simp only [List.getLast?_singleton, Option.some.injEq] at hl
      subst hl
      exact absurd ht (by decide)
  refine ⟨⟨h1, h1c, ?_⟩, ⟨h2, h2c, ?_⟩, ⟨h3, ?_⟩, ?_, ?_, ?_, ?_⟩
  · exact (tokenize_minus_sign latin1Tables [] ['5', ' ', '+', ' ', '3']).2.1 h1 h1c
  · exact (tokenize_minus_sign latin1Tables [] ['1', '.', '2', '.', '3']).2.2.1 h2 h2c
  · exact (tokenize_minus_sign latin1Tables [⟨TokenNumber, "5"⟩] ['3']).2.2.2 h3
  · intro U
    simp [Tokenize, tokenizeLoop, tokenizeStep, scanNumber, IsSpace, IsDigit, IsLetter,
      isOperator, signPosition]
  · intro U
    simp [Tokenize, tokenizeLoop, tokenizeStep, scanNumber, IsSpace, IsDigit, IsLetter,
      isOperator, signPosition]
  · intro U
    simp [Tokenize, tokenizeLoop, tokenizeStep, scanNumber, IsSpace, IsDigit, IsLetter,
      isOperator, signPosition]
  · intro U
    simp [Tokenize, tokenizeLoop, tokenizeStep, scanNumber, IsSpace, IsDigit, IsLetter,
      isOperator, signPosition]

/-- C2 as stated fails at `-1.2.3`: the leading `-` starts a token, the rune after it is a
digit and no token has been emitted, yet the iteration emits no number token: it fails, and
so does `Tokenize`. -/
theorem tokenize_minus_sign_counterexample :
    MinusIsSign latin1Tables [] ['1', '.', '2', '.', '3'] ∧
    tokenizeStep latin1Tables [] '-' ['1', '.', '2', '.', '3'] = .error .invalidNumberFormat ∧
    Tokenize latin1Tables "-1.2.3" = .error .invalidNumberFormat := by
  refine ⟨⟨⟨'1', rfl, Or.inl (by decide)⟩, Or.inl rfl⟩, rfl, ?_⟩
  simp [Tokenize, tokenizeLoop, tokenizeStep, scanNumber, IsSpace, IsDigit, IsLetter,
    isOperator, signPosition]

/-! ## `ValidateExpression` -/

/-- The `switch` of the adjacency loop rejects exactly the pairs of the table. -/
theorem illegalNext_iff (current next : TokenType) :
    illegalNext current next = true ↔ (current, next) ∈ illegalAdjacencies := by
  cases current <;> cases next <;> decide

/-- The adjacency loop passes exactly when no consecutive pair is in the table. -/
theorem checkPairs_ok_iff (ts : List Token) :
    checkPairs ts = .ok () ↔
      ∀ i current next, ts[i]? = some current → ts[i + 1]? = some next →
        (current.Typ, next.Typ) ∉ illegalAdjacencies := by
  induction ts with
  | nil => simp [checkPairs]
  | cons a ts ih =>
    cases ts with
    | nil =>
      simp [checkPairs]
    | cons b ts =>
      unfold checkPairs
      by_cases hab : illegalNext a.Typ b.Typ = true
      · rw [if_pos hab]
        constructor
        · intro h
          cases h
        · intro h
          exact absurd ((illegalNext_iff _ _).mp hab) (h 0 a b rfl (by simp))
      · rw [if_neg hab, ih]
        constructor
        · intro h i current next hc hn
          cases i with
          | zero =>
            simp only [List.getElem?_cons_zero, Option.some.injEq, zero_add,
              List.getElem?_cons_succ] at hc hn
            subst hc
            subst hn
            exact fun hmem => hab ((illegalNext_iff _ _).mpr hmem)
          | succ i =>
            exact h i current next (by simpa using hc) (by simpa using hn)
        · intro h i current next hc hn
          exact h (i + 1) current next (by simpa using hc) (by simpa using hn)

/-- C3: `ValidateExpression` returns no error exactly when the sequence is empty, or its
first token is not an operator or right parenthesis, its last token is not an operator,
function or left parenthesis, and no consecutive pair is one of the illegal adjacencies. -/
theorem validateExpression_ok_iff (ts : List Token) :
    ValidateExpression ts = .ok () ↔ ts = [] ∨ StructurallyValid ts := by
  cases ts with
  | nil => simp [ValidateExpression]
  | cons a rest =>
    obtain ⟨l, hl⟩ : ∃ l, (a :: rest).getLast? = some l :=
      ⟨_, List.getLast?_eq_getLast _ (by simp)⟩
    have hv : ValidateExpression (a :: rest) =
        if a.Typ = TokenOperator ∨ a.Typ = TokenRParen then .error (.leadingToken a.Value)
        else if l.Typ = TokenOperator ∨ l.Typ = TokenFunction ∨ l.Typ = TokenLParen then
          .error (.trailingToken l.Value)
        else checkPairs (a :: rest) := by
      unfold ValidateExpression
      rw [hl]
      rfl
    rw [hv]
    unfold StructurallyValid
    rw [hl]
    simp only [List.head?_cons, Option.some.injEq, forall_eq', reduceCtorEq, false_or]
    by_cases h1 : a.Typ = TokenOperator ∨ a.Typ = TokenRParen
    · rw [if_pos h1]
      constructor
      · intro h
        cases h
      · rintro ⟨⟨ha, hb⟩, -⟩
        rcases h1 with h1 | h1
        · exact absurd h1 ha
        · exact absurd h1 hb
    · rw [if_neg h1]
      by_cases h2 : l.Typ = TokenOperator ∨ l.Typ = TokenFunction ∨ l.Typ = TokenLParen
      · rw [if_pos h2]
        constructor
        · intro h
          cases h
        · rintro ⟨-, ⟨ha, hb, hc⟩, -⟩
          rcases h2 with h2 | h2 | h2
          · exact absurd h2 ha
          · exact absurd h2 hb
          · exact absurd h2 hc
      · rw [if_neg h2, checkPairs_ok_iff]
        constructor
        · intro h
          exact ⟨⟨fun e => h1 (Or.inl e), fun e => h1 (Or.inr e)⟩,
            ⟨fun e => h2 (Or.inl e), fun e => h2 (Or.inr (Or.inl e)),
              fun e => h2 (Or.inr (Or.inr e))⟩, h⟩
        · rintro ⟨-, -, h⟩
          exact h

/-- C3 at concrete sequences: the tokens of `2 + 3` satisfy the rules and are accepted; the
tokens of `2 + + 3`, `2 3`, `* 3`, `3 +`, `()`, `2(3)` and `(2)(3)` are rejected. -/
theorem validateExpression_ok_iff_witness :
    (ValidateExpression [⟨TokenNumber, "2"⟩, ⟨TokenOperator, "+"⟩, ⟨TokenNumber, "3"⟩] = .ok () ∧
      StructurallyValid [⟨TokenNumber, "2"⟩, ⟨TokenOperator, "+"⟩, ⟨TokenNumber, "3"⟩]) ∧
    ValidateExpression [⟨TokenNumber, "2"⟩, ⟨TokenOperator, "+"⟩, ⟨TokenOperator, "+"⟩,
        ⟨TokenNumber, "3"⟩] =
      .error (.unexpectedToken ⟨TokenOperator, "+"⟩ ⟨TokenOperator, "+"⟩) ∧
    ValidateExpression [⟨TokenNumber, "2"⟩, ⟨TokenNumber, "3"⟩] =
      .error (.unexpectedToken ⟨TokenNumber, "3"⟩ ⟨TokenNumber, "2"⟩) ∧
    ValidateExpression [⟨TokenOperator, "*"⟩, ⟨TokenNumber, "3"⟩] = .error (.leadingToken "*") ∧
    ValidateExpression [⟨TokenNumber, "3"⟩, ⟨TokenOperator, "+"⟩] = .error (.trailingToken "+") ∧
    ValidateExpression [⟨TokenLParen, "("⟩, ⟨TokenRParen, ")"⟩] =
      .error (.unexpectedToken ⟨TokenRParen, ")"⟩ ⟨TokenLParen, "("⟩) ∧
    ValidateExpression [⟨TokenNumber, "2"⟩, ⟨TokenLParen, "("⟩, ⟨TokenNumber, "3"⟩,
        ⟨TokenRParen, ")"⟩] =
      .error (.unexpectedToken ⟨TokenLParen, "("⟩ ⟨TokenNumber, "2"⟩) ∧
    ValidateExpression [⟨TokenLParen, "("⟩, ⟨TokenNumber, "2"⟩, ⟨TokenRParen, ")"⟩,
        ⟨TokenLParen, "("⟩, ⟨TokenNumber, "3"⟩, ⟨TokenRParen, ")"⟩] =
      .error (.unexpectedToken ⟨TokenLParen, "("⟩ ⟨TokenRParen, ")"⟩) := by
  refine ⟨⟨rfl, ?_⟩, rfl, rfl, rfl, rfl, rfl, rfl, rfl⟩
  exact ((validateExpression_ok_iff
    [⟨TokenNumber, "2"⟩, ⟨TokenOperator, "+"⟩, ⟨TokenNumber, "3"⟩]).mp rfl).resolve_left
      (by simp)

/-! ## Unfolding `ShuntingYard` by token kind -/

theorem shuntingLoop_number (t : Token) (ts output stack : List Token)
    (h : t.Typ = TokenNumber) :
    shuntingLoop (t :: ts) output stack = shuntingLoop ts (output ++ [t]) stack := by
  rw [shuntingLoop]
  simp [h]

theorem shuntingLoop_function (t : Token) (ts output stack : List Token)
    (h : t.Typ = TokenFunction) :
    shuntingLoop (t :: ts) output stack = shuntingLoop ts output (t :: stack) := by
  rw [shuntingLoop]
  simp [h]

theorem shuntingLoop_operator (t : Token) (ts output stack : List Token)
    (h : t.Typ = TokenOperator) :
    shuntingLoop (t :: ts) output stack =
      shuntingLoop ts (popOperators t output stack).1 (t :: (popOperators t output stack).2) := by
  rw [shuntingLoop]
  simp [h]

theorem shuntingLoop_lparen (t : Token) (ts output stack : List Token)
    (h : t.Typ = TokenLParen) :
    shuntingLoop (t :: ts) output stack = shuntingLoop ts output (t :: stack) := by
  rw [shuntingLoop]
  simp [h]

theorem shuntingLoop_rparen (t : Token) (ts output stack : List Token)
    (h : t.Typ = TokenRParen) :
    shuntingLoop (t :: ts) output stack =
      match popToLParen output stack with
      | (_, _, false) => .error .mismatchedParentheses
      | (output1, [], true) => shuntingLoop ts output1 []
      | (output1, top :: stack1, true) =>
        if top.Typ = TokenFunction then shuntingLoop ts (output1 ++ [top]) stack1
        else shuntingLoop ts output1 (top :: stack1) := by
  rw [shuntingLoop]
  simp [h]

/-! ## Parenthesis balance in `ShuntingYard` -/

theorem leftParens_cons (t : Token) (ts : List Token) :
    leftParens (t :: ts) = leftParens ts + if t.Typ = TokenLParen then 1 else 0 := by
  simp [leftParens, List.countP_cons]

theorem rightParens_cons (t : Token) (ts : List Token) :
    rightParens (t :: ts) = rightParens ts + if t.Typ = TokenRParen then 1 else 0 := by
  simp [rightParens, List.countP_cons]

/-- Popping operators leaves the left parentheses of the stack in place. -/
theorem leftParens_popOperators (t : Token) (output stack : List Token) :
    leftParens (popOperators t output stack).2 = leftParens stack := by
  induction stack generalizing output with
  | nil => rfl
  | cons top stack ih =>
    unfold popOperators
    by_cases h1 : top.Typ = TokenOperator
    · by_cases h2 : precedence top.Value ≥ precedence t.Value
      · rw [if_pos h1, if_pos h2, ih, leftParens_cons]
        simp [h1]
      · rw [if_pos h1, if_neg h2]
    · rw [if_neg h1]

/-- The right-parenthesis loop finds a left parenthesis exactly when the stack holds one,
and then removes exactly one. -/
theorem popToLParen_found (output stack : List Token) :
    ((popToLParen output stack).2.2 = true ↔ 0 < leftParens stack) ∧
    ((popToLParen output stack).2.2 = true →
      leftParens (popToLParen output stack).2.1 + 1 = leftParens stack) := by
  induction stack generalizing output with
  | nil => simp [popToLParen, leftParens]
  | cons top stack ih =>
    unfold popToLParen
    by_cases h : top.Typ = TokenLParen
    · rw [if_pos h, leftParens_cons]
      simp [h]
    · rw [if_neg h, leftParens_cons]
      simpa [h] using ih (output ++ [top])

/-- The final loop fails exactly when the stack holds a left parenthesis, and only with the
mismatched-parentheses error. -/
theorem drainStack_error (output stack : List Token) :
    ((∃ e, drainStack output stack = .error e) ↔ 0 < leftParens stack) ∧
    (∀ e, drainStack output stack = .error e → e = .mismatchedParentheses) := by
  induction stack generalizing output with
  | nil => simp [drainStack, leftParens]
  | cons top stack ih =>
    unfold drainStack
    by_cases h : top.Typ = TokenLParen
    · rw [if_pos h, leftParens_cons]
      simp [h]
    · rw [if_neg h, leftParens_cons]
      simpa [h] using ih (output ++ [top])

theorem unbalancedFrom_nil (d : Nat) : UnbalancedFrom d [] ↔ 0 < d := by
  unfold UnbalancedFrom
  constructor
  · rintro (⟨p, hp, h⟩ | h)
    · have : p = [] := by simpa using hp
      subst this
      simp [leftParens, rightParens] at h
    · simpa [leftParens, rightParens] using h
  · intro h
    exact Or.inr (by simpa [leftParens, rightParens] using h)

/-- A token that is no parenthesis does not change the balance. -/
theorem unbalancedFrom_cons_other (d : Nat) (t : Token) (ts : List Token)
    (hl : t.Typ ≠ TokenLParen) (hr : t.Typ ≠ TokenRParen) :
    UnbalancedFrom d (t :: ts) ↔ UnbalancedFrom d ts := by
  unfold UnbalancedFrom
  rw [leftParens_cons, rightParens_cons, if_neg hl, if_neg hr]
  constructor
  · rintro (⟨p, hp, h⟩ | h)
    · rcases List.prefix_cons_iff.mp hp with rfl | ⟨q, rfl, hq⟩
      · simp [leftParens, rightParens] at h
      · rw [leftParens_cons, rightParens_cons, if_neg hl, if_neg hr] at h
        exact Or.inl ⟨q, hq, h⟩
    · exact Or.inr h
  · rintro (⟨p, hp, h⟩ | h)
    · refine Or.inl ⟨t :: p, List.prefix_cons_iff.mpr (Or.inr ⟨p, rfl, hp⟩), ?_⟩
      rw [leftParens_cons, rightParens_cons, if_neg hl, if_neg hr]
      exact h
    · exact Or.inr h

/-- A left parenthesis opens one more level. -/
theorem unbalancedFrom_cons_lparen (d : Nat) (t : Token) (ts : List Token)
    (hl : t.Typ = TokenLParen) :
    UnbalancedFrom d (t :: ts) ↔ UnbalancedFrom (d + 1) ts := by
  have hr : t.Typ ≠ TokenRParen := by rw [hl]; decide
  unfold UnbalancedFrom
  rw [leftParens_cons, rightParens_cons, if_pos hl, if_neg hr]
  constructor
  · rintro (⟨p, hp, h⟩ | h)
    · rcases List.prefix_cons_iff.mp hp with rfl | ⟨q, rfl, hq⟩
      · simp [leftParens, rightParens] at h
      · rw [leftParens_cons, rightParens_cons, if_pos hl, if_neg hr] at h
        exact Or.inl ⟨q, hq, by omega⟩
    · exact Or.inr (by omega)
  · rintro (⟨p, hp, h⟩ | h)
    · refine Or.inl ⟨t :: p, List.prefix_cons_iff.mpr (Or.inr ⟨p, rfl, hp⟩), ?_⟩
      rw [leftParens_cons, rightParens_cons, if_pos hl, if_neg hr]
      omega
    · exact Or.inr (by omega)

/-- A right parenthesis with no level open is unbalanced. -/
theorem unbalancedFrom_cons_rparen_zero (t : Token) (ts : List Token)
    (hr : t.Typ = TokenRParen) : UnbalancedFrom 0 (t :: ts) := by
  have hl : t.Typ ≠ TokenLParen := by rw [hr]; decide
  refine Or.inl ⟨[t], List.prefix_cons_iff.mpr (Or.inr ⟨[], rfl, List.nil_prefix⟩), ?_⟩
  rw [leftParens_cons, rightParens_cons, if_neg hl, if_pos hr]
  simp [leftParens, rightParens]

/-- A right parenthesis closes one open level. -/
theorem unbalancedFrom_cons_rparen_succ (d : Nat) (t : Token) (ts : List Token)
    (hr : t.Typ = TokenRParen) :
    UnbalancedFrom (d + 1) (t :: ts) ↔ UnbalancedFrom d ts := by
  have hl : t.Typ ≠ TokenLParen := by rw [hr]; decide
  unfold UnbalancedFrom
  rw [leftParens_cons, rightParens_cons, if_neg hl, if_pos hr]
  constructor
  · rintro (⟨p, hp, h⟩ | h)
    · rcases List.prefix_cons_iff.mp hp with rfl | ⟨q, rfl, hq⟩
      · simp [leftParens, rightParens] at h
      · rw [leftParens_cons, rightParens_cons, if_neg hl, if_pos hr] at h
        exact Or.inl ⟨q, hq, by omega⟩
    · exact Or.inr (by omega)
  · rintro (⟨p, hp, h⟩ | h)
    · refine Or.inl ⟨t :: p, List.prefix_cons_iff.mpr (Or.inr ⟨p, rfl, hp⟩), ?_⟩
      rw [leftParens_cons, rightParens_cons, if_neg hl, if_pos hr]
      omega
    · exact Or.inr (by omega)

/-- The converter started with `stack` fails exactly when the remaining tokens are
unbalanced relative to the left parentheses on the stack, and only with the
mismatched-parentheses error. -/
theorem shuntingLoop_error (ts output stack : List Token) :
    ((∃ e, shuntingLoop ts output stack = .error e) ↔
      UnbalancedFrom (leftParens stack) ts) ∧
    (∀ e, shuntingLoop ts output stack = .error e → e = .mismatchedParentheses) := by
  induction ts generalizing output stack with
  | nil =>
    rw [shuntingLoop, unbalancedFrom_nil]
    exact drainStack_error output stack
  | cons t ts ih =>
    cases hT : t.Typ with
    | TokenNumber =>
      rw [shuntingLoop_number t ts output stack hT,
        unbalancedFrom_cons_other _ t ts (by rw [hT]; decide) (by rw [hT]; decide)]
      exact ih (output ++ [t]) stack
    | TokenFunction =>
      rw [shuntingLoop_function t ts output stack hT,
        unbalancedFrom_cons_other _ t ts (by rw [hT]; decide) (by rw [hT]; decide)]
      have h := ih output (t :: stack)
      rw [leftParens_cons, if_neg (by rw [hT]; decide), Nat.add_zero] at h
      exact h
    | TokenOperator =>
      rw [shuntingLoop_operator t ts output stack hT,
        unbalancedFrom_cons_other _ t ts (by rw [hT]; decide) (by rw [hT]; decide)]
      have h := ih (popOperators t output stack).1 (t :: (popOperators t output stack).2)
      rw [leftParens_cons, if_neg (by rw [hT]; decide), Nat.add_zero,
        leftParens_popOperators] at h
      exact h
    | TokenLParen =>
      rw [shuntingLoop_lparen t ts output stack hT, unbalancedFrom_cons_lparen _ t ts hT]
      have h := ih output (t :: stack)
      rw [leftParens_cons, if_pos hT] at h
      exact h
    | TokenRParen =>
      rw [shuntingLoop_rparen t ts output stack hT]
      have hf := popToLParen_found output stack
      rcases hp : popToLParen output stack with ⟨output1, stack1, found⟩
      rw [hp] at hf
      cases found with
      | false =>
        have h0 : leftParens stack = 0 := by
          have := hf.1
          simp only [Bool.false_eq_true, false_iff, Nat.not_lt, Nat.le_zero] at this
          exact this
        rw [h0]
        have hU := unbalancedFrom_cons_rparen_zero t ts hT
        cases stack1 <;>
          exact ⟨⟨fun _ => hU, fun _ => ⟨_, rfl⟩⟩, fun e he => by cases he; rfl⟩
      | true =>
        have h1 : leftParens stack1 + 1 = leftParens stack := hf.2 rfl
        rw [← h1, unbalancedFrom_cons_rparen_succ _ t ts hT]
        cases stack1 with
        | nil => exact ih output1 []
        | cons top stack2 =>
          by_cases hfun : top.Typ = TokenFunction
          · simp only [hfun, if_true]
            have h := ih (output1 ++ [top]) stack2
            rw [leftParens_cons, if_neg (by rw [hfun]; decide), Nat.add_zero]
            exact h
          · simp only [hfun, if_false]
            exact ih output1 (top :: stack2)

/-- C4: `ShuntingYard` returns an error exactly when, reading only the parentheses, some
prefix has more right than left parentheses or the whole sequence has more left than right
parentheses; the error is then the mismatched-parentheses error, and it fails for no other
reason. -/
theorem shuntingYard_error_iff (ts : List Token) :
    ((∃ e, ShuntingYard ts = .error e) ↔ Unbalanced ts) ∧
    (ShuntingYard ts = .error .mismatchedParentheses ↔ Unbalanced ts) ∧
    (∀ e, ShuntingYard ts = .error e → e = .mismatchedParentheses) ∧
    (¬ Unbalanced ts → ∃ rpn, ShuntingYard ts = .ok rpn) := by
  have h := shuntingLoop_error ts [] []
  have hU : UnbalancedFrom (leftParens []) ts ↔ Unbalanced ts := by
    unfold UnbalancedFrom Unbalanced
    simp [leftParens]
  rw [hU] at h
  unfold ShuntingYard
  refine ⟨h.1, ⟨fun he => h.1.mp ⟨_, he⟩, fun hu => ?_⟩, h.2, fun hn => ?_⟩
  · obtain ⟨e, he⟩ := h.1.mpr hu
    rw [he, h.2 e he]
  · cases hr : shuntingLoop ts [] [] with
    | error e => exact absurd (h.1.mp ⟨e, hr⟩) hn
    | ok rpn => exact ⟨rpn, rfl⟩

/-- C4 at concrete sequences: the tokens of `(2 + 3` and of `2 + 3)` are unbalanced and
fail, the tokens of `(2 + 3)` are balanced and convert. -/
theorem shuntingYard_error_iff_witness :
    (Unbalanced [⟨TokenLParen, "("⟩, ⟨TokenNumber, "2"⟩, ⟨TokenOperator, "+"⟩,
        ⟨TokenNumber, "3"⟩] ∧
      ShuntingYard [⟨TokenLParen, "("⟩, ⟨TokenNumber, "2"⟩, ⟨TokenOperator, "+"⟩,
        ⟨TokenNumber, "3"⟩] = .error .mismatchedParentheses) ∧
    (Unbalanced [⟨TokenNumber, "2"⟩, ⟨TokenOperator, "+"⟩, ⟨TokenNumber, "3"⟩,
        ⟨TokenRParen, ")"⟩] ∧
      ShuntingYard [⟨TokenNumber, "2"⟩, ⟨TokenOperator, "+"⟩, ⟨TokenNumber, "3"⟩,
        ⟨TokenRParen, ")"⟩] = .error .mismatchedParentheses) ∧
    (¬ Unbalanced [⟨TokenLParen, "("⟩, ⟨TokenNumber, "2"⟩, ⟨TokenOperator, "+"⟩,
        ⟨TokenNumber, "3"⟩, ⟨TokenRParen, ")"⟩] ∧
      ShuntingYard [⟨TokenLParen, "("⟩, ⟨TokenNumber, "2"⟩, ⟨TokenOperator, "+"⟩,
        ⟨TokenNumber, "3"⟩, ⟨TokenRParen, ")"⟩] =
        .ok [⟨TokenNumber, "2"⟩, ⟨TokenNumber, "3"⟩, ⟨TokenOperator, "+"⟩]) := by
  have h1 : Unbalanced [⟨TokenLParen, "("⟩, ⟨TokenNumber, "2"⟩, ⟨TokenOperator, "+"⟩,
      ⟨TokenNumber, "3"⟩] := Or.inr (by decide)
  have h2 : Unbalanced [⟨TokenNumber, "2"⟩, ⟨TokenOperator, "+"⟩, ⟨TokenNumber, "3"⟩,
      ⟨TokenRParen, ")"⟩] := Or.inl ⟨_, List.prefix_refl _, by decide⟩
  refine ⟨⟨h1, (shuntingYard_error_iff _).2.1.mpr h1⟩,
    ⟨h2, (shuntingYard_error_iff _).2.1.mpr h2⟩, ?_, rfl⟩
  intro hu
  have he := (shuntingYard_error_iff _).2.1.mpr hu
  cases he

/-! ## `ShuntingYard` on fully parenthesised expressions -/

/-- The right-parenthesis loop moves the tokens above the nearest left parenthesis to the
output and removes that parenthesis. -/
theorem popToLParen_append (output above below : List Token) (paren : Token)
    (habove : ∀ t ∈ above, t.Typ ≠ TokenLParen) (hparen : paren.Typ = TokenLParen) :
    popToLParen output (above ++ paren :: below) = (output ++ above, below, true) := by
  induction above generalizing output with
  | nil => simp [popToLParen, hparen]
  | cons top above ih =>
    have htop : top.Typ ≠ TokenLParen := habove top (List.mem_cons_self _ _)
    rw [List.cons_append, popToLParen, if_neg htop,
      ih _ (fun t ht => habove t (List.mem_cons_of_mem _ ht))]
    simp

/-- Run on the fully parenthesised tokens of a tree, from a stack whose top is not a
function, the converter appends the post-order traversal to the output and leaves the stack
as it was. -/
theorem shuntingLoop_tree (T : ExprTree) (rest output stack : List Token)
    (hstack : ∀ top, stack.head? = some top → top.Typ ≠ TokenFunction) :
    shuntingLoop (T.tokens ++ rest) output stack =
      shuntingLoop rest (output ++ T.postOrder) stack := by
  induction T generalizing rest output stack with
  | number text =>
    simp only [ExprTree.tokens, ExprTree.postOrder, List.singleton_append]
    rw [shuntingLoop_number _ _ _ _ rfl]
  | binary op left right ihl ihr =>
    simp only [ExprTree.tokens, ExprTree.postOrder, List.singleton_append, List.cons_append,
      List.append_assoc, List.nil_append]
    rw [shuntingLoop_lparen _ _ _ _ rfl]
    rw [ihl _ _ (⟨TokenLParen, "("⟩ :: stack) (by simp)]
    rw [shuntingLoop_operator _ _ _ _ rfl]
    have hpop : popOperators ⟨TokenOperator, op⟩ (output ++ left.postOrder)
        (⟨TokenLParen, "("⟩ :: stack) =
        (output ++ left.postOrder, ⟨TokenLParen, "("⟩ :: stack) := by
      simp [popOperators]
    rw [hpop]
    rw [ihr _ _ (⟨TokenOperator, op⟩ :: ⟨TokenLParen, "("⟩ :: stack) (by simp)]
    rw [shuntingLoop_rparen _ _ _ _ rfl]
    have hp := popToLParen_append (output ++ left.postOrder ++ right.postOrder)
      [⟨TokenOperator, op⟩] stack ⟨TokenLParen, "("⟩ (by simp) rfl
    simp only [List.singleton_append] at hp
    rw [hp]
    cases stack with
    | nil => simp
    | cons top stack1 =>
      have hfun : top.Typ ≠ TokenFunction := hstack top rfl
      simp [hfun]
  | call name arg ih =>
    simp only [ExprTree.tokens, ExprTree.postOrder, List.cons_append, List.nil_append,
      List.append_assoc]
    rw [shuntingLoop_function _ _ _ _ rfl]
    rw [shuntingLoop_lparen _ _ _ _ rfl]
    rw [ih _ _ (⟨TokenLParen, "("⟩ :: ⟨TokenFunction, name⟩ :: stack) (by simp)]
    rw [shuntingLoop_rparen _ _ _ _ rfl]
    have hp := popToLParen_append (output ++ arg.postOrder) [] (⟨TokenFunction, name⟩ :: stack)
      ⟨TokenLParen, "("⟩ (by simp) rfl
    simp only [List.nil_append, List.append_nil] at hp
    rw [hp]
    simp

/-- C5: on the fully parenthesised token sequence of any expression tree, `ShuntingYard`
succeeds and returns exactly the post-order traversal of the tree. -/
theorem shuntingYard_tree (T : ExprTree) : ShuntingYard T.tokens = .ok T.postOrder := by
  have h := shuntingLoop_tree T [] [] [] (by simp)
  rw [List.append_nil, List.nil_append] at h
  rw [ShuntingYard, h, shuntingLoop, drainStack]

/-- C5 at concrete trees: `sqrt(16)` converts to `16 sqrt` and `((2 + 3) * 4)` to
`2 3 + 4 *`; the tokens of `(2 + 3) * 4` convert to the same postfix sequence. -/
theorem shuntingYard_tree_witness :
    ShuntingYard [⟨TokenFunction, "sqrt"⟩, ⟨TokenLParen, "("⟩, ⟨TokenNumber, "16"⟩,
        ⟨TokenRParen, ")"⟩] =
      .ok [⟨TokenNumber, "16"⟩, ⟨TokenFunction, "sqrt"⟩] ∧
    ShuntingYard [⟨TokenLParen, "("⟩, ⟨TokenLParen, "("⟩, ⟨TokenNumber, "2"⟩,
        ⟨TokenOperator, "+"⟩, ⟨TokenNumber, "3"⟩, ⟨TokenRParen, ")"⟩, ⟨TokenOperator, "*"⟩,
        ⟨TokenNumber, "4"⟩, ⟨TokenRParen, ")"⟩] =
      .ok [⟨TokenNumber, "2"⟩, ⟨TokenNumber, "3"⟩, ⟨TokenOperator, "+"⟩, ⟨TokenNumber, "4"⟩,
        ⟨TokenOperator, "*"⟩] ∧
    ShuntingYard [⟨TokenLParen, "("⟩, ⟨TokenNumber, "2"⟩, ⟨TokenOperator, "+"⟩,
        ⟨TokenNumber, "3"⟩, ⟨TokenRParen, ")"⟩, ⟨TokenOperator, "*"⟩, ⟨TokenNumber, "4"⟩] =
      .ok [⟨TokenNumber, "2"⟩, ⟨TokenNumber, "3"⟩, ⟨TokenOperator, "+"⟩, ⟨TokenNumber, "4"⟩,
        ⟨TokenOperator, "*"⟩] :=
  ⟨shuntingYard_tree (.call "sqrt" (.number "16")),
    shuntingYard_tree (.binary "*" (.binary "+" (.number "2") (.number "3")) (.number "4")),
    rfl⟩

/-! ## The error cases of `Calculate` -/

/-- C6: `Calculate` returns an error on each of the thirteen inputs, whatever the Unicode
tables and the arithmetic, provided `strconv.ParseFloat` reads `0` as a value equal to zero
(or rejects it). -/
theorem calculate_error_cases (U : UnicodeTables) (M : Float64)
    (hzero : ∀ z, M.ParseFloat "0" = some z → M.eqZero z = true) :
    ∀ expr ∈ ["", "2 + + 3", "2 3", "* 3", "3 +", "()", "(2 + 3", "2 + 3)", "foo(5)", "5 / 0",
        "2(3)", "(2)(3)", "2.3.4"],
      ∃ e, Calculate U M expr = .error e := by
  intro expr hexpr
  simp only [List.mem_cons, List.mem_singleton, List.not_mem_nil, or_false] at hexpr
  rcases hexpr with h | h | h | h | h | h | h | h | h | h | h | h | h <;> subst h
  · simp [Calculate, Tokenize, tokenizeLoop, tokenizeStep, scanNumber, scanLetters, IsSpace,
      IsDigit, IsLetter, isOperator, signPosition, ValidateExpression, checkPairs, illegalNext,
      ShuntingYard, shuntingLoop, popOperators, popToLParen, drainStack, precedence,
      EvaluateRPN, evaluateLoop, applyOperator, applyFunction, ToLower, runeToLower]
  · simp [Calculate, Tokenize, tokenizeLoop, tokenizeStep, scanNumber, scanLetters, IsSpace,
      IsDigit, IsLetter, isOperator, signPosition, ValidateExpression, checkPairs, illegalNext,
      ShuntingYard, shuntingLoop, popOperators, popToLParen, drainStack, precedence,
      EvaluateRPN, evaluateLoop, applyOperator, applyFunction, ToLower, runeToLower]
  · simp [Calculate, Tokenize, tokenizeLoop, tokenizeStep, scanNumber, scanLetters, IsSpace,
      IsDigit, IsLetter, isOperator, signPosition, ValidateExpression, checkPairs, illegalNext,
      ShuntingYard, shuntingLoop, popOperators, popToLParen, drainStack, precedence,
      EvaluateRPN, evaluateLoop, applyOperator, applyFunction, ToLower, runeToLower]
  · simp [Calculate, Tokenize, tokenizeLoop, tokenizeStep, scanNumber, scanLetters, IsSpace,
      IsDigit, IsLetter, isOperator, signPosition, ValidateExpression, checkPairs, illegalNext,
      ShuntingYard, shuntingLoop, popOperators, popToLParen, drainStack, precedence,
      EvaluateRPN, evaluateLoop, applyOperator, applyFunction, ToLower, runeToLower]
  · simp [Calculate, Tokenize, tokenizeLoop, tokenizeStep, scanNumber, scanLetters, IsSpace,
      IsDigit, IsLetter, isOperator, signPosition, ValidateExpression, checkPairs, illegalNext,
      ShuntingYard, shuntingLoop, popOperators, popToLParen, drainStack, precedence,
      EvaluateRPN, evaluateLoop, applyOperator, applyFunction, ToLower, runeToLower]
  · simp [Calculate, Tokenize, tokenizeLoop, tokenizeStep, scanNumber, scanLetters, IsSpace,
      IsDigit, IsLetter, isOperator, signPosition, ValidateExpression, checkPairs, illegalNext,
      ShuntingYard, shuntingLoop, popOperators, popToLParen, drainStack, precedence,
      EvaluateRPN, evaluateLoop, applyOperator, applyFunction, ToLower, runeToLower]
  · simp [Calculate, Tokenize, tokenizeLoop, tokenizeStep, scanNumber, scanLetters, IsSpace,
      IsDigit, IsLetter, isOperator, signPosition, ValidateExpression, checkPairs, illegalNext,
      ShuntingYard, shuntingLoop, popOperators, popToLParen, drainStack, precedence,
      EvaluateRPN, evaluateLoop, applyOperator, applyFunction, ToLower, runeToLower]
  · simp [Calculate, Tokenize, tokenizeLoop, tokenizeStep, scanNumber, scanLetters, IsSpace,
      IsDigit, IsLetter, isOperator, signPosition, ValidateExpression, checkPairs, illegalNext,
      ShuntingYard, shuntingLoop, popOperators, popToLParen, drainStack, precedence,
      EvaluateRPN, evaluateLoop, applyOperator, applyFunction, ToLower, runeToLower]
  · simp [Calculate, Tokenize, tokenizeLoop, tokenizeStep, scanNumber, scanLetters, IsSpace,
      IsDigit, IsLetter, isOperator, signPosition, ValidateExpression, checkPairs, illegalNext,
      ShuntingYard, shuntingLoop, popOperators, popToLParen, drainStack, precedence,
      EvaluateRPN, evaluateLoop, applyOperator, applyFunction, ToLower, runeToLower]
    cases M.ParseFloat "5" <;> simp
  · simp [Calculate, Tokenize, tokenizeLoop, tokenizeStep, scanNumber, scanLetters, IsSpace,
      IsDigit, IsLetter, isOperator, signPosition, ValidateExpression, checkPairs, illegalNext,
      ShuntingYard, shuntingLoop, popOperators, popToLParen, drainStack, precedence,
      EvaluateRPN, evaluateLoop, applyOperator, applyFunction, ToLower, runeToLower]
    cases M.ParseFloat "5" with
    | none => simp
    | some a =>
      cases h0 : M.ParseFloat "0" with
      | none => simp
      | some z => simp [hzero z h0]
  · simp [Calculate, Tokenize, tokenizeLoop, tokenizeStep, scanNumber, scanLetters, IsSpace,
      IsDigit, IsLetter, isOperator, signPosition, ValidateExpression, checkPairs, illegalNext,
      ShuntingYard, shuntingLoop, popOperators, popToLParen, drainStack, precedence,
      EvaluateRPN, evaluateLoop, applyOperator, applyFunction, ToLower, runeToLower]
  · simp [Calculate, Tokenize, tokenizeLoop, tokenizeStep, scanNumber, scanLetters, IsSpace,
      IsDigit, IsLetter, isOperator, signPosition, ValidateExpression, checkPairs, illegalNext,
      ShuntingYard, shuntingLoop, popOperators, popToLParen, drainStack, precedence,
      EvaluateRPN, evaluateLoop, applyOperator, applyFunction, ToLower, runeToLower]
  · simp [Calculate, Tokenize, tokenizeLoop, tokenizeStep, scanNumber, scanLetters, IsSpace,
      IsDigit, IsLetter, isOperator, signPosition, ValidateExpression, checkPairs, illegalNext,
      ShuntingYard, shuntingLoop, popOperators, popToLParen, drainStack, precedence,
      EvaluateRPN, evaluateLoop, applyOperator, applyFunction, ToLower, runeToLower]

/-- The exact arithmetic reads `0` as zero. -/
theorem exactArith_zero :
    ∀ z, exactArith.ParseFloat "0" = some z → exactArith.eqZero z = true := by
  intro z hz
  have h : exactArith.ParseFloat "0" = some (some 0) := by
    simp [exactArith, exactParse, decimalValue, digitsValue]
  rw [h] at hz
  cases hz
  simp [exactArith]

/-- C6 with the exact arithmetic: the thirteen inputs fail, `5 / 0` with the
division-by-zero error, `foo(5)` with the unknown-function error and the empty input with
the invalid-expression error. -/
theorem calculate_error_cases_witness :
    (∀ z, exactArith.ParseFloat "0" = some z → exactArith.eqZero z = true) ∧
    (∀ expr ∈ ["", "2 + + 3", "2 3", "* 3", "3 +", "()", "(2 + 3", "2 + 3)", "foo(5)",
        "5 / 0", "2(3)", "(2)(3)", "2.3.4"],
      ∃ e, Calculate latin1Tables exactArith expr = .error e) ∧
    Calculate latin1Tables exactArith "5 / 0" = .error .divisionByZero ∧
    Calculate latin1Tables exactArith "foo(5)" = .error (.unknownFunction "foo") ∧
    Calculate latin1Tables exactArith "" = .error .invalidExpression := by
  refine ⟨exactArith_zero, calculate_error_cases latin1Tables exactArith exactArith_zero,
    ?_, ?_, ?_⟩
  · simp [Calculate, Tokenize, tokenizeLoop, tokenizeStep, scanNumber, scanLetters, IsSpace,
      IsDigit, IsLetter, isOperator, signPosition, ValidateExpression, checkPairs, illegalNext,
      ShuntingYard, shuntingLoop, popOperators, popToLParen, drainStack, precedence,
      EvaluateRPN, evaluateLoop, applyOperator, applyFunction, ToLower, runeToLower,
      exactArith, exactParse, decimalValue, digitsValue]
  · simp [Calculate, Tokenize, tokenizeLoop, tokenizeStep, scanNumber, scanLetters, IsSpace,
      IsDigit, IsLetter, isOperator, signPosition, ValidateExpression, checkPairs, illegalNext,
      ShuntingYard, shuntingLoop, popOperators, popToLParen, drainStack, precedence,
      EvaluateRPN, evaluateLoop, applyOperator, applyFunction, ToLower, runeToLower,
      exactArith, exactParse, decimalValue, digitsValue]
  · simp [Calculate, Tokenize, tokenizeLoop, tokenizeStep, scanNumber, scanLetters, IsSpace,
      IsDigit, IsLetter, isOperator, signPosition, ValidateExpression, checkPairs, illegalNext,
      ShuntingYard, shuntingLoop, popOperators, popToLParen, drainStack, precedence,
      EvaluateRPN, evaluateLoop, applyOperator, applyFunction, ToLower, runeToLower,
      exactArith, exactParse, decimalValue, digitsValue]

/-! ## The failures of `Tokenize` -/

theorem numericRun_cons (U : UnicodeTables) (r : Char) (rs : List Char) :
    numericRun U (r :: rs) = if numericRune U r = true then r :: numericRun U rs else [] := by
  simp [numericRun, List.takeWhile_cons]

/-- The numeric run of `l ++ rest` is `l` when `l` is numeric and `rest` does not go on
with a numeric rune. -/
theorem numericRun_append (U : UnicodeTables) (l rest : List Char)
    (hl : ∀ r ∈ l, numericRune U r = true)
    (hrest : ∀ r, rest.head? = some r → numericRune U r = false) :
    numericRun U (l ++ rest) = l := by
  unfold numericRun
  rw [List.takeWhile_append_of_pos hl]
  cases rest with
  | nil => simp
  | cons r rest =>
    have := hrest r rfl
    simp [List.takeWhile_cons, this]

/-- An input is split by its numeric run. -/
theorem numericRun_append_drop (U : UnicodeTables) (rs : List Char) :
    numericRun U rs ++ rs.drop (numericRun U rs).length = rs ∧
    (∀ r ∈ numericRun U rs, numericRune U r = true) ∧
    (∀ r, (rs.drop (numericRun U rs).length).head? = some r → numericRune U r = false) := by
  induction rs with
  | nil => simp [numericRun]
  | cons a rs ih =>
    rw [numericRun_cons]
    by_cases ha : numericRune U a = true
    · rw [if_pos ha]
      refine ⟨by simpa using ih.1, ?_, by simpa using ih.2.2⟩
      intro r hr
      rcases List.mem_cons.mp hr with rfl | hr
      · exact ha
      · exact ih.2.1 r hr
    · rw [if_neg ha]
      simpa using ha

/-- A maximal numeric run with two decimal points exists exactly when some position is
followed by a numeric run with two decimal points. -/
theorem hasOverlongRun_iff (U : UnicodeTables) (runes : List Char) :
    HasOverlongRun U runes ↔ OverlongAhead U runes := by
  constructor
  · rintro ⟨pre, run, post, rfl, hrun, -, hpost, hcount⟩
    refine ⟨run ++ post, ?_, ?_⟩
    · rw [List.append_assoc]
      exact List.suffix_append _ _
    · rw [numericRun_append U run post hrun hpost]
      exact hcount
  · rintro ⟨t, ⟨pre, rfl⟩, hcount⟩
    induction pre using List.reverseRecOn generalizing t with
    | nil =>
      refine ⟨[], numericRun U t, t.drop (numericRun U t).length, ?_, ?_, ?_, ?_, hcount⟩
      · simpa using (numericRun_append_drop U t).1.symm
      · exact (numericRun_append_drop U t).2.1
      · simp
      · exact (numericRun_append_drop U t).2.2
    | append_singleton pre a ih =>
      by_cases ha : numericRune U a = true
      · have h := ih (a :: t) (by
          rw [numericRun_cons, if_pos ha, List.count_cons]
          omega)
        simpa using h
      · refine ⟨pre ++ [a], numericRun U t, t.drop (numericRun U t).length, ?_, ?_, ?_, ?_,
          hcount⟩
        · have h := (numericRun_append_drop U t).1
          rw [List.append_assoc (pre ++ [a]), h]
        · exact (numericRun_append_drop U t).2.1
        · intro r hr
          have hr2 : r = a := by
            simpa [List.getLast?_append] using hr.symm
          subst hr2
          simpa using ha
        · exact (numericRun_append_drop U t).2.2

theorem overlongAhead_cons (U : UnicodeTables) (c : Char) (cs : List Char) :
    OverlongAhead U (c :: cs) ↔
      2 ≤ (numericRun U (c :: cs)).count '.' ∨ OverlongAhead U cs := by
  unfold OverlongAhead
  constructor
  · rintro ⟨t, ht, h⟩
    rcases List.suffix_cons_iff.mp ht with rfl | ht
    · exact Or.inl h
    · exact Or.inr ⟨t, ht, h⟩
  · rintro (h | ⟨t, ht, h⟩)
    · exact ⟨c :: cs, List.suffix_refl _, h⟩
    · exact ⟨t, List.suffix_cons_iff.mpr (Or.inr ht), h⟩

/-- A rune other than the decimal point in front of the input adds no overlong run. -/
theorem overlongAhead_cons_of_ne (U : UnicodeTables) (c : Char) (cs : List Char)
    (hc : c ≠ '.') : OverlongAhead U (c :: cs) ↔ OverlongAhead U cs := by
  rw [overlongAhead_cons]
  constructor
  · rintro (h | h)
    · rw [numericRun_cons] at h
      by_cases hn : numericRune U c = true
      · rw [if_pos hn, List.count_cons_of_ne (Ne.symm hc)] at h
        exact ⟨cs, List.suffix_refl _, h⟩
      · rw [if_neg hn] at h
        simp at h
    · exact h
  · exact Or.inr

theorem overlongAhead_append_of_ne (U : UnicodeTables) (l rest : List Char)
    (hl : ∀ r ∈ l, r ≠ '.') : OverlongAhead U (l ++ rest) ↔ OverlongAhead U rest := by
  induction l with
  | nil => simp
  | cons a l ih =>
    rw [List.cons_append, overlongAhead_cons_of_ne U a _ (hl a (List.mem_cons_self _ _))]
    exact ih (fun r hr => hl r (List.mem_cons_of_mem _ hr))

/-- A numeric run with at most one decimal point in front of the input adds no overlong
run. -/
theorem overlongAhead_append_run (U : UnicodeTables) (l rest : List Char)
    (hl : ∀ r ∈ l, numericRune U r = true)
    (hrest : ∀ r, rest.head? = some r → numericRune U r = false)
    (hcount : l.count '.' ≤ 1) : OverlongAhead U (l ++ rest) ↔ OverlongAhead U rest := by
  induction l with
  | nil => simp
  | cons a l ih =>
    have hrun := numericRun_append U (a :: l) rest hl hrest
    rw [List.cons_append] at hrun ⊢
    rw [overlongAhead_cons, hrun]
    have hl2 : ∀ r ∈ l, numericRune U r = true := fun r hr => hl r (List.mem_cons_of_mem _ hr)
    have hc2 : l.count '.' ≤ 1 := by
      rw [List.count_cons] at hcount
      omega
    rw [ih hl2 hc2]
    constructor
    · rintro (h | h)
      · omega
      · exact h
    · exact Or.inr

theorem hasUnexpectedRune_cons (U : UnicodeTables) (c : Char) (cs : List Char)
    (hc : AllowedRune U c) : HasUnexpectedRune U (c :: cs) ↔ HasUnexpectedRune U cs := by
  unfold HasUnexpectedRune
  constructor
  · rintro ⟨r, hr, hbad⟩
    rcases List.mem_cons.mp hr with rfl | hr
    · exact absurd hc hbad
    · exact ⟨r, hr, hbad⟩
  · rintro ⟨r, hr, hbad⟩
    exact ⟨r, List.mem_cons_of_mem _ hr, hbad⟩

theorem hasUnexpectedRune_append (U : UnicodeTables) (l rest : List Char)
    (hl : ∀ r ∈ l, AllowedRune U r) :
    HasUnexpectedRune U (l ++ rest) ↔ HasUnexpectedRune U rest := by
  induction l with
  | nil => simp
  | cons a l ih =>
    rw [List.cons_append, hasUnexpectedRune_cons U a _ (hl a (List.mem_cons_self _ _))]
    exact ih (fun r hr => hl r (List.mem_cons_of_mem _ hr))

theorem isSpace_ne_dot (U : UnicodeTables) (r : Char) (h : IsSpace U r = true) : r ≠ '.' := by
  rintro rfl
  simp [IsSpace] at h

theorem isLetter_ne_dot (U : UnicodeTables) (r : Char) (h : IsLetter U r = true) :
    r ≠ '.' := by
  rintro rfl
  simp [IsLetter] at h

theorem numericRune_allowed (U : UnicodeTables) (r : Char) (h : numericRune U r = true) :
    AllowedRune U r := by
  unfold numericRune at h
  rcases Bool.or_eq_true _ _ ▸ h with h | h
  · exact Or.inr (Or.inl h)
  · exact Or.inr (Or.inr (Or.inl (by simpa using h)))

/-- The letters stepped over by the function-name loop are a prefix of the input. -/
theorem scanLetters_append_drop (U : UnicodeTables) (rs : List Char) :
    scanLetters U rs ++ rs.drop (scanLetters U rs).length = rs ∧
    (∀ r ∈ scanLetters U rs, IsLetter U r = true) := by
  induction rs with
  | nil => simp [scanLetters]
  | cons a rs ih =>
    unfold scanLetters
    by_cases ha : IsLetter U a = true
    · rw [if_pos ha]
      refine ⟨by simpa using ih.1, ?_⟩
      intro r hr
      rcases List.mem_cons.mp hr with rfl | hr
      · exact ha
      · exact ih.2 r hr
    · rw [if_neg ha]
      simp

/-- The operator test of `Tokenize` on a single rune. -/
theorem isOperator_rune (c : Char) :
    isOperator (String.mk [c]) = true ↔ c ∈ ['+', '-', '*', '/', '%', '^'] := by
  have h : ∀ d : Char, String.mk [c] = String.mk [d] ↔ c = d := by
    intro d
    constructor
    · intro h
      injection h with h
      injection h
    · rintro rfl
      rfl
  have e1 : ("+" : String) = String.mk ['+'] := rfl
  have e2 : ("-" : String) = String.mk ['-'] := rfl
  have e3 : ("*" : String) = String.mk ['*'] := rfl
  have e4 : ("/" : String) = String.mk ['/'] := rfl
  have e5 : ("%" : String) = String.mk ['%'] := rfl
  have e6 : ("^" : String) = String.mk ['^'] := rfl
  unfold isOperator
  simp only [Bool.or_eq_true, beq_iff_eq, List.mem_cons, List.mem_singleton, List.not_mem_nil,
    or_false]
  rw [e1, e2, e3, e4, e5, e6, h, h, h, h, h, h]
  tauto

/-- A rune with a case of its own, other than the decimal point, in front of the input
changes neither kind of failure. -/
theorem failure_cons_iff (U : UnicodeTables) (c : Char) (rest : List Char)
    (hc : AllowedRune U c) (hdot : c ≠ '.') :
    (HasUnexpectedRune U (c :: rest) ∨ OverlongAhead U (c :: rest)) ↔
      (HasUnexpectedRune U rest ∨ OverlongAhead U rest) := by
  rw [hasUnexpectedRune_cons U c rest hc, overlongAhead_cons_of_ne U c rest hdot]

/-- The numeric literal that starts at a numeric rune `c`: the inner loop either fails, and
then the run at `c` has two decimal points, or steps over the rest of the run, and then
the failures of the input are those of what follows the run. -/
theorem scanNumber_failure (U : UnicodeTables) (c : Char) (rest : List Char)
    (hc : numericRune U c = true) :
    (scanNumber U (c == '.') rest = .error .invalidNumberFormat ∧
      OverlongAhead U (c :: rest)) ∨
    (scanNumber U (c == '.') rest = .ok (numericRun U rest) ∧
      ((HasUnexpectedRune U (c :: rest) ∨ OverlongAhead U (c :: rest)) ↔
        (HasUnexpectedRune U (rest.drop (numericRun U rest).length) ∨
          OverlongAhead U (rest.drop (numericRun U rest).length)))) := by
  have hsplit := numericRun_append_drop U rest
  have hrun : numericRun U (c :: rest) = c :: numericRun U rest := by
    rw [numericRun_cons, if_pos hc]
  have hcnt : (numericRun U (c :: rest)).count '.' =
      (numericRun U rest).count '.' + (c == '.').toNat := by
    rw [hrun, List.count_cons]
    cases hd : (c == '.') <;> simp [hd]
  rw [scanNumber_eq]
  by_cases hle : (numericRun U rest).count '.' + (c == '.').toNat ≤ 1
  · rw [if_pos hle]
    refine Or.inr ⟨rfl, ?_⟩
    have hall : ∀ r ∈ c :: numericRun U rest, numericRune U r = true := by
      intro r hr
      rcases List.mem_cons.mp hr with rfl | hr
      · exact hc
      · exact hsplit.2.1 r hr
    have hrest : c :: rest = (c :: numericRun U rest) ++ rest.drop (numericRun U rest).length := by
      rw [List.cons_append, hsplit.1]
    have hcount : (c :: numericRun U rest).count '.' ≤ 1 := by
      rw [← hrun, hcnt]
      exact hle
    rw [hrest, hasUnexpectedRune_append U _ _ (fun r hr => numericRune_allowed U r (hall r hr)),
      overlongAhead_append_run U _ _ hall hsplit.2.2 hcount]
  · rw [if_neg hle]
    refine Or.inl ⟨rfl, c :: rest, List.suffix_refl _, ?_⟩
    rw [hcnt]
    omega

/-- One iteration of `Tokenize` at a rune that is not white space: if it fails, the input
from that rune on holds an unexpected rune or an overlong numeric run; if it succeeds, the
input from that rune on holds one exactly when what is left after the iteration does. -/
theorem tokenizeStep_failure (U : UnicodeTables) (tokens : List Token) (c : Char)
    (rest : List Char) (hsp : IsSpace U c = false) :
    match tokenizeStep U tokens c rest with
    | .error _ => HasUnexpectedRune U (c :: rest) ∨ OverlongAhead U (c :: rest)
    | .ok (_, advance) =>
      (HasUnexpectedRune U (c :: rest) ∨ OverlongAhead U (c :: rest)) ↔
        (HasUnexpectedRune U (rest.drop advance) ∨ OverlongAhead U (rest.drop advance)) := by
  unfold tokenizeStep
  by_cases hnum : (IsDigit U c || c == '.') = true
  · rw [if_pos hnum]
    rcases scanNumber_failure U c rest hnum with ⟨he, hbad⟩ | ⟨hk, hiff⟩
    · rw [he]
      exact Or.inr hbad
    · rw [hk]
      exact hiff
  · rw [if_neg hnum]
    have hdig : IsDigit U c = false := by
      cases h : IsDigit U c
      · rfl
      · simp [h] at hnum
    have hdot : c ≠ '.' := by
      rintro rfl
      simp at hnum
    by_cases hl : (c == '(') = true
    · rw [if_pos hl]
      have : c = '(' := by simpa using hl
      exact failure_cons_iff U c rest (Or.inr (Or.inr (Or.inr (Or.inr (Or.inl this))))) hdot
    rw [if_neg hl]
    by_cases hr : (c == ')') = true
    · rw [if_pos hr]
      have : c = ')' := by simpa using hr
      exact failure_cons_iff U c rest
        (Or.inr (Or.inr (Or.inr (Or.inr (Or.inr (Or.inl this)))))) hdot
    rw [if_neg hr]
    by_cases hop : isOperator (String.mk [c]) = true
    · rw [if_pos hop]
      have hallowed : AllowedRune U c :=
        Or.inr (Or.inr (Or.inr (Or.inr (Or.inr (Or.inr ((isOperator_rune c).mp hop))))))
      have hplain := failure_cons_iff U c rest hallowed hdot
      by_cases hsign : (c == '-' && signPosition tokens) = true
      · rw [if_pos hsign]
        cases rest with
        | nil => exact hplain
        | cons next rest2 =>
          by_cases hnext : (IsDigit U next || next == '.') = true
          · simp only [hnext, if_true]
            rcases scanNumber_failure U next rest2 hnext with ⟨he, hbad⟩ | ⟨hk, hiff⟩
            · rw [he]
              exact Or.inr ((overlongAhead_cons_of_ne U c _ hdot).mpr hbad)
            · rw [hk]
              simp only []
              rw [hplain, hiff, Nat.add_comm, List.drop_succ_cons]
          · simp only [hnext]
            exact hplain
      · rw [if_neg hsign]
        exact hplain
    rw [if_neg hop]
    by_cases hlet : IsLetter U c = true
    · rw [if_pos hlet]
      have hs := scanLetters_append_drop U rest
      have hall : ∀ r ∈ c :: scanLetters U rest, IsLetter U r = true := by
        intro r hr
        rcases List.mem_cons.mp hr with rfl | hr
        · exact hlet
        · exact hs.2 r hr
      have hrest : c :: rest =
          (c :: scanLetters U rest) ++ rest.drop (scanLetters U rest).length := by
        rw [List.cons_append, hs.1]
      show (HasUnexpectedRune U (c :: rest) ∨ OverlongAhead U (c :: rest)) ↔ _
      rw [hrest, hasUnexpectedRune_append U _ _
          (fun r hr => Or.inr (Or.inr (Or.inr (Or.inl (hall r hr))))),
        overlongAhead_append_of_ne U _ _ (fun r hr => isLetter_ne_dot U r (hall r hr))]
    · rw [if_neg hlet]
      refine Or.inl ⟨c, List.mem_cons_self _ _, ?_⟩
      rintro (h | h | h | h | h | h | h)
      · rw [hsp] at h
        cases h
      · rw [hdig] at h
        cases h
      · exact hdot h
      · exact hlet h
      · exact hl (by simpa using h)
      · exact hr (by simpa using h)
      · exact hop ((isOperator_rune c).mpr h)

/-- The main loop of `Tokenize` fails exactly when the remaining input holds an unexpected
rune or an overlong numeric run. -/
theorem tokenizeLoop_error_iff (U : UnicodeTables) (n : Nat) :
    ∀ (runes : List Char) (tokens : List Token), runes.length ≤ n →
      ((∃ e, tokenizeLoop U tokens runes = .error e) ↔
        (HasUnexpectedRune U runes ∨ OverlongAhead U runes)) := by
  induction n with
  | zero =>
    intro runes tokens hlen
    have : runes = [] := List.length_eq_zero.mp (Nat.le_zero.mp hlen)
    subst this
    rw [tokenizeLoop]
    simp [HasUnexpectedRune, OverlongAhead, numericRun]
  | succ n ih =>
    intro runes tokens hlen
    cases runes with
    | nil =>
      rw [tokenizeLoop]
      simp [HasUnexpectedRune, OverlongAhead, numericRun]
    | cons c rest =>
      have hlen2 : rest.length ≤ n := by simpa using hlen
      rw [tokenizeLoop]
      by_cases hsp : IsSpace U c = true
      · rw [if_pos hsp, ih rest tokens hlen2,
          failure_cons_iff U c rest (Or.inl hsp) (isSpace_ne_dot U c hsp)]
      · rw [if_neg hsp]
        have hstep := tokenizeStep_failure U tokens c rest (by simpa using hsp)
        cases hr : tokenizeStep U tokens c rest with
        | error e =>
          rw [hr] at hstep
          exact ⟨fun _ => hstep, fun _ => ⟨e, rfl⟩⟩
        | ok res =>
          obtain ⟨tokens1, advance⟩ := res
          rw [hr] at hstep
          have hstep2 : (HasUnexpectedRune U (c :: rest) ∨ OverlongAhead U (c :: rest)) ↔
              (HasUnexpectedRune U (rest.drop advance) ∨ OverlongAhead U (rest.drop advance)) :=
            hstep
          rw [hstep2]
          exact ih _ tokens1 (by rw [List.length_drop]; omega)

/-- C7: `Tokenize` returns an error exactly when the input contains a rune that is none of
white space, digit, decimal point, letter, parenthesis or supported operator, or contains a
maximal run of digits and decimal points with two or more decimal points; on every other
input it succeeds. -/
theorem tokenize_error_iff (U : UnicodeTables) (expr : String) :
    ((∃ e, Tokenize U expr = .error e) ↔
      (HasUnexpectedRune U expr.toList ∨ HasOverlongRun U expr.toList)) ∧
    (¬ (HasUnexpectedRune U expr.toList ∨ HasOverlongRun U expr.toList) →
      ∃ tokens, Tokenize U expr = .ok tokens) := by
  have h := tokenizeLoop_error_iff U expr.toList.length expr.toList [] (Nat.le_refl _)
  rw [← hasOverlongRun_iff] at h
  unfold Tokenize
  refine ⟨h, fun hn => ?_⟩
  cases hr : tokenizeLoop U [] expr.toList with
  | error e => exact absurd (h.mp ⟨e, hr⟩) hn
  | ok tokens => exact ⟨tokens, rfl⟩

/-- C7 at concrete inputs: `2.3.4` is one maximal run with two decimal points and fails,
`2 # 3` holds an unexpected rune and fails, and `2.5 + 3` holds neither and succeeds. -/
theorem tokenize_error_iff_witness :
    (HasOverlongRun latin1Tables "2.3.4".toList ∧
      Tokenize latin1Tables "2.3.4" = .error .invalidNumberFormat) ∧
    (HasUnexpectedRune latin1Tables "2 # 3".toList ∧
      Tokenize latin1Tables "2 # 3" = .error (.unexpectedCharacter '#')) ∧
    (¬ (HasUnexpectedRune latin1Tables "2.5 + 3".toList ∨
        HasOverlongRun latin1Tables "2.5 + 3".toList) ∧
      Tokenize latin1Tables "2.5 + 3" =
        .ok [⟨TokenNumber, "2.5"⟩, ⟨TokenOperator, "+"⟩, ⟨TokenNumber, "3"⟩]) := by
  have hT1 : Tokenize latin1Tables "2.3.4" = .error .invalidNumberFormat := by
    simp [Tokenize, tokenizeLoop, tokenizeStep, scanNumber, IsSpace, IsDigit, IsLetter,
      isOperator, signPosition]
  have hT2 : Tokenize latin1Tables "2 # 3" = .error (.unexpectedCharacter '#') := by
    simp [Tokenize, tokenizeLoop, tokenizeStep, scanNumber, IsSpace, IsDigit, IsLetter,
      isOperator, signPosition, latin1Tables]
  have hT3 : Tokenize latin1Tables "2.5 + 3" =
      .ok [⟨TokenNumber, "2.5"⟩, ⟨TokenOperator, "+"⟩, ⟨TokenNumber, "3"⟩] := by
    simp [Tokenize, tokenizeLoop, tokenizeStep, scanNumber, IsSpace, IsDigit, IsLetter,
      isOperator, signPosition]
  refine ⟨⟨?_, hT1⟩, ⟨?_, hT2⟩, ⟨?_, hT3⟩⟩
  · have h := ((tokenize_error_iff latin1Tables "2.3.4").1.mp ⟨_, hT1⟩)
    rcases h with ⟨r, hr, hbad⟩ | h
    · exfalso
      apply hbad
      simp only [String.toList, List.mem_cons, List.mem_singleton, List.not_mem_nil,
        or_false] at hr
      rcases hr with rfl | rfl | rfl | rfl | rfl <;>
        first
        | exact Or.inr (Or.inl (by decide))
        | exact Or.inr (Or.inr (Or.inl rfl))
    · exact h
  · exact ⟨'#', by decide, by
      rintro (h | h | h | h | h | h | h) <;> revert h <;> decide⟩
  · intro hbad
    obtain ⟨e, he⟩ := (tokenize_error_iff latin1Tables "2.5 + 3").1.mpr hbad
    rw [hT3] at he
    cases he

/-! ## Operators and functions in `EvaluateRPN` -/

/-- C8: on `a b op`, with `a` and `b` number tokens whose texts parse to `va` and `vb`,
`EvaluateRPN` applies the operator with `va` (pushed first) on the left and `vb` (pushed
last) on the right: `+`, `-`, `*`, `%` and `^` yield the sum, the difference `va - vb`,
the product, the remainder of `va` by `vb` and `va` raised to `vb`, and `/` yields the
quotient `va / vb` when `vb` is not zero. -/
theorem evaluateRPN_operand_order (U : UnicodeTables) (M : Float64) (a b : String)
    (va vb : M.F) (ha : M.ParseFloat a = some va) (hb : M.ParseFloat b = some vb) :
    EvaluateRPN U M [⟨TokenNumber, a⟩, ⟨TokenNumber, b⟩, ⟨TokenOperator, "+"⟩] =
      .ok (M.add va vb) ∧
    EvaluateRPN U M [⟨TokenNumber, a⟩, ⟨TokenNumber, b⟩, ⟨TokenOperator, "-"⟩] =
      .ok (M.sub va vb) ∧
    EvaluateRPN U M [⟨TokenNumber, a⟩, ⟨TokenNumber, b⟩, ⟨TokenOperator, "*"⟩] =
      .ok (M.mul va vb) ∧
    (M.eqZero vb = false →
      EvaluateRPN U M [⟨TokenNumber, a⟩, ⟨TokenNumber, b⟩, ⟨TokenOperator, "/"⟩] =
        .ok (M.div va vb)) ∧
    EvaluateRPN U M [⟨TokenNumber, a⟩, ⟨TokenNumber, b⟩, ⟨TokenOperator, "%"⟩] =
      .ok (M.Mod va vb) ∧
    EvaluateRPN U M [⟨TokenNumber, a⟩, ⟨TokenNumber, b⟩, ⟨TokenOperator, "^"⟩] =
      .ok (M.Pow va vb) := by
  refine ⟨?_, ?_, ?_, ?_, ?_, ?_⟩
  · simp [EvaluateRPN, evaluateLoop, applyOperator, ha, hb]
  · simp [EvaluateRPN, evaluateLoop, applyOperator, ha, hb]
  · simp [EvaluateRPN, evaluateLoop, applyOperator, ha, hb]
  · intro hz
    simp [EvaluateRPN, evaluateLoop, applyOperator, ha, hb, hz]
  · simp [EvaluateRPN, evaluateLoop, applyOperator, ha, hb]
  · simp [EvaluateRPN, evaluateLoop, applyOperator, ha, hb]

theorem exactArith_parse_5 : exactArith.ParseFloat "5" = some (some 5) := by
  simp [exactArith, exactParse, decimalValue, digitsValue]

theorem exactArith_parse_2 : exactArith.ParseFloat "2" = some (some 2) := by
  simp [exactArith, exactParse, decimalValue, digitsValue]

theorem exactArith_parse_10 : exactArith.ParseFloat "10" = some (some 10) := by
  simp [exactArith, exactParse, decimalValue, digitsValue]

/-- C8 with the exact arithmetic: `5 2 -` is `3` and `10 2 /` is `5`; so are `5 - 2` and
`10 / 2` through `Calculate`. -/
theorem evaluateRPN_operand_order_witness :
    EvaluateRPN latin1Tables exactArith
        [⟨TokenNumber, "5"⟩, ⟨TokenNumber, "2"⟩, ⟨TokenOperator, "-"⟩] = .ok (some 3) ∧
    EvaluateRPN latin1Tables exactArith
        [⟨TokenNumber, "10"⟩, ⟨TokenNumber, "2"⟩, ⟨TokenOperator, "/"⟩] = .ok (some 5) ∧
    (∀ U : UnicodeTables, Calculate U exactArith "5 - 2" = .ok (some 3)) ∧
    (∀ U : UnicodeTables, Calculate U exactArith "10 / 2" = .ok (some 5)) := by
  have h1 := (evaluateRPN_operand_order latin1Tables exactArith "5" "2" (some 5) (some 2)
    exactArith_parse_5 exactArith_parse_2).2.1
  have h2 := (evaluateRPN_operand_order latin1Tables exactArith "10" "2" (some 10) (some 2)
    exactArith_parse_10 exactArith_parse_2).2.2.2.1 (by simp [exactArith])
  have e1 : exactArith.sub (some 5) (some 2) = some 3 := by
    simp [exactArith]
    norm_num
  have e2 : exactArith.div (some 10) (some 2) = some 5 := by
    simp [exactArith]
    norm_num
  rw [e1] at h1
  rw [e2] at h2
  refine ⟨h1, h2, ?_, ?_⟩
  · intro U
    simp [Calculate, Tokenize, tokenizeLoop, tokenizeStep, scanNumber, IsSpace, IsDigit,
      IsLetter, isOperator, signPosition, ValidateExpression, checkPairs, illegalNext,
      ShuntingYard, shuntingLoop, popOperators, popToLParen, drainStack, precedence,
      EvaluateRPN, evaluateLoop, applyOperator, exactArith, exactParse, decimalValue,
      digitsValue]
    norm_num
  · intro U
    simp [Calculate, Tokenize, tokenizeLoop, tokenizeStep, scanNumber, IsSpace, IsDigit,
      IsLetter, isOperator, signPosition, ValidateExpression, checkPairs, illegalNext,
      ShuntingYard, shuntingLoop, popOperators, popToLParen, drainStack, precedence,
      EvaluateRPN, evaluateLoop, applyOperator, exactArith, exactParse, decimalValue,
      digitsValue]
    norm_num

/-- C9: on `a b /`, with `a` and `b` number tokens whose texts parse to `va` and `vb`,
`EvaluateRPN` fails with the division-by-zero error exactly when `vb == 0`, and succeeds
with the quotient `va / vb` otherwise. -/
theorem evaluateRPN_division_by_zero (U : UnicodeTables) (M : Float64) (a b : String)
    (va vb : M.F) (ha : M.ParseFloat a = some va) (hb : M.ParseFloat b = some vb) :
    (EvaluateRPN U M [⟨TokenNumber, a⟩, ⟨TokenNumber, b⟩, ⟨TokenOperator, "/"⟩] =
        .error .divisionByZero ↔ M.eqZero vb = true) ∧
    ((∃ e, EvaluateRPN U M [⟨TokenNumber, a⟩, ⟨TokenNumber, b⟩, ⟨TokenOperator, "/"⟩] =
        .error e) ↔ M.eqZero vb = true) ∧
    (M.eqZero vb = false →
      EvaluateRPN U M [⟨TokenNumber, a⟩, ⟨TokenNumber, b⟩, ⟨TokenOperator, "/"⟩] =
        .ok (M.div va vb)) := by
  have h : EvaluateRPN U M [⟨TokenNumber, a⟩, ⟨TokenNumber, b⟩, ⟨TokenOperator, "/"⟩] =
      if M.eqZero vb = true then .error .divisionByZero else .ok (M.div va vb) := by
    by_cases hz : M.eqZero vb = true <;>
      simp [EvaluateRPN, evaluateLoop, applyOperator, ha, hb, hz]
  rw [h]
  by_cases hz : M.eqZero vb = true <;> simp [hz]

theorem exactArith_parse_0 : exactArith.ParseFloat "0" = some (some 0) := by
  simp [exactArith, exactParse, decimalValue, digitsValue]

theorem exactArith_parse_neg0 : exactArith.ParseFloat "-0" = some (some 0) := by
  simp [exactArith, exactParse, decimalValue, digitsValue]

/-- C9 with the exact arithmetic: `5 0 /` and `5 -0 /` fail with the division-by-zero
error, `5 2 /` succeeds, and `Calculate` fails on `5 / 0`. -/
theorem evaluateRPN_division_by_zero_witness :
    EvaluateRPN latin1Tables exactArith
        [⟨TokenNumber, "5"⟩, ⟨TokenNumber, "0"⟩, ⟨TokenOperator, "/"⟩] =
      .error .divisionByZero ∧
    EvaluateRPN latin1Tables exactArith
        [⟨TokenNumber, "5"⟩, ⟨TokenNumber, "-0"⟩, ⟨TokenOperator, "/"⟩] =
      .error .divisionByZero ∧
    EvaluateRPN latin1Tables exactArith
        [⟨TokenNumber, "5"⟩, ⟨TokenNumber, "2"⟩, ⟨TokenOperator, "/"⟩] =
      .ok (exactArith.div (some 5) (some 2)) ∧
    (∀ U : UnicodeTables, Calculate U exactArith "5 / 0" = .error .divisionByZero) := by
  refine ⟨?_, ?_, ?_, ?_⟩
  · exact (evaluateRPN_division_by_zero latin1Tables exactArith "5" "0" (some 5) (some 0)
      exactArith_parse_5 exactArith_parse_0).1.mpr (by simp [exactArith])
  · exact (evaluateRPN_division_by_zero latin1Tables exactArith "5" "-0" (some 5) (some 0)
      exactArith_parse_5 exactArith_parse_neg0).1.mpr (by simp [exactArith])
  · exact (evaluateRPN_division_by_zero latin1Tables exactArith "5" "2" (some 5) (some 2)
      exactArith_parse_5 exactArith_parse_2).2.2 (by simp [exactArith])
  · intro U
    simp [Calculate, Tokenize, tokenizeLoop, tokenizeStep, scanNumber, IsSpace, IsDigit,
      IsLetter, isOperator, signPosition, ValidateExpression, checkPairs, illegalNext,
      ShuntingYard, shuntingLoop, popOperators, popToLParen, drainStack, precedence,
      EvaluateRPN, evaluateLoop, applyOperator, exactArith, exactParse, decimalValue,
      digitsValue]

/-- On `x f`, with `x` a number token whose text parses to `v`, `EvaluateRPN` returns what
the function `switch` returns on `v`. -/
theorem evaluateRPN_call (U : UnicodeTables) (M : Float64) (x f : String) (v : M.F)
    (hx : M.ParseFloat x = some v) :
    EvaluateRPN U M [⟨TokenNumber, x⟩, ⟨TokenFunction, f⟩] = applyFunction U M f v := by
  cases h : applyFunction U M f v <;> simp [EvaluateRPN, evaluateLoop, hx, h]

/-- C10: on `x f`, with `x` a number token whose text parses and `f` a function token,
`EvaluateRPN` fails with the unknown-function error exactly when the lower-cased text of
`f` is none of `sqrt`, `sin`, `cos`, `tan`; and two function names with the same
lower-cased text give the same result on `x`: the same value or the same error, the
unknown-function error naming each time the text as written. -/
theorem evaluateRPN_function_name (U : UnicodeTables) (M : Float64) (x f : String) (v : M.F)
    (hx : M.ParseFloat x = some v) :
    ((∃ name, EvaluateRPN U M [⟨TokenNumber, x⟩, ⟨TokenFunction, f⟩] =
        .error (.unknownFunction name)) ↔ ToLower U f ∉ ["sqrt", "sin", "cos", "tan"]) ∧
    (ToLower U f ∉ ["sqrt", "sin", "cos", "tan"] →
      EvaluateRPN U M [⟨TokenNumber, x⟩, ⟨TokenFunction, f⟩] =
        .error (.unknownFunction f)) ∧
    (∀ g : String, ToLower U g = ToLower U f →
      (ToLower U f ∈ ["sqrt", "sin", "cos", "tan"] →
        EvaluateRPN U M [⟨TokenNumber, x⟩, ⟨TokenFunction, g⟩] =
          EvaluateRPN U M [⟨TokenNumber, x⟩, ⟨TokenFunction, f⟩]) ∧
      (ToLower U f ∉ ["sqrt", "sin", "cos", "tan"] →
        EvaluateRPN U M [⟨TokenNumber, x⟩, ⟨TokenFunction, g⟩] =
            .error (.unknownFunction g) ∧
          EvaluateRPN U M [⟨TokenNumber, x⟩, ⟨TokenFunction, f⟩] =
            .error (.unknownFunction f))) := by
  have hknown : ∀ h : String, ToLower U h ∈ ["sqrt", "sin", "cos", "tan"] →
      ∀ name, applyFunction U M h v ≠ .error (.unknownFunction name) := by
    intro h hmem name
    simp only [List.mem_cons, List.mem_singleton, List.not_mem_nil, or_false] at hmem
    unfold applyFunction
    rcases hmem with hm | hm | hm | hm
    · rw [if_pos hm]
      by_cases hneg : M.ltZero v = true <;> simp [hneg]
    · have h1 : ToLower U h ≠ "sqrt" := by rw [hm]; decide
      simp [h1, hm]
    · have h1 : ToLower U h ≠ "sqrt" := by rw [hm]; decide
      have h2 : ToLower U h ≠ "sin" := by rw [hm]; decide
      simp [h1, h2, hm]
    · have h1 : ToLower U h ≠ "sqrt" := by rw [hm]; decide
      have h2 : ToLower U h ≠ "sin" := by rw [hm]; decide
      have h3 : ToLower U h ≠ "cos" := by rw [hm]; decide
      simp [h1, h2, h3, hm]
  have hunknown : ∀ h : String, ToLower U h ∉ ["sqrt", "sin", "cos", "tan"] →
      applyFunction U M h v = .error (.unknownFunction h) := by
    intro h hmem
    simp only [List.mem_cons, List.mem_singleton, List.not_mem_nil, or_false, not_or] at hmem
    unfold applyFunction
    rw [if_neg hmem.1, if_neg hmem.2.1, if_neg hmem.2.2.1, if_neg hmem.2.2.2]
  have hsame : ∀ g : String, ToLower U g = ToLower U f →
      ToLower U f ∈ ["sqrt", "sin", "cos", "tan"] →
      applyFunction U M g v = applyFunction U M f v := by
    intro g hg hmem
    simp only [List.mem_cons, List.mem_singleton, List.not_mem_nil, or_false] at hmem
    unfold applyFunction
    rw [hg]
    rcases hmem with hm | hm | hm | hm
    · rw [if_pos hm, if_pos hm]
    · have h1 : ToLower U f ≠ "sqrt" := by rw [hm]; decide
      rw [if_neg h1, if_pos hm, if_neg h1, if_pos hm]
    · have h1 : ToLower U f ≠ "sqrt" := by rw [hm]; decide
      have h2 : ToLower U f ≠ "sin" := by rw [hm]; decide
      rw [if_neg h1, if_neg h2, if_pos hm, if_neg h1, if_neg h2, if_pos hm]
    · have h1 : ToLower U f ≠ "sqrt" := by rw [hm]; decide
      have h2 : ToLower U f ≠ "sin" := by rw [hm]; decide
      have h3 : ToLower U f ≠ "cos" := by rw [hm]; decide
      rw [if_neg h1, if_neg h2, if_neg h3, if_pos hm, if_neg h1, if_neg h2, if_neg h3,
        if_pos hm]
  refine ⟨?_, ?_, ?_⟩
  · rw [evaluateRPN_call U M x f v hx]
    constructor
    · rintro ⟨name, hname⟩ hmem
      exact hknown f hmem name hname
    · intro hmem
      exact ⟨f, hunknown f hmem⟩
  · intro hmem
    rw [evaluateRPN_call U M x f v hx]
    exact hunknown f hmem
  · intro g hg
    rw [evaluateRPN_call U M x f v hx, evaluateRPN_call U M x g v hx]
    exact ⟨hsame g hg, fun hmem => ⟨hunknown g (hg ▸ hmem), hunknown f hmem⟩⟩

theorem exactArith_parse_16 : exactArith.ParseFloat "16" = some (some 16) := by
  simp [exactArith, exactParse, decimalValue, digitsValue]

/-- C10 with the exact arithmetic: `foo` is unknown, `SQRT` and `sqrt` have the same
lower-cased text and give the same result on `16`, and `Calculate` fails on `foo(5)`. -/
theorem evaluateRPN_function_name_witness :
    (∀ U : UnicodeTables, ToLower U "foo" ∉ ["sqrt", "sin", "cos", "tan"]) ∧
    EvaluateRPN latin1Tables exactArith [⟨TokenNumber, "5"⟩, ⟨TokenFunction, "foo"⟩] =
      .error (.unknownFunction "foo") ∧
    (∀ U : UnicodeTables, ToLower U "SQRT" = ToLower U "sqrt") ∧
    EvaluateRPN latin1Tables exactArith [⟨TokenNumber, "16"⟩, ⟨TokenFunction, "SQRT"⟩] =
      EvaluateRPN latin1Tables exactArith [⟨TokenNumber, "16"⟩, ⟨TokenFunction, "sqrt"⟩] ∧
    (∀ U : UnicodeTables, Calculate U exactArith "foo(5)" = .error (.unknownFunction "foo")) := by
  have h1 : ∀ U : UnicodeTables, ToLower U "foo" ∉ ["sqrt", "sin", "cos", "tan"] := by
    intro U
    simp [ToLower, runeToLower]
  have h2 : ∀ U : UnicodeTables, ToLower U "SQRT" = ToLower U "sqrt" := by
    intro U
    simp [ToLower, runeToLower]
  have h3 : ToLower latin1Tables "sqrt" ∈ ["sqrt", "sin", "cos", "tan"] := by
    simp [ToLower, runeToLower]
  refine ⟨h1, ?_, h2, ?_, ?_⟩
  · exact (evaluateRPN_function_name latin1Tables exactArith "5" "foo" (some 5)
      exactArith_parse_5).2.1 (h1 latin1Tables)
  · exact ((evaluateRPN_function_name latin1Tables exactArith "16" "sqrt" (some 16)
      exactArith_parse_16).2.2 "SQRT" (h2 latin1Tables)).1 h3
  · intro U
    simp [Calculate, Tokenize, tokenizeLoop, tokenizeStep, scanNumber, scanLetters, IsSpace,
      IsDigit, IsLetter, isOperator, signPosition, ValidateExpression, checkPairs, illegalNext,
      ShuntingYard, shuntingLoop, popOperators, popToLParen, drainStack, precedence,
      EvaluateRPN, evaluateLoop, applyOperator, applyFunction, ToLower, runeToLower,
      exactArith, exactParse, decimalValue, digitsValue]

/-! ## Square roots and trigonometric functions in `EvaluateRPN` -/

/-- C11: on `x sqrt`, with `x` a number token whose text parses to `v`, `EvaluateRPN` fails
with the sqrt-of-negative error exactly when `v < 0` and otherwise succeeds with the square
root of `v`; on `x sin`, `x cos` and `x tan` it succeeds with the sine, cosine and tangent
of `v`, whatever `v` is. -/
theorem evaluateRPN_sqrt (U : UnicodeTables) (M : Float64) (x : String) (v : M.F)
    (hx : M.ParseFloat x = some v) :
    (EvaluateRPN U M [⟨TokenNumber, x⟩, ⟨TokenFunction, "sqrt"⟩] = .error .negativeSqrt ↔
      M.ltZero v = true) ∧
    ((∃ e, EvaluateRPN U M [⟨TokenNumber, x⟩, ⟨TokenFunction, "sqrt"⟩] = .error e) ↔
      M.ltZero v = true) ∧
    (M.ltZero v = false →
      EvaluateRPN U M [⟨TokenNumber, x⟩, ⟨TokenFunction, "sqrt"⟩] = .ok (M.Sqrt v)) ∧
    EvaluateRPN U M [⟨TokenNumber, x⟩, ⟨TokenFunction, "sin"⟩] = .ok (M.Sin v) ∧
    EvaluateRPN U M [⟨TokenNumber, x⟩, ⟨TokenFunction, "cos"⟩] = .ok (M.Cos v) ∧
    EvaluateRPN U M [⟨TokenNumber, x⟩, ⟨TokenFunction, "tan"⟩] = .ok (M.Tan v) := by
  have hsqrt : EvaluateRPN U M [⟨TokenNumber, x⟩, ⟨TokenFunction, "sqrt"⟩] =
      if M.ltZero v = true then .error .negativeSqrt else .ok (M.Sqrt v) := by
    rw [evaluateRPN_call U M x "sqrt" v hx]
    simp [applyFunction, ToLower, runeToLower]
  rw [hsqrt, evaluateRPN_call U M x "sin" v hx, evaluateRPN_call U M x "cos" v hx,
    evaluateRPN_call U M x "tan" v hx]
  refine ⟨?_, ?_, ?_, ?_, ?_, ?_⟩
  · by_cases hz : M.ltZero v = true <;> simp [hz]
  · by_cases hz : M.ltZero v = true <;> simp [hz]
  · intro hz
    simp [hz]
  · simp [applyFunction, ToLower, runeToLower]
  · simp [applyFunction, ToLower, runeToLower]
  · simp [applyFunction, ToLower, runeToLower]

theorem exactArith_parse_neg4 : exactArith.ParseFloat "-4" = some (some (-4)) := by
  simp [exactArith, exactParse, decimalValue, digitsValue]

/-- C11 with the exact arithmetic: `-4 sqrt` fails with the sqrt-of-negative error and
`16 sqrt` succeeds with the square root of `16`. -/
theorem evaluateRPN_sqrt_witness :
    EvaluateRPN latin1Tables exactArith [⟨TokenNumber, "-4"⟩, ⟨TokenFunction, "sqrt"⟩] =
      .error .negativeSqrt ∧
    EvaluateRPN latin1Tables exactArith [⟨TokenNumber, "16"⟩, ⟨TokenFunction, "sqrt"⟩] =
      .ok (exactArith.Sqrt (some 16)) ∧
    (∀ U : UnicodeTables, Calculate U exactArith "sqrt(16)" = .ok (some 4)) := by
  refine ⟨?_, ?_, ?_⟩
  · exact (evaluateRPN_sqrt latin1Tables exactArith "-4" (some (-4))
      exactArith_parse_neg4).1.mpr (by simp [exactArith])
  · exact (evaluateRPN_sqrt latin1Tables exactArith "16" (some 16)
      exactArith_parse_16).2.2.1 (by simp [exactArith])
  · intro U
    simp [Calculate, Tokenize, tokenizeLoop, tokenizeStep, scanNumber, scanLetters, IsSpace,
      IsDigit, IsLetter, isOperator, signPosition, ValidateExpression, checkPairs, illegalNext,
      ShuntingYard, shuntingLoop, popOperators, popToLParen, drainStack, precedence,
      EvaluateRPN, evaluateLoop, applyOperator, applyFunction, ToLower, runeToLower,
      exactArith, exactParse, decimalValue, digitsValue]
    norm_num

/-! ## Empty input -/

/-- The main loop of `Tokenize` steps over white space without emitting a token. -/
theorem tokenizeLoop_spaces (U : UnicodeTables) (tokens : List Token) (ws rest : List Char)
    (hws : ∀ r ∈ ws, IsSpace U r = true) :
    tokenizeLoop U tokens (ws ++ rest) = tokenizeLoop U tokens rest := by
  induction ws with
  | nil => rfl
  | cons c ws ih =>
    rw [List.cons_append, tokenizeLoop, if_pos (hws c (List.mem_cons_self _ _))]
    exact ih (fun r hr => hws r (List.mem_cons_of_mem _ hr))

/-- C12: on an input made of white space only (the empty input included), `Tokenize`
succeeds with no token, `ValidateExpression` and `ShuntingYard` accept the empty sequence,
and `Calculate` fails with the invalid-expression error raised by `EvaluateRPN`. -/
theorem calculate_blank (U : UnicodeTables) (M : Float64) (expr : String)
    (hblank : ∀ r ∈ expr.toList, IsSpace U r = true) :
    Tokenize U expr = .ok [] ∧
    ValidateExpression [] = .ok () ∧
    ShuntingYard [] = .ok [] ∧
    EvaluateRPN U M [] = .error .invalidExpression ∧
    Calculate U M expr = .error .invalidExpression := by
  have hT : Tokenize U expr = .ok [] := by
    have h := tokenizeLoop_spaces U [] expr.toList [] hblank
    rw [List.append_nil] at h
    rw [Tokenize, h, tokenizeLoop]
  refine ⟨hT, rfl, rfl, rfl, ?_⟩
  rw [Calculate, hT]
  rfl

/-- C12 at the empty input and at an input of blanks, tabs and a line break. -/
theorem calculate_blank_witness :
    (∀ r ∈ "".toList, IsSpace latin1Tables r = true) ∧
    Calculate latin1Tables exactArith "" = .error .invalidExpression ∧
    (∀ r ∈ " \t \n".toList, IsSpace latin1Tables r = true) ∧
    Tokenize latin1Tables " \t \n" = .ok [] ∧
    Calculate latin1Tables exactArith " \t \n" = .error .invalidExpression := by
  have h1 : ∀ r ∈ "".toList, IsSpace latin1Tables r = true := by
    intro r hr
    simp at hr
  have h2 : ∀ r ∈ " \t \n".toList, IsSpace latin1Tables r = true := by
    intro r hr
    simp only [String.toList, List.mem_cons, List.mem_singleton, List.not_mem_nil,
      or_false] at hr
    rcases hr with rfl | rfl | rfl | rfl <;> decide
  exact ⟨h1, (calculate_blank latin1Tables exactArith "" h1).2.2.2.2, h2,
    (calculate_blank latin1Tables exactArith " \t \n" h2).1,
    (calculate_blank latin1Tables exactArith " \t \n" h2).2.2.2.2⟩

/-! ## A single literal number -/

theorem numericRun_self (U : UnicodeTables) (l : List Char)
    (hl : ∀ r ∈ l, numericRune U r = true) : numericRun U l = l := by
  have h := numericRun_append U l [] hl (by simp)
  rwa [List.append_nil] at h

/-- The iteration at a numeric rune emits the number token of the numeric run that starts
there, when that run has at most one decimal point. -/
theorem tokenizeStep_numeric (U : UnicodeTables) (tokens : List Token) (c : Char)
    (rest : List Char) (hc : numericRune U c = true)
    (hcount : (numericRun U rest).count '.' + (c == '.').toNat ≤ 1) :
    tokenizeStep U tokens c rest =
      .ok (tokens ++ [⟨TokenNumber, String.mk (c :: numericRun U rest)⟩],
        (numericRun U rest).length) := by
  have hc2 : (IsDigit U c || c == '.') = true := hc
  unfold tokenizeStep
  rw [if_pos hc2, scanNumber_eq, if_pos hcount]

/-- The iteration at a `-`, unfolded up to the choice between sign and operator. -/
theorem tokenizeStep_minus (U : UnicodeTables) (tokens : List Token) (rest : List Char) :
    tokenizeStep U tokens '-' rest =
      if signPosition tokens = true then
        match rest with
        | [] => .ok (tokens ++ [⟨TokenOperator, "-"⟩], 0)
        | next :: rest2 =>
          if (IsDigit U next || next == '.') = true then
            match scanNumber U (next == '.') rest2 with
            | .error e => .error e
            | .ok run =>
              .ok (tokens ++ [⟨TokenNumber, String.mk ('-' :: next :: run)⟩], 1 + run.length)
          else .ok (tokens ++ [⟨TokenOperator, "-"⟩], 0)
      else .ok (tokens ++ [⟨TokenOperator, "-"⟩], 0) := by
  have hdg : IsDigit U '-' = false := by simp [IsDigit]
  have hop : isOperator (String.mk ['-']) = true := by decide
  unfold tokenizeStep
  simp only [hdg, hop, Bool.false_or, if_true]
  have h1 : (('-' : Char) == '.') = false := by decide
  have h2 : (('-' : Char) == '(') = false := by decide
  have h3 : (('-' : Char) == ')') = false := by decide
  have h4 : (('-' : Char) == '-') = true := by decide
  simp only [h1, h2, h3, h4, Bool.true_and, Bool.false_eq_true, if_false]

theorem asciiDigit_isDigit (U : UnicodeTables) (r : Char) (h : asciiDigit r = true) :
    IsDigit U r = true := by
  unfold asciiDigit at h
  have h2 := of_decide_eq_true h
  unfold IsDigit
  rw [if_pos (by omega)]
  exact h

theorem asciiDigit_not_space (U : UnicodeTables) (r : Char) (h : asciiDigit r = true) :
    IsSpace U r = false := by
  unfold asciiDigit at h
  have h2 := of_decide_eq_true h
  unfold IsSpace
  rw [if_pos (by omega)]
  apply decide_eq_false
  omega

/-- A signed decimal text is tokenized as the single number token with that text. -/
theorem tokenize_signedDecimal (U : UnicodeTables) (s : String) (hs : SignedDecimalText s) :
    Tokenize U s = .ok [⟨TokenNumber, s⟩] := by
  obtain ⟨body, hshape, hne, hall, hcount⟩ := hs
  have hnum : ∀ r ∈ body, numericRune U r = true := by
    intro r hr
    unfold numericRune
    rcases hall r hr with h | h
    · rw [asciiDigit_isDigit U r h]
      rfl
    · rw [h]
      simp
  have hsp : ∀ r ∈ body, IsSpace U r = false := by
    intro r hr
    rcases hall r hr with h | h
    · exact asciiDigit_not_space U r h
    · rw [h]
      simp [IsSpace]
  cases body with
  | nil => exact absurd rfl hne
  | cons c rest =>
    have hc := hnum c (List.mem_cons_self _ _)
    have hrest : ∀ r ∈ rest, numericRune U r = true :=
      fun r hr => hnum r (List.mem_cons_of_mem _ hr)
    have hrun : numericRun U rest = rest := numericRun_self U rest hrest
    have hcnt : (numericRun U rest).count '.' + (c == '.').toNat ≤ 1 := by
      rw [hrun]
      rw [List.count_cons] at hcount
      cases hd : (c == '.')
      · simp only [hd, Bool.false_eq_true, if_false, Bool.toNat_false] at hcount ⊢
        omega
      · simp only [hd, if_true, Bool.toNat_true] at hcount ⊢
        omega
    have hstr : String.mk s.toList = s := rfl
    rcases hshape with hshape | hshape
    · rw [Tokenize, hshape, tokenizeLoop, if_neg (by rw [hsp c (List.mem_cons_self _ _)]; simp),
        tokenizeStep_numeric U [] c rest hc hcnt]
      simp only [hrun, List.drop_length, List.nil_append]
      rw [tokenizeLoop, ← hshape, hstr]
    · have hsp2 : IsSpace U '-' = false := by simp [IsSpace]
      rw [Tokenize, hshape, tokenizeLoop, if_neg (by rw [hsp2]; simp), tokenizeStep_minus,
        if_pos (by rfl)]
      have hc2 : (IsDigit U c || c == '.') = true := hc
      simp only [hc2, if_true]
      rw [scanNumber_eq, if_pos hcnt]
      simp only [hrun, Nat.add_comm 1, List.drop_succ_cons, List.drop_length, List.nil_append]
      rw [tokenizeLoop, ← hshape, hstr]

/-- `Calculate` on a text that tokenizes to a single number token is the number parser on
that text. -/
theorem calculate_single_number (U : UnicodeTables) (M : Float64) (s : String)
    (hT : Tokenize U s = .ok [⟨TokenNumber, s⟩]) :
    Calculate U M s =
      match M.ParseFloat s with
      | none => .error (.numberParse s)
      | some n => .ok n := by
  rw [Calculate, hT]
  cases h : M.ParseFloat s <;>
    simp [ValidateExpression, checkPairs, ShuntingYard, shuntingLoop, drainStack, EvaluateRPN,
      evaluateLoop, h]

/-- A signed decimal text met where a sign may stand is tokenized as one number token with
that text, appended to the tokens built so far. -/
theorem tokenizeLoop_signedDecimal (U : UnicodeTables) (tokens : List Token) (s : String)
    (hs : SignedDecimalText s) (hsign : signPosition tokens = true) :
    tokenizeLoop U tokens s.toList = .ok (tokens ++ [⟨TokenNumber, s⟩]) := by
  obtain ⟨body, hshape, hne, hall, hcount⟩ := hs
  have hnum : ∀ r ∈ body, numericRune U r = true := by
    intro r hr
    unfold numericRune
    rcases hall r hr with h | h
    · rw [asciiDigit_isDigit U r h]
      rfl
    · rw [h]
      simp
  have hsp : ∀ r ∈ body, IsSpace U r = false := by
    intro r hr
    rcases hall r hr with h | h
    · exact asciiDigit_not_space U r h
    · rw [h]
      simp [IsSpace]
  cases body with
  | nil => exact absurd rfl hne
  | cons c rest =>
    have hc := hnum c (List.mem_cons_self _ _)
    have hrest : ∀ r ∈ rest, numericRune U r = true :=
      fun r hr => hnum r (List.mem_cons_of_mem _ hr)
    have hrun : numericRun U rest = rest := numericRun_self U rest hrest
    have hcnt : (numericRun U rest).count '.' + (c == '.').toNat ≤ 1 := by
      rw [hrun]
      rw [List.count_cons] at hcount
      cases hd : (c == '.')
      · simp only [hd, Bool.false_eq_true, if_false, Bool.toNat_false] at hcount ⊢
        omega
      · simp only [hd, if_true, Bool.toNat_true] at hcount ⊢
        omega
    have hstr : String.mk s.toList = s := rfl
    rcases hshape with hshape | hshape
    · rw [hshape, tokenizeLoop, if_neg (by rw [hsp c (List.mem_cons_self _ _)]; simp),
        tokenizeStep_numeric U tokens c rest hc hcnt]
      simp only [hrun, List.drop_length]
      rw [tokenizeLoop, ← hshape, hstr]
    · have hsp2 : IsSpace U '-' = false := by simp [IsSpace]
      rw [hshape, tokenizeLoop, if_neg (by rw [hsp2]; simp), tokenizeStep_minus,
        if_pos hsign]
      have hc2 : (IsDigit U c || c == '.') = true := hc
      simp only [hc2, if_true]
      rw [scanNumber_eq, if_pos hcnt]
      simp only [hrun, Nat.add_comm 1, List.drop_succ_cons, List.drop_length]
      rw [tokenizeLoop, ← hshape, hstr]

/-- A `+` at the start of the input is emitted as an operator token. -/
theorem tokenizeLoop_plus (U : UnicodeTables) (rest : List Char) :
    tokenizeLoop U [] ('+' :: rest) = tokenizeLoop U [⟨TokenOperator, "+"⟩] rest := by
  have hsp : IsSpace U '+' = false := by simp [IsSpace]
  have hstep : tokenizeStep U [] '+' rest = .ok ([⟨TokenOperator, "+"⟩], 0) := by
    have hdg : IsDigit U '+' = false := by simp [IsDigit]
    have hop : isOperator (String.mk ['+']) = true := by decide
    have h1 : (('+' : Char) == '.') = false := by decide
    have h2 : (('+' : Char) == '(') = false := by decide
    have h3 : (('+' : Char) == ')') = false := by decide
    have h4 : (('+' : Char) == '-') = false := by decide
    unfold tokenizeStep
    simp only [hdg, hop, h1, h2, h3, h4, Bool.false_or, Bool.false_and, Bool.false_eq_true,
      if_false, if_true, List.nil_append]
  rw [tokenizeLoop, if_neg (by rw [hsp]; simp), hstep]
  rfl

/-- C13 (amended): for the text `s` of one literal number, an optional `-` followed by a
non-empty run of ASCII digits with at most one decimal point, `Tokenize` yields the single
number token with that text and `Calculate` returns what `strconv.ParseFloat` makes of the
text: the number `n` when the text is read as `n`, and the number-parse error when the text
is rejected. The same literal written after a `+` sign is not accepted: `Calculate` fails
because the expression starts with the operator `+`. -/
theorem calculate_literal (U : UnicodeTables) (M : Float64) (s : String)
    (hs : SignedDecimalText s) :
    Tokenize U s = .ok [⟨TokenNumber, s⟩] ∧
    (∀ n, M.ParseFloat s = some n → Calculate U M s = .ok n) ∧
    (M.ParseFloat s = none → Calculate U M s = .error (.numberParse s)) ∧
    Calculate U M (String.mk ('+' :: s.toList)) = .error (.leadingToken "+") := by
  have hT : Tokenize U s = .ok [⟨TokenNumber, s⟩] :=
    tokenizeLoop_signedDecimal U [] s hs rfl
  have hC := calculate_single_number U M s hT
  refine ⟨hT, ?_, ?_, ?_⟩
  · intro n hn
    rw [hC, hn]
  · intro hn
    rw [hC, hn]
  · have hP : Tokenize U (String.mk ('+' :: s.toList)) =
        .ok [⟨TokenOperator, "+"⟩, ⟨TokenNumber, s⟩] := by
      have e : (String.mk ('+' :: s.toList)).toList = '+' :: s.toList := rfl
      rw [Tokenize, e, tokenizeLoop_plus,
        tokenizeLoop_signedDecimal U [⟨TokenOperator, "+"⟩] s hs rfl]
      rfl
    rw [Calculate, hP]
    rfl

theorem exactArith_parse_neg3_5 : exactArith.ParseFloat "-3.5" = some (some (-7 / 2)) := by
  simp [exactArith, exactParse, decimalValue, digitsValue]
  norm_num

theorem exactArith_parse_dot : exactArith.ParseFloat "." = none := by
  simp [exactArith, exactParse, decimalValue, digitsValue]

theorem exactArith_parse_plus5 : exactArith.ParseFloat "+5" = some (some 5) := by
  simp [exactArith, exactParse, decimalValue, digitsValue]

/-- C13 at the literals `-3.5`, read as a number, and `.`, rejected by the parser, with the
exact arithmetic. -/
theorem calculate_literal_witness :
    SignedDecimalText "-3.5" ∧ exactArith.ParseFloat "-3.5" = some (some (-7 / 2)) ∧
    Calculate latin1Tables exactArith "-3.5" = .ok (some (-7 / 2)) ∧
    Calculate latin1Tables exactArith "+-3.5" = .error (.leadingToken "+") ∧
    SignedDecimalText "." ∧ exactArith.ParseFloat "." = none ∧
    Calculate latin1Tables exactArith "." = .error (.numberParse ".") := by
  have hs : SignedDecimalText "-3.5" := by
    refine ⟨['3', '.', '5'], Or.inr rfl, by simp, ?_, by decide⟩
    intro r hr
    simp only [List.mem_cons, List.mem_singleton, List.not_mem_nil, or_false] at hr
    rcases hr with rfl | rfl | rfl <;> decide
  have hd : SignedDecimalText "." := by
    refine ⟨['.'], Or.inl rfl, by simp, ?_, by decide⟩
    intro r hr
    simp only [List.mem_singleton] at hr
    exact Or.inr hr
  exact ⟨hs, exactArith_parse_neg3_5,
    (calculate_literal latin1Tables exactArith "-3.5" hs).2.1 _ exactArith_parse_neg3_5,
    (calculate_literal latin1Tables exactArith "-3.5" hs).2.2.2,
    hd, exactArith_parse_dot,
    (calculate_literal latin1Tables exactArith "." hd).2.2.1 exactArith_parse_dot⟩

/-- C13, counterexample: the signed literal `+5` is read by the number parser as `5`, and
`5` alone evaluates to `5`, but `Calculate` fails on `+5`: the `+` is emitted as an operator
token and the validator rejects an expression that starts with an operator. -/
theorem calculate_literal_counterexample :
    exactArith.ParseFloat "+5" = some (some 5) ∧
    Calculate latin1Tables exactArith "5" = .ok (some 5) ∧
    Tokenize latin1Tables "+5" = .ok [⟨TokenOperator, "+"⟩, ⟨TokenNumber, "5"⟩] ∧
    Calculate latin1Tables exactArith "+5" = .error (.leadingToken "+") := by
  have hT5 : Tokenize latin1Tables "5" = .ok [⟨TokenNumber, "5"⟩] := by
    simp [Tokenize, tokenizeLoop, tokenizeStep, scanNumber, IsSpace, IsDigit, IsLetter,
      isOperator, signPosition]
  have hT : Tokenize latin1Tables "+5" = .ok [⟨TokenOperator, "+"⟩, ⟨TokenNumber, "5"⟩] := by
    simp [Tokenize, tokenizeLoop, tokenizeStep, scanNumber, IsSpace, IsDigit, IsLetter,
      isOperator, signPosition]
  refine ⟨exactArith_parse_plus5, ?_, hT, ?_⟩
  · rw [calculate_single_number latin1Tables exactArith "5" hT5, exactArith_parse_5]
  · rw [Calculate, hT]
    rfl

/-! ## A function without parentheses in `ShuntingYard` -/

/-- C15 (amended): for a function token `f`, number tokens `a`, `b` and an operator token
`op`, `ShuntingYard` converts `f a op b` to `a b op f`: the operator loop pops operators
only, so the function stays on the stack below `op` until the end, and `f` is applied to
the result of `a op b`. -/
theorem shuntingYard_bare_function (f a op b : String) :
    ShuntingYard [⟨TokenFunction, f⟩, ⟨TokenNumber, a⟩, ⟨TokenOperator, op⟩,
        ⟨TokenNumber, b⟩] =
      .ok [⟨TokenNumber, a⟩, ⟨TokenNumber, b⟩, ⟨TokenOperator, op⟩, ⟨TokenFunction, f⟩] := by
  simp [ShuntingYard, shuntingLoop, popOperators, drainStack]

/-- C15 as stated fails at `sqrt 4 + 5`: the postfix sequence is `4 5 + sqrt`, not
`4 sqrt 5 +`, and the expression evaluates to the square root of `9`, not to `2 + 5`. -/
theorem shuntingYard_bare_function_counterexample :
    ShuntingYard [⟨TokenFunction, "sqrt"⟩, ⟨TokenNumber, "4"⟩, ⟨TokenOperator, "+"⟩,
        ⟨TokenNumber, "5"⟩] =
      .ok [⟨TokenNumber, "4"⟩, ⟨TokenNumber, "5"⟩, ⟨TokenOperator, "+"⟩,
        ⟨TokenFunction, "sqrt"⟩] ∧
    ShuntingYard [⟨TokenFunction, "sqrt"⟩, ⟨TokenNumber, "4"⟩, ⟨TokenOperator, "+"⟩,
        ⟨TokenNumber, "5"⟩] ≠
      .ok [⟨TokenNumber, "4"⟩, ⟨TokenFunction, "sqrt"⟩, ⟨TokenNumber, "5"⟩,
        ⟨TokenOperator, "+"⟩] ∧
    Calculate latin1Tables exactArith "sqrt 4 + 5" = .ok (some 3) := by
  have h : ShuntingYard [⟨TokenFunction, "sqrt"⟩, ⟨TokenNumber, "4"⟩, ⟨TokenOperator, "+"⟩,
      ⟨TokenNumber, "5"⟩] =
      .ok [⟨TokenNumber, "4"⟩, ⟨TokenNumber, "5"⟩, ⟨TokenOperator, "+"⟩,
        ⟨TokenFunction, "sqrt"⟩] := rfl
  refine ⟨h, ?_, ?_⟩
  · rw [h]
    intro hne
    injection hne with hne
    revert hne
    decide
  · simp [Calculate, Tokenize, tokenizeLoop, tokenizeStep, scanNumber, scanLetters, IsSpace,
      IsDigit, IsLetter, isOperator, signPosition, ValidateExpression, checkPairs, illegalNext,
      ShuntingYard, shuntingLoop, popOperators, popToLParen, drainStack, precedence,
      EvaluateRPN, evaluateLoop, applyOperator, applyFunction, ToLower, runeToLower,
      exactArith, exactParse, decimalValue, digitsValue, latin1Tables]
    have h9 : Nat.sqrt 9 = 3 := Nat.sqrt_eq 3
    have e9 : Int.toNat 9 = 9 := rfl
    norm_num
    rw [e9, h9]
    norm_num

/-! ## `ShuntingYard` reorders tokens and drops parentheses -/

/-- The operator loop moves a run of operators from the top of the stack to the output. -/
theorem popOperators_split (token : Token) (output stack : List Token) :
    ∃ popped, (popOperators token output stack).1 = output ++ popped ∧
      stack = popped ++ (popOperators token output stack).2 ∧
      ∀ t ∈ popped, t.Typ = TokenOperator := by
  induction stack generalizing output with
  | nil => exact ⟨[], by simp [popOperators]⟩
  | cons top stack ih =>
    unfold popOperators
    by_cases h1 : top.Typ = TokenOperator
    · by_cases h2 : precedence top.Value ≥ precedence token.Value
      · rw [if_pos h1, if_pos h2]
        obtain ⟨popped, ho, hs, hp⟩ := ih (output ++ [top])
        refine ⟨top :: popped, by simpa using ho, by rw [List.cons_append, ← hs], ?_⟩
        intro t ht
        rcases List.mem_cons.mp ht with rfl | ht
        · exact h1
        · exact hp t ht
      · rw [if_pos h1, if_neg h2]
        exact ⟨[], by simp⟩
    · rw [if_neg h1]
      exact ⟨[], by simp⟩

/-- The right-parenthesis loop, when it finds a left parenthesis, has moved the tokens above
it to the output and removed it. -/
theorem popToLParen_split (output stack : List Token)
    (hfound : (popToLParen output stack).2.2 = true) :
    ∃ popped paren, stack = popped ++ paren :: (popToLParen output stack).2.1 ∧
      (popToLParen output stack).1 = output ++ popped ∧ paren.Typ = TokenLParen ∧
      ∀ t ∈ popped, t.Typ ≠ TokenLParen := by
  induction stack generalizing output with
  | nil => simp [popToLParen] at hfound
  | cons top stack ih =>
    unfold popToLParen at hfound ⊢
    by_cases h : top.Typ = TokenLParen
    · rw [if_pos h]
      exact ⟨[], top, by simp, by simp, h, by simp⟩
    · rw [if_neg h] at hfound ⊢
      obtain ⟨popped, paren, hs, ho, hp, hall⟩ := ih (output ++ [top]) hfound
      refine ⟨top :: popped, paren, by rw [List.cons_append, ← hs], by simpa using ho, hp, ?_⟩
      intro t ht
      rcases List.mem_cons.mp ht with rfl | ht
      · exact h
      · exact hall t ht

/-- The final loop, when it succeeds, has appended the whole stack, which holds no left
parenthesis. -/
theorem drainStack_ok (output stack p : List Token) (h : drainStack output stack = .ok p) :
    p = output ++ stack ∧ ∀ t ∈ stack, t.Typ ≠ TokenLParen := by
  induction stack generalizing output with
  | nil =>
    simp only [drainStack, Except.ok.injEq] at h
    simp [h]
  | cons top stack ih =>
    unfold drainStack at h
    by_cases hl : top.Typ = TokenLParen
    · rw [if_pos hl] at h
      cases h
    · rw [if_neg hl] at h
      obtain ⟨hp, hall⟩ := ih (output ++ [top]) h
      refine ⟨by simpa using hp, ?_⟩
      intro t ht
      rcases List.mem_cons.mp ht with rfl | ht
      · exact hl
      · exact hall t ht

theorem withoutParens_append (l₁ l₂ : List Token) :
    withoutParens (l₁ ++ l₂) = withoutParens l₁ ++ withoutParens l₂ := by
  simp [withoutParens]

theorem numbersOf_append (l₁ l₂ : List Token) :
    numbersOf (l₁ ++ l₂) = numbersOf l₁ ++ numbersOf l₂ := by
  simp [numbersOf]

theorem withoutParens_cons (t : Token) (l : List Token) :
    withoutParens (t :: l) = if t.isParen = true then withoutParens l else t :: withoutParens l := by
  unfold withoutParens
  rw [List.filter_cons]
  cases t.isParen <;> simp

theorem numbersOf_cons (t : Token) (l : List Token) :
    numbersOf (t :: l) = if t.isNumber = true then t :: numbersOf l else numbersOf l := by
  unfold numbersOf
  rw [List.filter_cons]

theorem withoutParens_self (l : List Token) (h : ∀ t ∈ l, t.isParen = false) :
    withoutParens l = l := by
  unfold withoutParens
  rw [List.filter_eq_self]
  intro t ht
  simp [h t ht]

theorem numbersOf_nil_of (l : List Token) (h : ∀ t ∈ l, t.isNumber = false) :
    numbersOf l = [] := by
  unfold numbersOf
  rw [List.filter_eq_nil_iff]
  intro t ht
  simp [h t ht]

/-- The invariant of the converter: what it returns holds the output so far, then the
tokens of the stack and of the remaining input that are not parentheses, each as often as
it occurs there; and its number tokens are those of the output followed by those of the
remaining input. -/
theorem shuntingLoop_tokens (ts output stack p : List Token)
    (hstack : ∀ t ∈ stack, t.Typ ≠ TokenNumber ∧ t.Typ ≠ TokenRParen)
    (h : shuntingLoop ts output stack = .ok p) :
    (∀ a, p.count a =
      output.count a + (withoutParens stack).count a + (withoutParens ts).count a) ∧
    numbersOf p = numbersOf output ++ numbersOf ts := by
  induction ts generalizing output stack with
  | nil =>
    rw [shuntingLoop] at h
    obtain ⟨hp, hall⟩ := drainStack_ok output stack p h
    have hwp : withoutParens stack = stack :=
      withoutParens_self stack (fun t ht => by
        have h1 := hall t ht
        have h2 := (hstack t ht).2
        simp [Token.isParen, h1, h2])
    have hnum : numbersOf stack = [] :=
      numbersOf_nil_of stack (fun t ht => by
        have h1 := (hstack t ht).1
        simp [Token.isNumber, h1])
    subst hp
    refine ⟨fun a => ?_, ?_⟩
    · rw [hwp]
      simp [withoutParens]
    · rw [numbersOf_append, hnum]
      simp [numbersOf]
  | cons t ts ih =>
    cases hT : t.Typ with
    | TokenNumber =>
      rw [shuntingLoop_number t ts output stack hT] at h
      obtain ⟨hc, hn⟩ := ih (output ++ [t]) stack hstack h
      have e1 : withoutParens (t :: ts) = t :: withoutParens ts := by
        rw [withoutParens_cons]
        simp [Token.isParen, hT]
      have e2 : numbersOf (t :: ts) = t :: numbersOf ts := by
        rw [numbersOf_cons]
        simp [Token.isNumber, hT]
      refine ⟨fun a => ?_, ?_⟩
      · rw [hc a, e1, List.count_append, List.count_cons, List.count_cons, List.count_nil]
        omega
      · rw [hn, e2, numbersOf_append]
        simp [numbersOf, Token.isNumber, hT]
    | TokenFunction =>
      rw [shuntingLoop_function t ts output stack hT] at h
      have hst : ∀ u ∈ t :: stack, u.Typ ≠ TokenNumber ∧ u.Typ ≠ TokenRParen := by
        intro u hu
        rcases List.mem_cons.mp hu with rfl | hu
        · rw [hT]
          exact ⟨by decide, by decide⟩
        · exact hstack u hu
      obtain ⟨hc, hn⟩ := ih output (t :: stack) hst h
      have e1 : withoutParens (t :: ts) = t :: withoutParens ts := by
        rw [withoutParens_cons]
        simp [Token.isParen, hT]
      have e1s : withoutParens (t :: stack) = t :: withoutParens stack := by
        rw [withoutParens_cons]
        simp [Token.isParen, hT]
      have e2 : numbersOf (t :: ts) = numbersOf ts := by
        rw [numbersOf_cons]
        simp [Token.isNumber, hT]
      refine ⟨fun a => ?_, ?_⟩
      · rw [hc a, e1, e1s, List.count_cons, List.count_cons]
        omega
      · rw [hn, e2]
    | TokenLParen =>
      rw [shuntingLoop_lparen t ts output stack hT] at h
      have hst : ∀ u ∈ t :: stack, u.Typ ≠ TokenNumber ∧ u.Typ ≠ TokenRParen := by
        intro u hu
        rcases List.mem_cons.mp hu with rfl | hu
        · rw [hT]
          exact ⟨by decide, by decide⟩
        · exact hstack u hu
      obtain ⟨hc, hn⟩ := ih output (t :: stack) hst h
      have e1 : withoutParens (t :: ts) = withoutParens ts := by
        rw [withoutParens_cons]
        simp [Token.isParen, hT]
      have e1s : withoutParens (t :: stack) = withoutParens stack := by
        rw [withoutParens_cons]
        simp [Token.isParen, hT]
      have e2 : numbersOf (t :: ts) = numbersOf ts := by
        rw [numbersOf_cons]
        simp [Token.isNumber, hT]
      refine ⟨fun a => ?_, ?_⟩
      · rw [hc a, e1, e1s]
      · rw [hn, e2]
    | TokenOperator =>
      rw [shuntingLoop_operator t ts output stack hT] at h
      obtain ⟨popped, ho, hs, hp⟩ := popOperators_split t output stack
      have hst : ∀ u ∈ t :: (popOperators t output stack).2,
          u.Typ ≠ TokenNumber ∧ u.Typ ≠ TokenRParen := by
        intro u hu
        rcases List.mem_cons.mp hu with rfl | hu
        · rw [hT]
          exact ⟨by decide, by decide⟩
        · exact hstack u (by rw [hs]; exact List.mem_append_right _ hu)
      obtain ⟨hc, hn⟩ := ih _ _ hst h
      have e1 : withoutParens (t :: ts) = t :: withoutParens ts := by
        rw [withoutParens_cons]
        simp [Token.isParen, hT]
      have e1s : withoutParens (t :: (popOperators t output stack).2) =
          t :: withoutParens (popOperators t output stack).2 := by
        rw [withoutParens_cons]
        simp [Token.isParen, hT]
      have e2 : numbersOf (t :: ts) = numbersOf ts := by
        rw [numbersOf_cons]
        simp [Token.isNumber, hT]
      have e3 : withoutParens stack = popped ++ withoutParens (popOperators t output stack).2 := by
        conv_lhs => rw [hs]
        rw [withoutParens_append, withoutParens_self popped (fun u hu => by
          simp [Token.isParen, hp u hu])]
      have e4 : numbersOf popped = [] :=
        numbersOf_nil_of popped (fun u hu => by simp [Token.isNumber, hp u hu])
      refine ⟨fun a => ?_, ?_⟩
      · rw [hc a, e1, e1s, e3, ho, List.count_append, List.count_append, List.count_cons,
          List.count_cons]
        omega
      · rw [hn, e2, ho, numbersOf_append, e4, List.append_nil]
    | TokenRParen =>
      rw [shuntingLoop_rparen t ts output stack hT] at h
      have e1 : withoutParens (t :: ts) = withoutParens ts := by
        rw [withoutParens_cons]
        simp [Token.isParen, hT]
      have e2 : numbersOf (t :: ts) = numbersOf ts := by
        rw [numbersOf_cons]
        simp [Token.isNumber, hT]
      have hsplit := popToLParen_split output stack
      rcases hpop : popToLParen output stack with ⟨output1, stack1, found⟩
      rw [hpop] at h hsplit
      cases found with
      | false =>
        cases stack1 <;> cases h
      | true =>
        obtain ⟨popped, paren, hs, ho, hparen, hall⟩ := hsplit rfl
        simp only at hs ho
        have hpopped : ∀ u ∈ popped, u.Typ ≠ TokenNumber ∧ u.Typ ≠ TokenRParen :=
          fun u hu => hstack u (by rw [hs]; exact List.mem_append_left _ hu)
        have hst1 : ∀ u ∈ stack1, u.Typ ≠ TokenNumber ∧ u.Typ ≠ TokenRParen :=
          fun u hu => hstack u (by
            rw [hs]
            exact List.mem_append_right _ (List.mem_cons_of_mem _ hu))
        have e3 : withoutParens stack = popped ++ withoutParens stack1 := by
          rw [hs, withoutParens_append, withoutParens_cons,
            withoutParens_self popped (fun u hu => by
              simp [Token.isParen, hall u hu, (hpopped u hu).2])]
          simp [Token.isParen, hparen]
        have e4 : numbersOf popped = [] :=
          numbersOf_nil_of popped (fun u hu => by simp [Token.isNumber, (hpopped u hu).1])
        cases stack1 with
        | nil =>
          obtain ⟨hc, hn⟩ := ih output1 [] (by simp) h
          refine ⟨fun a => ?_, ?_⟩
          · rw [hc a, e1, e3, ho, List.count_append, List.count_append]
            omega
          · rw [hn, e2, ho, numbersOf_append, e4, List.append_nil]
        | cons top stack2 =>
          by_cases hfun : top.Typ = TokenFunction
          · simp only [hfun, if_true] at h
            have hst2 : ∀ u ∈ stack2, u.Typ ≠ TokenNumber ∧ u.Typ ≠ TokenRParen :=
              fun u hu => hst1 u (List.mem_cons_of_mem _ hu)
            obtain ⟨hc, hn⟩ := ih (output1 ++ [top]) stack2 hst2 h
            have e5 : withoutParens (top :: stack2) = top :: withoutParens stack2 := by
              rw [withoutParens_cons]
              simp [Token.isParen, hfun]
            refine ⟨fun a => ?_, ?_⟩
            · rw [hc a, e1, e3, e5, ho, List.count_append, List.count_append,
                List.count_append, List.count_cons, List.count_cons, List.count_nil]
              omega
            · rw [hn, e2, ho, numbersOf_append, numbersOf_append, e4, List.append_nil]
              simp [numbersOf, Token.isNumber, hfun]
          · simp only [hfun, if_false] at h
            obtain ⟨hc, hn⟩ := ih output1 (top :: stack2) hst1 h
            refine ⟨fun a => ?_, ?_⟩
            · rw [hc a, e1, e3, ho, List.count_append, List.count_append]
              omega
            · rw [hn, e2, ho, numbersOf_append, e4, List.append_nil]

/-- C19: when `ShuntingYard` succeeds on `ts` with output `p`, `p` holds no parenthesis, `p`
is a permutation of the tokens of `ts` that are not parentheses, and the number tokens
occur in `p` in the same order as in `ts`. -/
theorem shuntingYard_permutation (ts p : List Token) (h : ShuntingYard ts = .ok p) :
    (∀ t ∈ p, t.Typ ≠ TokenLParen ∧ t.Typ ≠ TokenRParen) ∧
    p.Perm (withoutParens ts) ∧
    numbersOf p = numbersOf ts := by
  obtain ⟨hc, hn⟩ := shuntingLoop_tokens ts [] [] p (by simp) h
  have hperm : p.Perm (withoutParens ts) := by
    rw [List.perm_iff_count]
    intro a
    rw [hc a]
    simp [withoutParens]
  refine ⟨?_, hperm, by simpa [numbersOf] using hn⟩
  intro t ht
  have hmem : t ∈ withoutParens ts := hperm.subset ht
  unfold withoutParens at hmem
  have hnp := (List.mem_filter.mp hmem).2
  simp only [Token.isParen, Bool.not_eq_true', Bool.or_eq_false_iff, beq_eq_false_iff_ne,
    ne_eq] at hnp
  exact hnp

/-- C19 at the tokens of `2 * (3 + 4) - 5`: the output `2 3 4 + * 5 -` has no
parenthesis, the same other tokens and the numbers in the same order. -/
theorem shuntingYard_permutation_witness :
    ShuntingYard [⟨TokenNumber, "2"⟩, ⟨TokenOperator, "*"⟩, ⟨TokenLParen, "("⟩,
        ⟨TokenNumber, "3"⟩, ⟨TokenOperator, "+"⟩, ⟨TokenNumber, "4"⟩, ⟨TokenRParen, ")"⟩,
        ⟨TokenOperator, "-"⟩, ⟨TokenNumber, "5"⟩] =
      .ok [⟨TokenNumber, "2"⟩, ⟨TokenNumber, "3"⟩, ⟨TokenNumber, "4"⟩, ⟨TokenOperator, "+"⟩,
        ⟨TokenOperator, "*"⟩, ⟨TokenNumber, "5"⟩, ⟨TokenOperator, "-"⟩] ∧
    List.Perm [⟨TokenNumber, "2"⟩, ⟨TokenNumber, "3"⟩, ⟨TokenNumber, "4"⟩, ⟨TokenOperator, "+"⟩,
        ⟨TokenOperator, "*"⟩, ⟨TokenNumber, "5"⟩, ⟨TokenOperator, "-"⟩]
      (withoutParens [⟨TokenNumber, "2"⟩, ⟨TokenOperator, "*"⟩, ⟨TokenLParen, "("⟩,
        ⟨TokenNumber, "3"⟩, ⟨TokenOperator, "+"⟩, ⟨TokenNumber, "4"⟩, ⟨TokenRParen, ")"⟩,
        ⟨TokenOperator, "-"⟩, ⟨TokenNumber, "5"⟩]) := by
  have h : ShuntingYard [⟨TokenNumber, "2"⟩, ⟨TokenOperator, "*"⟩, ⟨TokenLParen, "("⟩,
      ⟨TokenNumber, "3"⟩, ⟨TokenOperator, "+"⟩, ⟨TokenNumber, "4"⟩, ⟨TokenRParen, ")"⟩,
      ⟨TokenOperator, "-"⟩, ⟨TokenNumber, "5"⟩] =
      .ok [⟨TokenNumber, "2"⟩, ⟨TokenNumber, "3"⟩, ⟨TokenNumber, "4"⟩, ⟨TokenOperator, "+"⟩,
        ⟨TokenOperator, "*"⟩, ⟨TokenNumber, "5"⟩, ⟨TokenOperator, "-"⟩] := rfl
  exact ⟨h, (shuntingYard_permutation _ _ h).2.1⟩

/-! ## Unfolding `EvaluateRPN` by token kind -/

theorem evaluateLoop_nil (U : UnicodeTables) (M : Float64) (stack : List M.F) :
    evaluateLoop U M [] stack =
      match stack with
      | [result] => .ok result
      | _ => .error .invalidExpression := by
  cases stack with
  | nil => rfl
  | cons a s => cases s <;> rfl

theorem evaluateLoop_cons (U : UnicodeTables) (M : Float64) (token : Token)
    (tokens : List Token) (stack : List M.F) :
    evaluateLoop U M (token :: tokens) stack =
      match token.Typ with
      | TokenNumber =>
        match M.ParseFloat token.Value with
        | none => .error (.numberParse token.Value)
        | some val => evaluateLoop U M tokens (val :: stack)
      | TokenOperator =>
        match stack with
        | b :: a :: stack1 =>
          match applyOperator M token.Value a b with
          | .error e => .error e
          | .ok res => evaluateLoop U M tokens (res :: stack1)
        | _ => .error (.insufficientOperands token)
      | TokenFunction =>
        match stack with
        | arg :: stack1 =>
          match applyFunction U M token.Value arg with
          | .error e => .error e
          | .ok res => evaluateLoop U M tokens (res :: stack1)
        | [] => .error (.insufficientOperands token)
      | TokenLParen => evaluateLoop U M tokens stack
      | TokenRParen => evaluateLoop U M tokens stack := rfl

theorem evaluateLoop_number (U : UnicodeTables) (M : Float64) (t : Token) (ts : List Token)
    (stack : List M.F) (h : t.Typ = TokenNumber) :
    evaluateLoop U M (t :: ts) stack =
      match M.ParseFloat t.Value with
      | none => .error (.numberParse t.Value)
      | some val => evaluateLoop U M ts (val :: stack) := by
  rw [evaluateLoop_cons]
  simp only [h]

theorem evaluateLoop_operator (U : UnicodeTables) (M : Float64) (t : Token) (ts : List Token)
    (stack : List M.F) (h : t.Typ = TokenOperator) :
    evaluateLoop U M (t :: ts) stack =
      match stack with
      | b :: a :: stack1 =>
        match applyOperator M t.Value a b with
        | .error e => .error e
        | .ok res => evaluateLoop U M ts (res :: stack1)
      | _ => .error (.insufficientOperands t) := by
  rw [evaluateLoop_cons]
  simp only [h]

theorem evaluateLoop_function (U : UnicodeTables) (M : Float64) (t : Token) (ts : List Token)
    (stack : List M.F) (h : t.Typ = TokenFunction) :
    evaluateLoop U M (t :: ts) stack =
      match stack with
      | arg :: stack1 =>
        match applyFunction U M t.Value arg with
        | .error e => .error e
        | .ok res => evaluateLoop U M ts (res :: stack1)
      | [] => .error (.insufficientOperands t) := by
  rw [evaluateLoop_cons]
  simp only [h]

theorem evaluateLoop_paren (U : UnicodeTables) (M : Float64) (t : Token) (ts : List Token)
    (stack : List M.F) (h : t.Typ = TokenLParen ∨ t.Typ = TokenRParen) :
    evaluateLoop U M (t :: ts) stack = evaluateLoop U M ts stack := by
  rw [evaluateLoop_cons]
  rcases h with h | h <;> simp only [h]

/-! ## The tokens emitted by `Tokenize` -/

theorem take_numericRun (U : UnicodeTables) (rest : List Char) :
    rest.take (numericRun U rest).length = numericRun U rest := by
  have h := (numericRun_append_drop U rest).1
  have h2 : List.take (numericRun U rest).length
      (numericRun U rest ++ rest.drop (numericRun U rest).length) = numericRun U rest :=
    List.take_left' rfl
  rw [h] at h2
  exact h2

theorem take_scanLetters (U : UnicodeTables) (rest : List Char) :
    rest.take (scanLetters U rest).length = scanLetters U rest := by
  have h := (scanLetters_append_drop U rest).1
  have h2 : List.take (scanLetters U rest).length
      (scanLetters U rest ++ rest.drop (scanLetters U rest).length) = scanLetters U rest :=
    List.take_left' rfl
  rw [h] at h2
  exact h2

/-- A successful iteration of `Tokenize` at the rune `c` appends one token; its text is made
of `c` and the runes the iteration steps over, which are digits, decimal points or letters;
and a number token has a text of the shape `NumberText`. -/
theorem tokenizeStep_ok (U : UnicodeTables) (tokens : List Token) (c : Char)
    (rest : List Char) (tokens1 : List Token) (advance : Nat)
    (h : tokenizeStep U tokens c rest = .ok (tokens1, advance)) :
    ∃ t, tokens1 = tokens ++ [t] ∧ t.Value = String.mk (c :: rest.take advance) ∧
      advance ≤ rest.length ∧
      (∀ r ∈ rest.take advance, numericRune U r = true ∨ IsLetter U r = true) ∧
      (t.Typ = TokenNumber → NumberText U t.Value) := by
  unfold tokenizeStep at h
  by_cases hnum : (IsDigit U c || c == '.') = true
  · rw [if_pos hnum, scanNumber_eq] at h
    by_cases hle : (numericRun U rest).count '.' + (c == '.').toNat ≤ 1
    · rw [if_pos hle] at h
      simp only [Except.ok.injEq, Prod.mk.injEq] at h
      obtain ⟨h1, h2⟩ := h
      subst h1 h2
      have hall := (numericRun_append_drop U rest).2.1
      refine ⟨_, rfl, by rw [take_numericRun], ?_, ?_, ?_⟩
      · have := congrArg List.length (numericRun_append_drop U rest).1
        simp only [List.length_append, List.length_drop] at this
        omega
      · rw [take_numericRun]
        exact fun r hr => Or.inl (hall r hr)
      · intro _
        refine ⟨c :: numericRun U rest, Or.inl rfl, by simp, ?_, ?_⟩
        · intro r hr
          rcases List.mem_cons.mp hr with rfl | hr
          · exact hnum
          · exact hall r hr
        · rw [List.count_cons]
          cases hd : (c == '.')
          · simp only [hd, Bool.false_eq_true, if_false, Bool.toNat_false] at hle ⊢
            omega
          · simp only [hd, if_true, Bool.toNat_true] at hle ⊢
            omega
    · rw [if_neg hle] at h
      cases h
  · rw [if_neg hnum] at h
    by_cases hl : (c == '(') = true
    · rw [if_pos hl] at h
      have hc : c = '(' := by simpa using hl
      simp only [Except.ok.injEq, Prod.mk.injEq] at h
      obtain ⟨h1, h2⟩ := h
      subst h1 h2 hc
      exact ⟨_, rfl, rfl, Nat.zero_le _, by simp, by simp⟩
    rw [if_neg hl] at h
    by_cases hr : (c == ')') = true
    · rw [if_pos hr] at h
      have hc : c = ')' := by simpa using hr
      simp only [Except.ok.injEq, Prod.mk.injEq] at h
      obtain ⟨h1, h2⟩ := h
      subst h1 h2 hc
      exact ⟨_, rfl, rfl, Nat.zero_le _, by simp, by simp⟩
    rw [if_neg hr] at h
    by_cases hop : isOperator (String.mk [c]) = true
    · rw [if_pos hop] at h
      have hplain : ∀ tokens1 advance,
          (Except.ok (tokens ++ [⟨TokenOperator, String.mk [c]⟩], 0) :
            Except CalcError (List Token × Nat)) = .ok (tokens1, advance) →
          ∃ t, tokens1 = tokens ++ [t] ∧ t.Value = String.mk (c :: rest.take advance) ∧
            advance ≤ rest.length ∧
            (∀ r ∈ rest.take advance, numericRune U r = true ∨ IsLetter U r = true) ∧
            (t.Typ = TokenNumber → NumberText U t.Value) := by
        intro tokens1 advance h
        simp only [Except.ok.injEq, Prod.mk.injEq] at h
        obtain ⟨h1, h2⟩ := h
        subst h1 h2
        exact ⟨_, rfl, rfl, Nat.zero_le _, by simp, by simp⟩
      by_cases hsign : (c == '-' && signPosition tokens) = true
      · rw [if_pos hsign] at h
        have hc : c = '-' := by
          have := (Bool.and_eq_true _ _ ▸ hsign).1
          simpa using this
        cases rest with
        | nil => exact hplain _ _ h
        | cons next rest2 =>
          by_cases hnext : (IsDigit U next || next == '.') = true
          · simp only [hnext, if_true] at h
            rw [scanNumber_eq] at h
            by_cases hle : (numericRun U rest2).count '.' + (next == '.').toNat ≤ 1
            · rw [if_pos hle] at h
              simp only [Except.ok.injEq, Prod.mk.injEq] at h
              obtain ⟨h1, h2⟩ := h
              subst h1 h2 hc
              have hall := (numericRun_append_drop U rest2).2.1
              have htake : (next :: rest2).take (1 + (numericRun U rest2).length) =
                  next :: numericRun U rest2 := by
                rw [Nat.add_comm, List.take_succ_cons, take_numericRun]
              refine ⟨_, rfl, by rw [htake], ?_, ?_, ?_⟩
              · have := congrArg List.length (numericRun_append_drop U rest2).1
                simp only [List.length_append, List.length_drop] at this
                simp only [List.length_cons]
                omega
              · rw [htake]
                intro r hr
                rcases List.mem_cons.mp hr with rfl | hr
                · exact Or.inl hnext
                · exact Or.inl (hall r hr)
              · intro _
                refine ⟨next :: numericRun U rest2, Or.inr rfl, by simp, ?_, ?_⟩
                · intro r hr
                  rcases List.mem_cons.mp hr with rfl | hr
                  · exact hnext
                  · exact hall r hr
                · rw [List.count_cons]
                  cases hd : (next == '.')
                  · simp only [hd, Bool.false_eq_true, if_false, Bool.toNat_false] at hle ⊢
                    omega
                  · simp only [hd, if_true, Bool.toNat_true] at hle ⊢
                    omega
            · rw [if_neg hle] at h
              cases h
          · simp only [hnext] at h
            exact hplain _ _ h
      · rw [if_neg hsign] at h
        exact hplain _ _ h
    rw [if_neg hop] at h
    by_cases hlet : IsLetter U c = true
    · rw [if_pos hlet] at h
      simp only [Except.ok.injEq, Prod.mk.injEq] at h
      obtain ⟨h1, h2⟩ := h
      subst h1 h2
      have hs := scanLetters_append_drop U rest
      refine ⟨_, rfl, by rw [take_scanLetters], ?_, ?_, by simp⟩
      · have := congrArg List.length hs.1
        simp only [List.length_append, List.length_drop] at this
        omega
      · rw [take_scanLetters]
        exact fun r hr => Or.inr (hs.2 r hr)
    · rw [if_neg hlet] at h
      cases h

/-- Every number token in the result of the main loop of `Tokenize` has a text of the shape
`NumberText`, if those it started with have. -/
theorem tokenizeLoop_numberText (U : UnicodeTables) (n : Nat) :
    ∀ (runes : List Char) (tokens res : List Token), runes.length ≤ n →
      (∀ t ∈ tokens, t.Typ = TokenNumber → NumberText U t.Value) →
      tokenizeLoop U tokens runes = .ok res →
      ∀ t ∈ res, t.Typ = TokenNumber → NumberText U t.Value := by
  induction n with
  | zero =>
    intro runes tokens res hlen htok h
    have : runes = [] := List.length_eq_zero.mp (Nat.le_zero.mp hlen)
    subst this
    rw [tokenizeLoop] at h
    cases h
    exact htok
  | succ n ih =>
    intro runes tokens res hlen htok h
    cases runes with
    | nil =>
      rw [tokenizeLoop] at h
      cases h
      exact htok
    | cons c rest =>
      have hlen2 : rest.length ≤ n := by simpa using hlen
      rw [tokenizeLoop] at h
      by_cases hsp : IsSpace U c = true
      · rw [if_pos hsp] at h
        exact ih rest tokens res hlen2 htok h
      · rw [if_neg hsp] at h
        cases hr : tokenizeStep U tokens c rest with
        | error e =>
          rw [hr] at h
          cases h
        | ok step =>
          obtain ⟨tokens1, advance⟩ := step
          rw [hr] at h
          obtain ⟨t1, ht1, -, -, -, hshape⟩ := tokenizeStep_ok U tokens c rest tokens1 advance hr
          refine ih _ tokens1 res (by rw [List.length_drop]; omega) ?_ h
          intro t ht
          rw [ht1] at ht
          rcases List.mem_append.mp ht with ht | ht
          · exact htok t ht
          · rw [List.mem_singleton.mp ht]
            exact hshape

/-- A number-parse error of the evaluator names the text of a number token of its input
that the number parser rejects. -/
theorem evaluateLoop_numberParse (U : UnicodeTables) (M : Float64) (tokens : List Token)
    (stack : List M.F) (text : String)
    (h : evaluateLoop U M tokens stack = .error (.numberParse text)) :
    (⟨TokenNumber, text⟩ : Token) ∈ tokens ∧ M.ParseFloat text = none := by
  induction tokens generalizing stack with
  | nil =>
    rw [evaluateLoop_nil] at h
    split at h <;> cases h
  | cons t ts ih =>
    cases hT : t.Typ with
    | TokenNumber =>
      rw [evaluateLoop_number U M t ts stack hT] at h
      cases hp : M.ParseFloat t.Value with
      | none =>
        rw [hp] at h
        injection h with h
        injection h with h
        have ht : t = ⟨TokenNumber, text⟩ := by
          cases t
          simp only [Token.mk.injEq] at hT h ⊢
          exact ⟨hT, h⟩
        rw [← h]
        refine ⟨?_, hp⟩
        rw [h, ← ht]
        exact List.mem_cons_self _ _
      | some val =>
        rw [hp] at h
        exact ⟨List.mem_cons_of_mem _ (ih _ h).1, (ih _ h).2⟩
    | TokenOperator =>
      rw [evaluateLoop_operator U M t ts stack hT] at h
      split at h
      · rename_i b a stack1
        cases ha : applyOperator M t.Value a b with
        | error e =>
          rw [ha] at h
          unfold applyOperator at ha
          split_ifs at ha <;> cases ha <;> cases h
        | ok res =>
          rw [ha] at h
          exact ⟨List.mem_cons_of_mem _ (ih _ h).1, (ih _ h).2⟩
      · cases h
    | TokenFunction =>
      rw [evaluateLoop_function U M t ts stack hT] at h
      split at h
      · rename_i arg stack1
        cases ha : applyFunction U M t.Value arg with
        | error e =>
          rw [ha] at h
          unfold applyFunction at ha
          split_ifs at ha <;> cases ha <;> cases h
        | ok res =>
          rw [ha] at h
          exact ⟨List.mem_cons_of_mem _ (ih _ h).1, (ih _ h).2⟩
      · cases h
    | TokenLParen =>
      rw [evaluateLoop_paren U M t ts stack (Or.inl hT)] at h
      exact ⟨List.mem_cons_of_mem _ (ih _ h).1, (ih _ h).2⟩
    | TokenRParen =>
      rw [evaluateLoop_paren U M t ts stack (Or.inr hT)] at h
      exact ⟨List.mem_cons_of_mem _ (ih _ h).1, (ih _ h).2⟩

/-- Every token of the output of `ShuntingYard` is a token of its input. -/
theorem shuntingYard_subset (ts p : List Token) (h : ShuntingYard ts = .ok p) :
    ∀ t ∈ p, t ∈ ts := by
  intro t ht
  have hc := (shuntingLoop_tokens ts [] [] p (by simp) h).1 t
  have hpos : 0 < p.count t := List.count_pos_iff.mpr ht
  have hmem : t ∈ withoutParens ts := by
    apply List.count_pos_iff.mp
    simp only [withoutParens, List.filter_nil, List.count_nil, Nat.add_zero,
      Nat.zero_add] at hc
    unfold withoutParens
    omega
  exact (List.mem_filter.mp hmem).1

/-- C14 (amended): when `Tokenize` succeeds, the text of every number token is an optional
`-` followed by a non-empty run of digits and decimal points with at most one decimal
point; and on the postfix sequence of these tokens `EvaluateRPN` returns a number-parse
error only for the text of such a token that the number parser rejects, hence never when
the parser accepts the text of every number token. -/
theorem tokenize_number_texts (U : UnicodeTables) (M : Float64) (expr : String)
    (tokens : List Token) (hT : Tokenize U expr = .ok tokens) :
    (∀ t ∈ tokens, t.Typ = TokenNumber → NumberText U t.Value) ∧
    (∀ rpn text, ShuntingYard tokens = .ok rpn →
      EvaluateRPN U M rpn = .error (.numberParse text) →
      (⟨TokenNumber, text⟩ : Token) ∈ tokens ∧ NumberText U text ∧
        M.ParseFloat text = none) ∧
    (∀ rpn, ShuntingYard tokens = .ok rpn →
      (∀ t ∈ tokens, t.Typ = TokenNumber → M.ParseFloat t.Value ≠ none) →
      ∀ text, EvaluateRPN U M rpn ≠ .error (.numberParse text)) := by
  have hshape : ∀ t ∈ tokens, t.Typ = TokenNumber → NumberText U t.Value :=
    tokenizeLoop_numberText U expr.toList.length expr.toList [] tokens (Nat.le_refl _)
      (by simp) hT
  have hparse : ∀ rpn text, ShuntingYard tokens = .ok rpn →
      EvaluateRPN U M rpn = .error (.numberParse text) →
      (⟨TokenNumber, text⟩ : Token) ∈ tokens ∧ NumberText U text ∧
        M.ParseFloat text = none := by
    intro rpn text hS hE
    obtain ⟨hmem, hnone⟩ := evaluateLoop_numberParse U M rpn [] text hE
    have hin := shuntingYard_subset tokens rpn hS _ hmem
    exact ⟨hin, hshape _ hin rfl, hnone⟩
  refine ⟨hshape, hparse, ?_⟩
  intro rpn hS hall text hE
  obtain ⟨hin, -, hnone⟩ := hparse rpn text hS hE
  exact hall _ hin rfl hnone

/-- C14 at `2.5 + 3`: the two number tokens have texts of the stated shape. -/
theorem tokenize_number_texts_witness :
    Tokenize latin1Tables "2.5 + 3" =
      .ok [⟨TokenNumber, "2.5"⟩, ⟨TokenOperator, "+"⟩, ⟨TokenNumber, "3"⟩] ∧
    NumberText latin1Tables "2.5" ∧ NumberText latin1Tables "3" := by
  have hT : Tokenize latin1Tables "2.5 + 3" =
      .ok [⟨TokenNumber, "2.5"⟩, ⟨TokenOperator, "+"⟩, ⟨TokenNumber, "3"⟩] := by
    simp [Tokenize, tokenizeLoop, tokenizeStep, scanNumber, IsSpace, IsDigit, IsLetter,
      isOperator, signPosition]
  have h := (tokenize_number_texts latin1Tables exactArith "2.5 + 3" _ hT).1
  exact ⟨hT, h ⟨TokenNumber, "2.5"⟩ (by simp) rfl, h ⟨TokenNumber, "3"⟩ (by simp) rfl⟩

/-- C14 as stated fails at the inputs `.` and `-.`: `Tokenize` succeeds with one number
token whose text holds no digit, the number parser rejects that text, and `Calculate`
returns the number-parse error of `EvaluateRPN`. -/
theorem tokenize_number_texts_counterexample :
    Tokenize latin1Tables "." = .ok [⟨TokenNumber, "."⟩] ∧
    exactArith.ParseFloat "." = none ∧
    EvaluateRPN latin1Tables exactArith [⟨TokenNumber, "."⟩] = .error (.numberParse ".") ∧
    Calculate latin1Tables exactArith "." = .error (.numberParse ".") ∧
    Tokenize latin1Tables "-." = .ok [⟨TokenNumber, "-."⟩] ∧
    Calculate latin1Tables exactArith "-." = .error (.numberParse "-.") := by
  refine ⟨?_, ?_, ?_, ?_, ?_, ?_⟩
  · simp [Tokenize, tokenizeLoop, tokenizeStep, scanNumber, IsSpace, IsDigit, IsLetter,
      isOperator, signPosition]
  · simp [exactArith, exactParse, decimalValue, digitsValue]
  · simp [EvaluateRPN, evaluateLoop, exactArith, exactParse, decimalValue, digitsValue]
  · simp [Calculate, Tokenize, tokenizeLoop, tokenizeStep, scanNumber, IsSpace, IsDigit,
      IsLetter, isOperator, signPosition, ValidateExpression, checkPairs, illegalNext,
      ShuntingYard, shuntingLoop, popOperators, popToLParen, drainStack, precedence,
      EvaluateRPN, evaluateLoop, exactArith, exactParse, decimalValue, digitsValue]
  · simp [Tokenize, tokenizeLoop, tokenizeStep, scanNumber, IsSpace, IsDigit, IsLetter,
      isOperator, signPosition]
  · simp [Calculate, Tokenize, tokenizeLoop, tokenizeStep, scanNumber, IsSpace, IsDigit,
      IsLetter, isOperator, signPosition, ValidateExpression, checkPairs, illegalNext,
      ShuntingYard, shuntingLoop, popOperators, popToLParen, drainStack, precedence,
      EvaluateRPN, evaluateLoop, exactArith, exactParse, decimalValue, digitsValue]

/-! ## The operand stack of `EvaluateRPN` -/

theorem evaluateStack_cons (U : UnicodeTables) (M : Float64) (token : Token)
    (tokens : List Token) (stack : List M.F) :
    evaluateStack U M (token :: tokens) stack =
      match token.Typ with
      | TokenNumber =>
        match M.ParseFloat token.Value with
        | none => .error (.numberParse token.Value)
        | some val => evaluateStack U M tokens (val :: stack)
      | TokenOperator =>
        match stack with
        | b :: a :: stack1 =>
          match applyOperator M token.Value a b with
          | .error e => .error e
          | .ok res => evaluateStack U M tokens (res :: stack1)
        | _ => .error (.insufficientOperands token)
      | TokenFunction =>
        match stack with
        | arg :: stack1 =>
          match applyFunction U M token.Value arg with
          | .error e => .error e
          | .ok res => evaluateStack U M tokens (res :: stack1)
        | [] => .error (.insufficientOperands token)
      | TokenLParen => evaluateStack U M tokens stack
      | TokenRParen => evaluateStack U M tokens stack := rfl

/-- `EvaluateRPN` is its loop followed by the check that one value is left. -/
theorem evaluateLoop_eq_stack (U : UnicodeTables) (M : Float64) (tokens : List Token)
    (stack : List M.F) :
    evaluateLoop U M tokens stack =
      match evaluateStack U M tokens stack with
      | .error e => .error e
      | .ok [result] => .ok result
      | .ok _ => .error .invalidExpression := by
  induction tokens generalizing stack with
  | nil =>
    rw [evaluateLoop_nil]
    cases stack with
    | nil => rfl
    | cons a s => cases s <;> rfl
  | cons t ts ih =>
    rw [evaluateLoop_cons, evaluateStack_cons]
    cases hT : t.Typ with
    | TokenNumber =>
      simp only []
      cases M.ParseFloat t.Value with
      | none => rfl
      | some val => exact ih _
    | TokenOperator =>
      simp only []
      match stack with
      | [] => rfl
      | [_] => rfl
      | b :: a :: stack1 =>
        simp only []
        cases applyOperator M t.Value a b with
        | error e => rfl
        | ok res => exact ih _
    | TokenFunction =>
      simp only []
      match stack with
      | [] => rfl
      | arg :: stack1 =>
        simp only []
        cases applyFunction U M t.Value arg with
        | error e => rfl
        | ok res => exact ih _
    | TokenLParen => exact ih _
    | TokenRParen => exact ih _

/-- Processing `pre ++ rest` is processing `pre` and then `rest` from the stack reached. -/
theorem evaluateStack_append (U : UnicodeTables) (M : Float64) (pre rest : List Token)
    (stack : List M.F) :
    evaluateStack U M (pre ++ rest) stack =
      match evaluateStack U M pre stack with
      | .error e => .error e
      | .ok stack1 => evaluateStack U M rest stack1 := by
  induction pre generalizing stack with
  | nil => rfl
  | cons t ts ih =>
    rw [List.cons_append, evaluateStack_cons, evaluateStack_cons]
    cases hT : t.Typ with
    | TokenNumber =>
      simp only []
      cases M.ParseFloat t.Value with
      | none => rfl
      | some val => exact ih _
    | TokenOperator =>
      simp only []
      match stack with
      | [] => rfl
      | [_] => rfl
      | b :: a :: stack1 =>
        simp only []
        cases applyOperator M t.Value a b with
        | error e => rfl
        | ok res => exact ih _
    | TokenFunction =>
      simp only []
      match stack with
      | [] => rfl
      | arg :: stack1 =>
        simp only []
        cases applyFunction U M t.Value arg with
        | error e => rfl
        | ok res => exact ih _
    | TokenLParen => exact ih _
    | TokenRParen => exact ih _

theorem countNumbers_cons (t : Token) (ts : List Token) :
    countNumbers (t :: ts) = countNumbers ts + if t.Typ = TokenNumber then 1 else 0 := by
  simp [countNumbers, List.countP_cons]

theorem countOperators_cons (t : Token) (ts : List Token) :
    countOperators (t :: ts) = countOperators ts + if t.Typ = TokenOperator then 1 else 0 := by
  simp [countOperators, List.countP_cons]

/-- After tokens processed without error, the stack has grown by the number of number
tokens and shrunk by the number of operator tokens. -/
theorem evaluateStack_length (U : UnicodeTables) (M : Float64) (tokens : List Token)
    (stack stack1 : List M.F) (h : evaluateStack U M tokens stack = .ok stack1) :
    stack1.length + countOperators tokens = stack.length + countNumbers tokens := by
  induction tokens generalizing stack with
  | nil =>
    simp only [evaluateStack, Except.ok.injEq] at h
    subst h
    rfl
  | cons t ts ih =>
    rw [evaluateStack_cons] at h
    rw [countNumbers_cons, countOperators_cons]
    cases hT : t.Typ with
    | TokenNumber =>
      simp only [hT] at h
      cases hp : M.ParseFloat t.Value with
      | none =>
        rw [hp] at h
        cases h
      | some val =>
        rw [hp] at h
        have := ih _ h
        simp only [List.length_cons, reduceCtorEq, if_false, if_true] at this ⊢
        omega
    | TokenOperator =>
      simp only [hT] at h
      match stack, h with
      | [], h => cases h
      | [_], h => cases h
      | b :: a :: stack2, h =>
        simp only [] at h
        cases ha : applyOperator M t.Value a b with
        | error e =>
          rw [ha] at h
          cases h
        | ok res =>
          rw [ha] at h
          have := ih _ h
          simp only [List.length_cons, reduceCtorEq, if_false, if_true] at this ⊢
          omega
    | TokenFunction =>
      simp only [hT] at h
      match stack, h with
      | [], h => cases h
      | arg :: stack2, h =>
        simp only [] at h
        cases ha : applyFunction U M t.Value arg with
        | error e =>
          rw [ha] at h
          cases h
        | ok res =>
          rw [ha] at h
          have := ih _ h
          simp only [List.length_cons, reduceCtorEq, if_false] at this ⊢
          omega
    | TokenLParen =>
      simp only [hT] at h
      have := ih _ h
      simp only [reduceCtorEq, if_false] at this ⊢
      omega
    | TokenRParen =>
      simp only [hT] at h
      have := ih _ h
      simp only [reduceCtorEq, if_false] at this ⊢
      omega

/-- A sequence of number tokens whose texts all parse leaves one value per token. -/
theorem evaluateStack_numbers (U : UnicodeTables) (M : Float64) (tokens : List Token)
    (stack : List M.F)
    (h : ∀ t ∈ tokens, t.Typ = TokenNumber ∧ M.ParseFloat t.Value ≠ none) :
    ∃ stack1, evaluateStack U M tokens stack = .ok stack1 ∧
      stack1.length = stack.length + tokens.length := by
  induction tokens generalizing stack with
  | nil => exact ⟨stack, rfl, rfl⟩
  | cons t ts ih =>
    obtain ⟨hT, hp⟩ := h t (List.mem_cons_self _ _)
    rw [evaluateStack_cons]
    simp only [hT]
    cases hv : M.ParseFloat t.Value with
    | none => exact absurd hv hp
    | some val =>
      obtain ⟨stack1, h1, h2⟩ := ih (val :: stack) (fun u hu => h u (List.mem_cons_of_mem _ hu))
      refine ⟨stack1, h1, ?_⟩
      simp only [List.length_cons] at h2 ⊢
      omega

/-- C18: for a postfix sequence `p`, after every prefix processed without error the operand
stack holds as many values as the prefix has number tokens minus operator tokens, and the
rest of `p` is processed from that stack; when `EvaluateRPN` succeeds, `p` has exactly one
more number token than operator tokens and the value returned is the single entry left on
the stack; and when all of `p` is processed and the stack does not hold exactly one value,
`EvaluateRPN` fails with the invalid-expression error, as it does on the empty sequence and
on two or more number tokens with no operator. -/
theorem evaluateRPN_one_value (U : UnicodeTables) (M : Float64) (p : List Token) :
    (∀ pre rest stack, p = pre ++ rest → evaluateStack U M pre [] = .ok stack →
      stack.length + countOperators pre = countNumbers pre ∧
        EvaluateRPN U M p = evaluateLoop U M rest stack) ∧
    (∀ v, EvaluateRPN U M p = .ok v →
      countNumbers p = countOperators p + 1 ∧ evaluateStack U M p [] = .ok [v]) ∧
    (∀ stack, evaluateStack U M p [] = .ok stack → stack.length ≠ 1 →
      EvaluateRPN U M p = .error .invalidExpression) ∧
    EvaluateRPN U M [] = .error .invalidExpression ∧
    ((∀ t ∈ p, t.Typ = TokenNumber ∧ M.ParseFloat t.Value ≠ none) → 2 ≤ p.length →
      EvaluateRPN U M p = .error .invalidExpression) := by
  have hfinal : ∀ stack, evaluateStack U M p [] = .ok stack → stack.length ≠ 1 →
      EvaluateRPN U M p = .error .invalidExpression := by
    intro stack hs hlen
    rw [EvaluateRPN, evaluateLoop_eq_stack, hs]
    match stack, hlen with
    | [], _ => rfl
    | [_], hlen => exact absurd rfl hlen
    | _ :: _ :: _, _ => rfl
  refine ⟨?_, ?_, hfinal, rfl, ?_⟩
  · intro pre rest stack hp hs
    refine ⟨?_, ?_⟩
    · have := evaluateStack_length U M pre [] stack hs
      simpa using this
    · rw [EvaluateRPN, hp, evaluateLoop_eq_stack, evaluateLoop_eq_stack, evaluateStack_append,
        hs]
  · intro v hv
    rw [EvaluateRPN, evaluateLoop_eq_stack] at hv
    cases hs : evaluateStack U M p [] with
    | error e =>
      rw [hs] at hv
      cases hv
    | ok stack =>
      rw [hs] at hv
      match stack, hs, hv with
      | [], _, hv => cases hv
      | [r], hs, hv =>
        simp only [Except.ok.injEq] at hv
        subst hv
        have := evaluateStack_length U M p [] [r] hs
        simp only [List.length_singleton, List.length_nil] at this
        exact ⟨by omega, rfl⟩
      | _ :: _ :: _, _, hv => cases hv
  · intro hall hlen
    obtain ⟨stack1, h1, h2⟩ := evaluateStack_numbers U M p [] hall
    exact hfinal stack1 h1 (by simp only [List.length_nil] at h2; omega)

/-- C18 with the exact arithmetic: `2 5 +` goes through the stack of `2 5`; `2 5` leaves two
values and fails with the invalid-expression error, and so does the empty sequence. -/
theorem evaluateRPN_one_value_witness :
    evaluateStack latin1Tables exactArith [⟨TokenNumber, "2"⟩, ⟨TokenNumber, "5"⟩] [] =
      .ok [some 5, some 2] ∧
    EvaluateRPN latin1Tables exactArith
        [⟨TokenNumber, "2"⟩, ⟨TokenNumber, "5"⟩, ⟨TokenOperator, "+"⟩] =
      evaluateLoop latin1Tables exactArith [⟨TokenOperator, "+"⟩] [some 5, some 2] ∧
    EvaluateRPN latin1Tables exactArith [⟨TokenNumber, "2"⟩, ⟨TokenNumber, "5"⟩] =
      .error .invalidExpression ∧
    EvaluateRPN latin1Tables exactArith [] = .error .invalidExpression := by
  have hs : evaluateStack latin1Tables exactArith [⟨TokenNumber, "2"⟩, ⟨TokenNumber, "5"⟩] [] =
      .ok [some 5, some 2] := by
    simp [evaluateStack, exactArith, exactParse, decimalValue, digitsValue]
  refine ⟨hs, ?_, ?_, ?_⟩
  · exact ((evaluateRPN_one_value latin1Tables exactArith
      [⟨TokenNumber, "2"⟩, ⟨TokenNumber, "5"⟩, ⟨TokenOperator, "+"⟩]).1
      [⟨TokenNumber, "2"⟩, ⟨TokenNumber, "5"⟩] [⟨TokenOperator, "+"⟩] _ rfl hs).2
  · exact (evaluateRPN_one_value latin1Tables exactArith
      [⟨TokenNumber, "2"⟩, ⟨TokenNumber, "5"⟩]).2.2.1 _ hs (by decide)
  · exact (evaluateRPN_one_value latin1Tables exactArith []).2.2.2.1

/-! ## Validated expressions evaluate without structural failure -/

theorem arityDepth_cons (d : Nat) (t : Token) (ts : List Token) :
    arityDepth d (t :: ts) =
      match t.Typ with
      | TokenNumber => arityDepth (d + 1) ts
      | TokenOperator => if 2 ≤ d then arityDepth (d - 1) ts else none
      | TokenFunction => if 1 ≤ d then arityDepth d ts else none
      | TokenLParen => arityDepth d ts
      | TokenRParen => arityDepth d ts := rfl

theorem arityDepth_append (d : Nat) (l₁ l₂ : List Token) :
    arityDepth d (l₁ ++ l₂) = (arityDepth d l₁).bind (fun d1 => arityDepth d1 l₂) := by
  induction l₁ generalizing d with
  | nil => rfl
  | cons t ts ih =>
    rw [List.cons_append, arityDepth_cons, arityDepth_cons]
    cases t.Typ with
    | TokenNumber => exact ih _
    | TokenOperator =>
      simp only []
      by_cases h : 2 ≤ d
      · rw [if_pos h, if_pos h]
        exact ih _
      · rw [if_neg h, if_neg h]
        rfl
    | TokenFunction =>
      simp only []
      by_cases h : 1 ≤ d
      · rw [if_pos h, if_pos h]
        exact ih _
      · rw [if_neg h, if_neg h]
        rfl
    | TokenLParen => exact ih _
    | TokenRParen => exact ih _

/-- Appending an operator to an output of depth at least two lowers the depth by one. -/
theorem arityDepth_push_operator (output : List Token) (t : Token) (d : Nat)
    (ht : t.Typ = TokenOperator) (h : arityDepth 0 output = some (d + 2)) :
    arityDepth 0 (output ++ [t]) = some (d + 1) := by
  rw [arityDepth_append, h]
  simp [arityDepth, ht]

/-- Appending a function to an output of depth at least one keeps the depth. -/
theorem arityDepth_push_function (output : List Token) (t : Token) (d : Nat)
    (ht : t.Typ = TokenFunction) (h : arityDepth 0 output = some (d + 1)) :
    arityDepth 0 (output ++ [t]) = some (d + 1) := by
  rw [arityDepth_append, h]
  simp [arityDepth, ht]

/-- Appending a number raises the depth by one. -/
theorem arityDepth_push_number (output : List Token) (t : Token) (d : Nat)
    (ht : t.Typ = TokenNumber) (h : arityDepth 0 output = some d) :
    arityDepth 0 (output ++ [t]) = some (d + 1) := by
  rw [arityDepth_append, h]
  simp [arityDepth, ht]

/-- The operator loop keeps the output one value ahead of the operators on the stack. -/
theorem arityDepth_popOperators (token : Token) (output stack : List Token)
    (h : arityDepth 0 output = some (countOperators stack + 1)) :
    arityDepth 0 (popOperators token output stack).1 =
      some (countOperators (popOperators token output stack).2 + 1) := by
  induction stack generalizing output with
  | nil => exact h
  | cons top stack ih =>
    unfold popOperators
    by_cases h1 : top.Typ = TokenOperator
    · by_cases h2 : precedence top.Value ≥ precedence token.Value
      · rw [if_pos h1, if_pos h2]
        apply ih
        rw [countOperators_cons, if_pos h1] at h
        exact arityDepth_push_operator output top _ h1 h
      · rw [if_pos h1, if_neg h2]
        exact h
    · rw [if_neg h1]
      exact h

/-- The right-parenthesis loop keeps the output one value ahead of the operators on the
stack, when the stack holds operators, functions and left parentheses only. -/
theorem arityDepth_popToLParen (output stack : List Token)
    (hstack : ∀ t ∈ stack, t.Typ = TokenOperator ∨ t.Typ = TokenFunction ∨ t.Typ = TokenLParen)
    (h : arityDepth 0 output = some (countOperators stack + 1)) :
    arityDepth 0 (popToLParen output stack).1 =
      some (countOperators (popToLParen output stack).2.1 + 1) := by
  induction stack generalizing output with
  | nil => exact h
  | cons top stack ih =>
    have hst : ∀ t ∈ stack,
        t.Typ = TokenOperator ∨ t.Typ = TokenFunction ∨ t.Typ = TokenLParen :=
      fun t ht => hstack t (List.mem_cons_of_mem _ ht)
    unfold popToLParen
    by_cases hl : top.Typ = TokenLParen
    · rw [if_pos hl]
      rw [countOperators_cons, if_neg (by rw [hl]; decide)] at h
      exact h
    · rw [if_neg hl]
      apply ih _ hst
      rcases hstack top (List.mem_cons_self _ _) with ho | hf | hl2
      · rw [countOperators_cons, if_pos ho] at h
        exact arityDepth_push_operator output top _ ho h
      · rw [countOperators_cons, if_neg (by rw [hf]; decide)] at h
        exact arityDepth_push_function output top _ hf h
      · exact absurd hl2 hl

/-- The final loop, when it succeeds from an output one value ahead of the operators on the
stack, returns a sequence of depth one. -/
theorem arityDepth_drainStack (output stack p : List Token)
    (hstack : ∀ t ∈ stack, t.Typ = TokenOperator ∨ t.Typ = TokenFunction ∨ t.Typ = TokenLParen)
    (h : arityDepth 0 output = some (countOperators stack + 1))
    (hp : drainStack output stack = .ok p) : arityDepth 0 p = some 1 := by
  induction stack generalizing output with
  | nil =>
    simp only [drainStack, Except.ok.injEq] at hp
    subst hp
    exact h
  | cons top stack ih =>
    have hst : ∀ t ∈ stack,
        t.Typ = TokenOperator ∨ t.Typ = TokenFunction ∨ t.Typ = TokenLParen :=
      fun t ht => hstack t (List.mem_cons_of_mem _ ht)
    unfold drainStack at hp
    by_cases hl : top.Typ = TokenLParen
    · rw [if_pos hl] at hp
      cases hp
    · rw [if_neg hl] at hp
      apply ih _ hst _ hp
      rcases hstack top (List.mem_cons_self _ _) with ho | hf | hl2
      · rw [countOperators_cons, if_pos ho] at h
        exact arityDepth_push_operator output top _ ho h
      · rw [countOperators_cons, if_neg (by rw [hf]; decide)] at h
        exact arityDepth_push_function output top _ hf h
      · exact absurd hl2 hl

/-- The converter on a sequenced input: from an output whose depth is the number of
operators on the stack, plus one where an operator is expected, the result has depth one. -/
theorem arityDepth_shuntingLoop (ts output stack p : List Token) (operand : Bool)
    (hseq : sequenced operand ts = true)
    (hstack : ∀ t ∈ stack, t.Typ = TokenOperator ∨ t.Typ = TokenFunction ∨ t.Typ = TokenLParen)
    (hdepth : arityDepth 0 output =
      some (countOperators stack + if operand = true then 0 else 1))
    (hp : shuntingLoop ts output stack = .ok p) : arityDepth 0 p = some 1 := by
  induction ts generalizing output stack operand with
  | nil =>
    rw [shuntingLoop] at hp
    have hop : operand = false := by
      cases operand
      · rfl
      · simp [sequenced] at hseq
    subst hop
    exact arityDepth_drainStack output stack p hstack (by simpa using hdepth) hp
  | cons t ts ih =>
    unfold sequenced at hseq
    obtain ⟨hkind, hseq2⟩ := (Bool.and_eq_true _ _ ▸ hseq : _ ∧ _)
    have hpush : ∀ u ∈ t :: stack, t.Typ ≠ TokenNumber → t.Typ ≠ TokenRParen →
        u.Typ = TokenOperator ∨ u.Typ = TokenFunction ∨ u.Typ = TokenLParen := by
      intro u hu h1 h2
      rcases List.mem_cons.mp hu with rfl | hu
      · cases hk : u.Typ
        · exact absurd hk h1
        · exact Or.inl rfl
        · exact Or.inr (Or.inr rfl)
        · exact absurd hk h2
        · exact Or.inr (Or.inl rfl)
      · exact hstack u hu
    cases hT : t.Typ with
    | TokenNumber =>
      have hop : operand = true := by
        cases operand
        · simp [hT] at hkind
        · rfl
      subst hop
      rw [shuntingLoop_number t ts output stack hT] at hp
      rw [hT] at hseq2
      refine ih (output ++ [t]) stack false hseq2 hstack ?_ hp
      simp only [if_true, Nat.add_zero] at hdepth
      simpa using arityDepth_push_number output t _ hT hdepth
    | TokenFunction =>
      have hop : operand = true := by
        cases operand
        · simp [hT] at hkind
        · rfl
      subst hop
      rw [shuntingLoop_function t ts output stack hT] at hp
      rw [hT] at hseq2
      refine ih output (t :: stack) true hseq2
        (fun u hu => hpush u hu (by rw [hT]; decide) (by rw [hT]; decide)) ?_ hp
      rw [countOperators_cons, if_neg (by rw [hT]; decide)]
      exact hdepth
    | TokenLParen =>
      have hop : operand = true := by
        cases operand
        · simp [hT] at hkind
        · rfl
      subst hop
      rw [shuntingLoop_lparen t ts output stack hT] at hp
      rw [hT] at hseq2
      refine ih output (t :: stack) true hseq2
        (fun u hu => hpush u hu (by rw [hT]; decide) (by rw [hT]; decide)) ?_ hp
      rw [countOperators_cons, if_neg (by rw [hT]; decide)]
      exact hdepth
    | TokenOperator =>
      have hop : operand = false := by
        cases operand
        · rfl
        · simp [hT] at hkind
      subst hop
      rw [shuntingLoop_operator t ts output stack hT] at hp
      rw [hT] at hseq2
      obtain ⟨popped, -, hs, -⟩ := popOperators_split t output stack
      have hst : ∀ u ∈ t :: (popOperators t output stack).2,
          u.Typ = TokenOperator ∨ u.Typ = TokenFunction ∨ u.Typ = TokenLParen := by
        intro u hu
        rcases List.mem_cons.mp hu with rfl | hu
        · exact Or.inl hT
        · exact hstack u (by rw [hs]; exact List.mem_append_right _ hu)
      refine ih _ _ true hseq2 hst ?_ hp
      rw [countOperators_cons, if_pos hT]
      have := arityDepth_popOperators t output stack (by simpa using hdepth)
      simpa using this
    | TokenRParen =>
      have hop : operand = false := by
        cases operand
        · rfl
        · simp [hT] at hkind
      subst hop
      rw [shuntingLoop_rparen t ts output stack hT] at hp
      rw [hT] at hseq2
      have hd := arityDepth_popToLParen output stack hstack (by simpa using hdepth)
      have hsplit := popToLParen_split output stack
      rcases hpop : popToLParen output stack with ⟨output1, stack1, found⟩
      rw [hpop] at hp hd hsplit
      simp only at hd
      cases found with
      | false => cases stack1 <;> cases hp
      | true =>
        obtain ⟨popped, paren, hs, -, -, -⟩ := hsplit rfl
        simp only at hs
        have hst1 : ∀ u ∈ stack1,
            u.Typ = TokenOperator ∨ u.Typ = TokenFunction ∨ u.Typ = TokenLParen :=
          fun u hu => hstack u (by
            rw [hs]
            exact List.mem_append_right _ (List.mem_cons_of_mem _ hu))
        cases stack1 with
        | nil => exact ih output1 [] false hseq2 (by simp) (by simpa using hd) hp
        | cons top stack2 =>
          by_cases hfun : top.Typ = TokenFunction
          · simp only [hfun, if_true] at hp
            refine ih (output1 ++ [top]) stack2 false hseq2
              (fun u hu => hst1 u (List.mem_cons_of_mem _ hu)) ?_ hp
            rw [countOperators_cons, if_neg (by rw [hfun]; decide)] at hd
            simpa using arityDepth_push_function output1 top _ hfun hd
          · simp only [hfun, if_false] at hp
            exact ih output1 (top :: stack2) false hseq2 hst1 (by simpa using hd) hp

/-- The adjacency loop and the last-token rule make the tokens after `t` sequenced. -/
theorem sequenced_of_checkPairs (t : Token) (ts : List Token)
    (hpairs : checkPairs (t :: ts) = .ok ())
    (hlast : ∀ l, (t :: ts).getLast? = some l → l.Typ = TokenNumber ∨ l.Typ = TokenRParen) :
    sequenced (expectsOperand t.Typ) ts = true := by
  induction ts generalizing t with
  | nil =>
    rcases hlast t rfl with h | h <;> simp [sequenced, expectsOperand, h]
  | cons u ts ih =>
    unfold checkPairs at hpairs
    by_cases hill : illegalNext t.Typ u.Typ = true
    · rw [if_pos hill] at hpairs
      cases hpairs
    · rw [if_neg hill] at hpairs
      have hrest := ih u hpairs (fun l hl => hlast l (by
        rw [List.getLast?_cons_cons]
        exact hl))
      unfold sequenced
      rw [hrest, Bool.and_true]
      revert hill
      cases t.Typ <;> cases u.Typ <;> decide

/-- A non-empty sequence accepted by the validator is sequenced from the start. -/
theorem sequenced_of_validate (ts : List Token) (hne : ts ≠ [])
    (hv : ValidateExpression ts = .ok ()) : sequenced true ts = true := by
  cases ts with
  | nil => exact absurd rfl hne
  | cons a rest =>
    obtain ⟨l, hl⟩ : ∃ l, (a :: rest).getLast? = some l :=
      ⟨_, List.getLast?_eq_getLast _ (by simp)⟩
    have hv2 : ValidateExpression (a :: rest) =
        if a.Typ = TokenOperator ∨ a.Typ = TokenRParen then .error (.leadingToken a.Value)
        else if l.Typ = TokenOperator ∨ l.Typ = TokenFunction ∨ l.Typ = TokenLParen then
          .error (.trailingToken l.Value)
        else checkPairs (a :: rest) := by
      unfold ValidateExpression
      rw [hl]
      rfl
    rw [hv2] at hv
    by_cases h1 : a.Typ = TokenOperator ∨ a.Typ = TokenRParen
    · rw [if_pos h1] at hv
      cases hv
    rw [if_neg h1] at hv
    by_cases h2 : l.Typ = TokenOperator ∨ l.Typ = TokenFunction ∨ l.Typ = TokenLParen
    · rw [if_pos h2] at hv
      cases hv
    rw [if_neg h2] at hv
    have hlast : ∀ l', (a :: rest).getLast? = some l' →
        l'.Typ = TokenNumber ∨ l'.Typ = TokenRParen := by
      intro l' hl'
      rw [hl] at hl'
      cases hl'
      revert h2
      cases l.Typ <;> decide
    unfold sequenced
    rw [sequenced_of_checkPairs a rest hv hlast, Bool.and_true]
    revert h1
    cases a.Typ <;> decide

/-- On a postfix sequence of depth one from the current stack, the evaluator fails only with
the number-parse, division-by-zero, sqrt-of-negative, unknown-function or unknown-operator
error. -/
theorem evaluateLoop_arity (U : UnicodeTables) (M : Float64) (tokens : List Token)
    (stack : List M.F) (h : arityDepth stack.length tokens = some 1) (e : CalcError)
    (he : evaluateLoop U M tokens stack = .error e) :
    (∃ text, e = .numberParse text) ∨ e = .divisionByZero ∨ e = .negativeSqrt ∨
      (∃ name, e = .unknownFunction name) ∨ (∃ op, e = .unknownOperator op) := by
  induction tokens generalizing stack with
  | nil =>
    simp only [arityDepth, Option.some.injEq] at h
    rw [evaluateLoop_nil] at he
    match stack, h, he with
    | [_], _, he => cases he
  | cons t ts ih =>
    rw [arityDepth_cons] at h
    cases hT : t.Typ with
    | TokenNumber =>
      rw [evaluateLoop_number U M t ts stack hT] at he
      simp only [hT] at h
      cases hp : M.ParseFloat t.Value with
      | none =>
        rw [hp] at he
        cases he
        exact Or.inl ⟨_, rfl⟩
      | some val =>
        rw [hp] at he
        exact ih (val :: stack) h he
    | TokenOperator =>
      rw [evaluateLoop_operator U M t ts stack hT] at he
      simp only [hT] at h
      match stack, h, he with
      | [], h, _ => simp at h
      | [_], h, _ => simp at h
      | b :: a :: stack1, h, he =>
        simp only [List.length_cons] at h
        rw [if_pos (by omega)] at h
        simp only [] at he
        cases ha : applyOperator M t.Value a b with
        | error e1 =>
          rw [ha] at he
          cases he
          unfold applyOperator at ha
          split_ifs at ha <;> cases ha
          · exact Or.inr (Or.inl rfl)
          · exact Or.inr (Or.inr (Or.inr (Or.inr ⟨_, rfl⟩)))
        | ok res =>
          rw [ha] at he
          exact ih (res :: stack1) (by simpa using h) he
    | TokenFunction =>
      rw [evaluateLoop_function U M t ts stack hT] at he
      simp only [hT] at h
      match stack, h, he with
      | [], h, _ => simp at h
      | arg :: stack1, h, he =>
        simp only [List.length_cons] at h
        rw [if_pos (by omega)] at h
        simp only [] at he
        cases ha : applyFunction U M t.Value arg with
        | error e1 =>
          rw [ha] at he
          cases he
          unfold applyFunction at ha
          split_ifs at ha <;> cases ha
          · exact Or.inr (Or.inr (Or.inl rfl))
          · exact Or.inr (Or.inr (Or.inr (Or.inl ⟨_, rfl⟩)))
        | ok res =>
          rw [ha] at he
          exact ih (res :: stack1) (by simpa using h) he
    | TokenLParen =>
      rw [evaluateLoop_paren U M t ts stack (Or.inl hT)] at he
      simp only [hT] at h
      exact ih stack h he
    | TokenRParen =>
      rw [evaluateLoop_paren U M t ts stack (Or.inr hT)] at he
      simp only [hT] at h
      exact ih stack h he

/-- C17: for a non-empty token sequence that `ValidateExpression` accepts and `ShuntingYard`
converts to `p`, `EvaluateRPN` on `p` never fails with the insufficient-operands error nor
with the invalid-expression error: if it fails, the error is the number-parse,
division-by-zero, sqrt-of-negative, unknown-function or unknown-operator error. -/
theorem evaluateRPN_validated (U : UnicodeTables) (M : Float64) (ts p : List Token)
    (hne : ts ≠ []) (hv : ValidateExpression ts = .ok ()) (hs : ShuntingYard ts = .ok p) :
    (∀ t, EvaluateRPN U M p ≠ .error (.insufficientOperands t)) ∧
    EvaluateRPN U M p ≠ .error .invalidExpression ∧
    (∀ e, EvaluateRPN U M p = .error e →
      (∃ text, e = .numberParse text) ∨ e = .divisionByZero ∨ e = .negativeSqrt ∨
        (∃ name, e = .unknownFunction name) ∨ (∃ op, e = .unknownOperator op)) := by
  have hdepth : arityDepth 0 p = some 1 :=
    arityDepth_shuntingLoop ts [] [] p true (sequenced_of_validate ts hne hv) (by simp) rfl hs
  have hkinds := evaluateLoop_arity U M p [] hdepth
  refine ⟨?_, ?_, hkinds⟩
  · intro t ht
    rcases hkinds _ ht with ⟨_, h⟩ | h | h | ⟨_, h⟩ | ⟨_, h⟩ <;> cases h
  · intro ht
    rcases hkinds _ ht with ⟨_, h⟩ | h | h | ⟨_, h⟩ | ⟨_, h⟩ <;> cases h

/-- C17 at the tokens of `sqrt 4 + 5 / 0`: the sequence is accepted and converted, and the
evaluation fails with the division-by-zero error only. -/
theorem evaluateRPN_validated_witness :
    ValidateExpression [⟨TokenFunction, "sqrt"⟩, ⟨TokenNumber, "4"⟩, ⟨TokenOperator, "+"⟩,
        ⟨TokenNumber, "5"⟩, ⟨TokenOperator, "/"⟩, ⟨TokenNumber, "0"⟩] = .ok () ∧
    ShuntingYard [⟨TokenFunction, "sqrt"⟩, ⟨TokenNumber, "4"⟩, ⟨TokenOperator, "+"⟩,
        ⟨TokenNumber, "5"⟩, ⟨TokenOperator, "/"⟩, ⟨TokenNumber, "0"⟩] =
      .ok [⟨TokenNumber, "4"⟩, ⟨TokenNumber, "5"⟩, ⟨TokenNumber, "0"⟩, ⟨TokenOperator, "/"⟩,
        ⟨TokenOperator, "+"⟩, ⟨TokenFunction, "sqrt"⟩] ∧
    EvaluateRPN latin1Tables exactArith
        [⟨TokenNumber, "4"⟩, ⟨TokenNumber, "5"⟩, ⟨TokenNumber, "0"⟩, ⟨TokenOperator, "/"⟩,
          ⟨TokenOperator, "+"⟩, ⟨TokenFunction, "sqrt"⟩] ≠ .error .invalidExpression := by
  have hv : ValidateExpression [⟨TokenFunction, "sqrt"⟩, ⟨TokenNumber, "4"⟩,
      ⟨TokenOperator, "+"⟩, ⟨TokenNumber, "5"⟩, ⟨TokenOperator, "/"⟩, ⟨TokenNumber, "0"⟩] =
      .ok () := rfl
  have hs : ShuntingYard [⟨TokenFunction, "sqrt"⟩, ⟨TokenNumber, "4"⟩, ⟨TokenOperator, "+"⟩,
      ⟨TokenNumber, "5"⟩, ⟨TokenOperator, "/"⟩, ⟨TokenNumber, "0"⟩] =
      .ok [⟨TokenNumber, "4"⟩, ⟨TokenNumber, "5"⟩, ⟨TokenNumber, "0"⟩, ⟨TokenOperator, "/"⟩,
        ⟨TokenOperator, "+"⟩, ⟨TokenFunction, "sqrt"⟩] := rfl
  exact ⟨hv, hs, (evaluateRPN_validated latin1Tables exactArith _ _ (by simp) hv hs).2.1⟩

/-! ## `Tokenize` keeps every rune but white space -/

theorem tokenTexts_append (l₁ l₂ : List Token) :
    tokenTexts (l₁ ++ l₂) = tokenTexts l₁ ++ tokenTexts l₂ := by
  simp [tokenTexts]

theorem withoutSpaces_append (U : UnicodeTables) (l₁ l₂ : List Char) :
    withoutSpaces U (l₁ ++ l₂) = withoutSpaces U l₁ ++ withoutSpaces U l₂ := by
  simp [withoutSpaces]

theorem withoutSpaces_self (U : UnicodeTables) (l : List Char)
    (h : ∀ r ∈ l, IsSpace U r = false) : withoutSpaces U l = l := by
  unfold withoutSpaces
  rw [List.filter_eq_self]
  intro r hr
  simp [h r hr]

theorem withoutSpaces_spaces (U : UnicodeTables) (l : List Char)
    (h : ∀ r ∈ l, IsSpace U r = true) : withoutSpaces U l = [] := by
  unfold withoutSpaces
  rw [List.filter_eq_nil_iff]
  intro r hr
  simp [h r hr]

/-- With white space apart from digits and letters, a digit, a decimal point or a letter is
not white space. -/
theorem not_space_of_consumed (U : UnicodeTables) (hU : SpacesApart U) (r : Char)
    (h : numericRune U r = true ∨ IsLetter U r = true) : IsSpace U r = false := by
  cases hs : IsSpace U r with
  | false => rfl
  | true =>
    obtain ⟨hd, hl⟩ := hU r hs
    rcases h with h | h
    · unfold numericRune at h
      rw [hd, Bool.false_or] at h
      have : r = '.' := by simpa using h
      exact absurd this (isSpace_ne_dot U r hs)
    · rw [hl] at h
      cases h

/-- The texts of the tokens returned by the main loop of `Tokenize` are those of the tokens
it started with, followed by the remaining runes that are not white space. -/
theorem tokenizeLoop_texts (U : UnicodeTables) (hU : SpacesApart U) (n : Nat) :
    ∀ (runes : List Char) (tokens res : List Token), runes.length ≤ n →
      tokenizeLoop U tokens runes = .ok res →
      tokenTexts res = tokenTexts tokens ++ withoutSpaces U runes := by
  induction n with
  | zero =>
    intro runes tokens res hlen h
    have : runes = [] := List.length_eq_zero.mp (Nat.le_zero.mp hlen)
    subst this
    rw [tokenizeLoop] at h
    cases h
    simp [withoutSpaces]
  | succ n ih =>
    intro runes tokens res hlen h
    cases runes with
    | nil =>
      rw [tokenizeLoop] at h
      cases h
      simp [withoutSpaces]
    | cons c rest =>
      have hlen2 : rest.length ≤ n := by simpa using hlen
      rw [tokenizeLoop] at h
      by_cases hsp : IsSpace U c = true
      · rw [if_pos hsp] at h
        rw [ih rest tokens res hlen2 h]
        simp [withoutSpaces, hsp]
      · rw [if_neg hsp] at h
        cases hr : tokenizeStep U tokens c rest with
        | error e =>
          rw [hr] at h
          cases h
        | ok step =>
          obtain ⟨tokens1, advance⟩ := step
          rw [hr] at h
          obtain ⟨t1, ht1, hval, -, hcons, -⟩ :=
            tokenizeStep_ok U tokens c rest tokens1 advance hr
          have hrec := ih _ tokens1 res (by rw [List.length_drop]; omega) h
          have hsplit : c :: rest = (c :: rest.take advance) ++ rest.drop advance := by
            rw [List.cons_append, List.take_append_drop]
          have hns : ∀ r ∈ c :: rest.take advance, IsSpace U r = false := by
            intro r hr2
            rcases List.mem_cons.mp hr2 with rfl | hr2
            · simpa using hsp
            · exact not_space_of_consumed U hU r (hcons r hr2)
          rw [hrec, ht1, tokenTexts_append, hsplit, withoutSpaces_append,
            withoutSpaces_self U _ hns, List.append_assoc]
          congr 1
          simp [tokenTexts, hval]

theorem numericRun_append_spaces (U : UnicodeTables) (rest ws : List Char)
    (hws : ∀ r ∈ ws, numericRune U r = false) :
    numericRun U (rest ++ ws) = numericRun U rest := by
  induction rest with
  | nil =>
    cases ws with
    | nil => rfl
    | cons w ws =>
      rw [List.nil_append, numericRun_cons, hws w (List.mem_cons_self _ _)]
      rfl
  | cons a rest ih =>
    rw [List.cons_append, numericRun_cons, numericRun_cons, ih]

theorem scanLetters_append_spaces (U : UnicodeTables) (rest ws : List Char)
    (hws : ∀ r ∈ ws, IsLetter U r = false) :
    scanLetters U (rest ++ ws) = scanLetters U rest := by
  induction rest with
  | nil =>
    cases ws with
    | nil => rfl
    | cons w ws =>
      simp [scanLetters, hws w (List.mem_cons_self _ _)]
  | cons a rest ih =>
    have e : ∀ l, scanLetters U (a :: l) =
        if IsLetter U a = true then a :: scanLetters U l else [] := fun l => rfl
    rw [List.cons_append, e, e, ih]

/-- White space after the input does not change an iteration of `Tokenize`. -/
theorem tokenizeStep_append_spaces (U : UnicodeTables) (hU : SpacesApart U)
    (tokens : List Token) (c : Char) (rest ws : List Char)
    (hws : ∀ r ∈ ws, IsSpace U r = true) :
    tokenizeStep U tokens c (rest ++ ws) = tokenizeStep U tokens c rest := by
  have hnum : ∀ r ∈ ws, numericRune U r = false := by
    intro r hr
    cases hn : numericRune U r with
    | false => rfl
    | true =>
      have := not_space_of_consumed U hU r (Or.inl hn)
      rw [hws r hr] at this
      cases this
  have hlet : ∀ r ∈ ws, IsLetter U r = false := fun r hr => (hU r (hws r hr)).2
  have hscan : ∀ (d : Bool) (l : List Char), scanNumber U d (l ++ ws) = scanNumber U d l := by
    intro d l
    rw [scanNumber_eq, scanNumber_eq, numericRun_append_spaces U l ws hnum]
  unfold tokenizeStep
  rw [hscan, scanLetters_append_spaces U rest ws hlet]
  cases rest with
  | nil =>
    cases ws with
    | nil => rfl
    | cons w ws =>
      have hw : (IsDigit U w || w == '.') = false := hnum w (List.mem_cons_self _ _)
      simp only [List.nil_append, hw, Bool.false_eq_true, if_false]
  | cons next rest2 =>
    simp only [List.cons_append, hscan]

/-- White space after the input does not change the result of the main loop. -/
theorem tokenizeLoop_append_spaces (U : UnicodeTables) (hU : SpacesApart U) (ws : List Char)
    (hws : ∀ r ∈ ws, IsSpace U r = true) (n : Nat) :
    ∀ (runes : List Char) (tokens : List Token), runes.length ≤ n →
      tokenizeLoop U tokens (runes ++ ws) = tokenizeLoop U tokens runes := by
  induction n with
  | zero =>
    intro runes tokens hlen
    have : runes = [] := List.length_eq_zero.mp (Nat.le_zero.mp hlen)
    subst this
    have h := tokenizeLoop_spaces U tokens ws [] hws
    rw [List.append_nil] at h
    rw [List.nil_append, h]
  | succ n ih =>
    intro runes tokens hlen
    cases runes with
    | nil =>
      have h := tokenizeLoop_spaces U tokens ws [] hws
      rw [List.append_nil] at h
      rw [List.nil_append, h]
    | cons c rest =>
      have hlen2 : rest.length ≤ n := by simpa using hlen
      rw [List.cons_append]
      conv_lhs => rw [tokenizeLoop]
      conv_rhs => rw [tokenizeLoop]
      by_cases hsp : IsSpace U c = true
      · rw [if_pos hsp, if_pos hsp]
        exact ih rest tokens hlen2
      · rw [if_neg hsp, if_neg hsp, tokenizeStep_append_spaces U hU tokens c rest ws hws]
        cases hr : tokenizeStep U tokens c rest with
        | error e => rfl
        | ok step =>
          obtain ⟨tokens1, advance⟩ := step
          obtain ⟨-, -, -, hadv, -, -⟩ := tokenizeStep_ok U tokens c rest tokens1 advance hr
          simp only []
          rw [List.drop_append_of_le_length hadv]
          exact ih _ tokens1 (by rw [List.length_drop]; omega)

/-- C20: with white space apart from digits and letters, when `Tokenize` succeeds the texts
of its tokens, concatenated in order, are the input with all white space removed; and white
space added before or after the input does not change the result of `Tokenize`. -/
theorem tokenize_lossless (U : UnicodeTables) (hU : SpacesApart U) (expr : String) :
    (∀ tokens, Tokenize U expr = .ok tokens →
      tokenTexts tokens = withoutSpaces U expr.toList) ∧
    (∀ before after : List Char, (∀ r ∈ before, IsSpace U r = true) →
      (∀ r ∈ after, IsSpace U r = true) →
      Tokenize U (String.mk (before ++ expr.toList ++ after)) = Tokenize U expr) := by
  refine ⟨?_, ?_⟩
  · intro tokens h
    have := tokenizeLoop_texts U hU expr.toList.length expr.toList [] tokens (Nat.le_refl _) h
    simpa [tokenTexts] using this
  · intro before after hb ha
    unfold Tokenize
    show tokenizeLoop U [] (before ++ expr.toList ++ after) = _
    rw [List.append_assoc, tokenizeLoop_spaces U [] before _ hb,
      tokenizeLoop_append_spaces U hU after ha expr.toList.length expr.toList []
        (Nat.le_refl _)]

/-- In the tables with nothing beyond Latin-1, white space is apart from digits and
letters. -/
theorem latin1Tables_spacesApart : SpacesApart latin1Tables := by
  intro r hr
  unfold IsSpace at hr
  unfold IsDigit IsLetter
  by_cases h : r.toNat ≤ 0xFF
  · rw [if_pos h] at hr
    have hr2 := of_decide_eq_true hr
    rw [if_pos h, if_pos h]
    constructor
    · apply decide_eq_false
      omega
    · apply decide_eq_false
      omega
  · rw [if_neg h] at hr
    cases hr

/-- C20 at ` 2.5 + x `: the token texts are `2.5+x`, and the blanks around `2.5 + x` do
not change the tokens. -/
theorem tokenize_lossless_witness :
    SpacesApart latin1Tables ∧
    Tokenize latin1Tables " 2.5 + x " =
      .ok [⟨TokenNumber, "2.5"⟩, ⟨TokenOperator, "+"⟩, ⟨TokenFunction, "x"⟩] ∧
    tokenTexts [⟨TokenNumber, "2.5"⟩, ⟨TokenOperator, "+"⟩, ⟨TokenFunction, "x"⟩] =
      withoutSpaces latin1Tables " 2.5 + x ".toList ∧
    Tokenize latin1Tables " 2.5 + x " = Tokenize latin1Tables "2.5 + x" := by
  have hT : Tokenize latin1Tables " 2.5 + x " =
      .ok [⟨TokenNumber, "2.5"⟩, ⟨TokenOperator, "+"⟩, ⟨TokenFunction, "x"⟩] := by
    simp [Tokenize, tokenizeLoop, tokenizeStep, scanNumber, scanLetters, IsSpace, IsDigit,
      IsLetter, isOperator, signPosition]
  have hsp : ∀ r ∈ [' '], IsSpace latin1Tables r = true := by
    intro r hr
    rw [List.mem_singleton.mp hr]
    decide
  exact ⟨latin1Tables_spacesApart, hT,
    (tokenize_lossless latin1Tables latin1Tables_spacesApart " 2.5 + x ").1 _ hT,
    (tokenize_lossless latin1Tables latin1Tables_spacesApart "2.5 + x").2 [' '] [' '] hsp hsp⟩

/-! ## Index and slice bounds -/

theorem indexAt_nat {α : Type} (s : List α) (n : Nat) : indexAt s (n : Int) = s[n]? := by
  simp [indexAt]

theorem sliceAt_zero {α : Type} (s : List α) (n : Nat) (h : n ≤ s.length) :
    sliceAt s 0 (n : Int) = some (s.take n) := by
  unfold sliceAt
  rw [if_pos ⟨le_refl _, by omega, by omega⟩]
  simp

/-- The last element and the rest of a slice that ends with `x`. -/
theorem indexAt_last {α : Type} (s : List α) (x : α) :
    indexAt (s ++ [x]) (((s ++ [x]).length : Int) - 1) = some x ∧
    sliceAt (s ++ [x]) 0 (((s ++ [x]).length : Int) - 1) = some s := by
  have e : (((s ++ [x]).length : Int) - 1) = (s.length : Nat) := by
    simp
  rw [e, indexAt_nat, sliceAt_zero _ _ (by simp)]
  simp

/-- The last two elements and the rest of a slice that ends with `a`, `b`. -/
theorem indexAt_last_two {α : Type} (s : List α) (a b : α) :
    indexAt (s ++ [a, b]) (((s ++ [a, b]).length : Int) - 1) = some b ∧
    indexAt (s ++ [a, b]) (((s ++ [a, b]).length : Int) - 2) = some a ∧
    sliceAt (s ++ [a, b]) 0 (((s ++ [a, b]).length : Int) - 2) = some s := by
  have e1 : (((s ++ [a, b]).length : Int) - 1) = ((s.length + 1 : Nat) : Int) := by
    simp
    omega
  have e2 : (((s ++ [a, b]).length : Int) - 2) = (s.length : Nat) := by
    simp
  have g1 : (s ++ [a, b])[s.length + 1]? = some b := by
    rw [List.getElem?_append_right (by omega)]
    simp
  have g2 : (s ++ [a, b])[s.length]? = some a := by
    rw [List.getElem?_append_right (by omega)]
    simp
  rw [e1, e2, indexAt_nat, indexAt_nat, sliceAt_zero _ _ (by simp), g1, g2]
  simp

/-- A non-empty list ends with some element. -/
theorem exists_append_last {α : Type} (s : List α) (h : 1 ≤ s.length) :
    ∃ rest x, s = rest ++ [x] := by
  have hne : s ≠ [] := by
    intro h0
    rw [h0] at h
    simp at h
  exact ⟨s.dropLast, s.getLast hne, (List.dropLast_append_getLast hne).symm⟩

/-- A list of two or more elements ends with some two elements. -/
theorem exists_append_last_two {α : Type} (s : List α) (h : 2 ≤ s.length) :
    ∃ rest a b, s = rest ++ [a, b] := by
  obtain ⟨r1, b, rfl⟩ := exists_append_last s (by omega)
  obtain ⟨r2, a, rfl⟩ := exists_append_last r1 (by
    simp only [List.length_append, List.length_singleton] at h
    omega)
  exact ⟨r2, a, b, by simp⟩

/-! ## `EvaluateRPN` on its slices -/

/-- On its slices `EvaluateRPN` neither faults nor runs on: it returns what the evaluator
returns on the stack read from its end. -/
theorem evaluateIndexed_eq (U : UnicodeTables) (M : Float64) (tokens : List Token)
    (stack : List M.F) :
    evaluateIndexed U M tokens stack = .returned (evaluateLoop U M tokens stack.reverse) := by
  induction tokens generalizing stack with
  | nil =>
    unfold evaluateIndexed
    rw [evaluateLoop_nil]
    match stack with
    | [] => rfl
    | [r] => rfl
    | a :: b :: s =>
      rw [if_pos (by simp)]
      have : ∃ r1 x y, (a :: b :: s).reverse = x :: y :: r1 := by
        obtain ⟨rest, p, q, h⟩ := exists_append_last_two (a :: b :: s) (by simp)
        exact ⟨rest.reverse, q, p, by rw [h]; simp⟩
      obtain ⟨r1, x, y, h⟩ := this
      rw [h]
  | cons t ts ih =>
    rw [evaluateLoop_cons]
    unfold evaluateIndexed
    cases hT : t.Typ with
    | TokenNumber =>
      simp only []
      cases M.ParseFloat t.Value with
      | none => rfl
      | some val =>
        simp only []
        rw [ih, List.reverse_append]
        rfl
    | TokenOperator =>
      simp only []
      by_cases hlen : stack.length < 2
      · rw [if_pos hlen]
        match stack, hlen with
        | [], _ => rfl
        | [_], _ => rfl
      · rw [if_neg hlen]
        obtain ⟨rest, a, b, rfl⟩ := exists_append_last_two stack (by omega)
        obtain ⟨h1, h2, h3⟩ := indexAt_last_two rest a b
        rw [h1, h2, h3]
        simp only [List.reverse_append, List.reverse_cons, List.reverse_nil, List.nil_append,
          List.singleton_append, List.cons_append]
        cases applyOperator M t.Value a b with
        | error e => rfl
        | ok res =>
          simp only []
          rw [ih, List.reverse_append]
          rfl
    | TokenFunction =>
      simp only []
      by_cases hlen : stack.length < 1
      · rw [if_pos hlen]
        match stack, hlen with
        | [], _ => rfl
      · rw [if_neg hlen]
        obtain ⟨rest, arg, rfl⟩ := exists_append_last stack (by omega)
        obtain ⟨h1, h2⟩ := indexAt_last rest arg
        rw [h1, h2]
        simp only [List.reverse_append, List.reverse_cons, List.reverse_nil, List.nil_append,
          List.singleton_append]
        cases applyFunction U M t.Value arg with
        | error e => rfl
        | ok res =>
          simp only []
          rw [ih, List.reverse_append]
          rfl
    | TokenLParen => exact ih stack
    | TokenRParen => exact ih stack

/-! ## `ShuntingYard` on its slices -/

theorem popOperatorsIndexed_eq (token : Token) (fuel : Nat) (output stack : List Token)
    (hfuel : stack.length < fuel) :
    popOperatorsIndexed token fuel output stack =
      .returned ((popOperators token output stack.reverse).1,
        (popOperators token output stack.reverse).2.reverse) := by
  induction fuel generalizing output stack with
  | zero => omega
  | succ fuel ih =>
    unfold popOperatorsIndexed
    by_cases hlen : stack.length > 0
    · rw [if_pos hlen]
      obtain ⟨rest, top, rfl⟩ := exists_append_last stack (by omega)
      obtain ⟨h1, h2⟩ := indexAt_last rest top
      rw [h1, h2]
      simp only [List.reverse_append, List.reverse_cons, List.reverse_nil, List.nil_append,
        List.singleton_append]
      unfold popOperators
      by_cases ht : top.Typ = TokenOperator
      · rw [if_pos ht, if_pos ht]
        by_cases hp : precedence top.Value ≥ precedence token.Value
        · rw [if_pos hp, if_pos hp]
          exact ih _ _ (by
            simp only [List.length_append, List.length_singleton] at hfuel
            omega)
        · rw [if_neg hp, if_neg hp]
          simp
      · rw [if_neg ht, if_neg ht]
        simp
    · rw [if_neg hlen]
      have : stack = [] := List.length_eq_zero.mp (by omega)
      subst this
      rfl

theorem popToLParenIndexed_eq (fuel : Nat) (output stack : List Token)
    (hfuel : stack.length < fuel) :
    popToLParenIndexed fuel output stack =
      .returned ((popToLParen output stack.reverse).1,
        (popToLParen output stack.reverse).2.1.reverse,
        (popToLParen output stack.reverse).2.2) := by
  induction fuel generalizing output stack with
  | zero => omega
  | succ fuel ih =>
    unfold popToLParenIndexed
    by_cases hlen : stack.length > 0
    · rw [if_pos hlen]
      obtain ⟨rest, top, rfl⟩ := exists_append_last stack (by omega)
      obtain ⟨h1, h2⟩ := indexAt_last rest top
      rw [h1, h2]
      simp only [List.reverse_append, List.reverse_cons, List.reverse_nil, List.nil_append,
        List.singleton_append]
      unfold popToLParen
      by_cases ht : top.Typ = TokenLParen
      · rw [if_pos ht, if_pos ht]
        simp
      · rw [if_neg ht, if_neg ht]
        exact ih _ _ (by
          simp only [List.length_append, List.length_singleton] at hfuel
          omega)
    · rw [if_neg hlen]
      have : stack = [] := List.length_eq_zero.mp (by omega)
      subst this
      rfl

theorem drainIndexed_eq (fuel : Nat) (output stack : List Token)
    (hfuel : stack.length < fuel) :
    drainIndexed fuel output stack = .returned (drainStack output stack.reverse) := by
  induction fuel generalizing output stack with
  | zero => omega
  | succ fuel ih =>
    unfold drainIndexed
    by_cases hlen : stack.length > 0
    · rw [if_pos hlen]
      obtain ⟨rest, top, rfl⟩ := exists_append_last stack (by omega)
      obtain ⟨h1, h2⟩ := indexAt_last rest top
      rw [h1, h2]
      simp only [List.reverse_append, List.reverse_cons, List.reverse_nil, List.nil_append,
        List.singleton_append]
      unfold drainStack
      by_cases ht : top.Typ = TokenLParen
      · rw [if_pos ht, if_pos ht]
      · rw [if_neg ht, if_neg ht]
        exact ih _ _ (by
          simp only [List.length_append, List.length_singleton] at hfuel
          omega)
    · rw [if_neg hlen]
      have : stack = [] := List.length_eq_zero.mp (by omega)
      subst this
      rfl

/-- On its slices `ShuntingYard` neither faults nor runs on: it returns what the converter
returns on the stack read from its end. -/
theorem shuntingIndexed_eq (tokens output stack : List Token) :
    shuntingIndexed tokens output stack =
      .returned (shuntingLoop tokens output stack.reverse) := by
  induction tokens generalizing output stack with
  | nil =>
    unfold shuntingIndexed
    rw [drainIndexed_eq _ _ _ (Nat.lt_succ_self _), shuntingLoop]
  | cons t ts ih =>
    unfold shuntingIndexed
    cases hT : t.Typ with
    | TokenNumber =>
      rw [shuntingLoop_number t ts _ _ hT]
      exact ih _ _
    | TokenFunction =>
      rw [shuntingLoop_function t ts _ _ hT]
      simp only []
      rw [ih, List.reverse_append]
      rfl
    | TokenLParen =>
      rw [shuntingLoop_lparen t ts _ _ hT]
      simp only []
      rw [ih, List.reverse_append]
      rfl
    | TokenOperator =>
      rw [shuntingLoop_operator t ts _ _ hT]
      simp only []
      rw [popOperatorsIndexed_eq _ _ _ _ (Nat.lt_succ_self _)]
      simp only []
      rw [ih, List.reverse_append, List.reverse_reverse]
      rfl
    | TokenRParen =>
      rw [shuntingLoop_rparen t ts _ _ hT]
      simp only []
      rw [popToLParenIndexed_eq _ _ _ (Nat.lt_succ_self _)]
      rcases hpop : popToLParen output stack.reverse with ⟨output1, stack1, found⟩
      simp only []
      cases found with
      | false =>
        cases stack1 <;> rfl
      | true =>
        cases stack1 with
        | nil =>
          simp only [List.reverse_nil, List.length_nil, gt_iff_lt, Nat.lt_irrefl, if_false,
            Bool.true_eq_false]
          exact ih _ _
        | cons top stack2 =>
          have hlen : (top :: stack2).reverse.length > 0 := by simp
          simp only [Bool.true_eq_false, if_false, hlen, if_true]
          have hrev : (top :: stack2).reverse = stack2.reverse ++ [top] := by simp
          obtain ⟨h1, h2⟩ := indexAt_last stack2.reverse top
          rw [hrev, h1, h2]
          simp only []
          by_cases hfun : top.Typ = TokenFunction
          · rw [if_pos hfun, if_pos hfun, ih, List.reverse_reverse]
          · rw [if_neg hfun, if_neg hfun, ih, List.reverse_append, List.reverse_reverse]
            rfl

/-! ## `ValidateExpression` on its slice -/

theorem checkPairsIndexed_eq (tokens : List Token) (fuel i : Nat)
    (hfuel : tokens.length - 1 - i < fuel) :
    checkPairsIndexed tokens fuel i = .returned (checkPairs (tokens.drop i)) := by
  induction fuel generalizing i with
  | zero => omega
  | succ fuel ih =>
    unfold checkPairsIndexed
    by_cases hi : (i : Int) < (tokens.length : Int) - 1
    · rw [if_pos hi]
      have h1 : i < tokens.length := by omega
      have h2 : i + 1 < tokens.length := by omega
      have e : ((i : Int) + 1) = ((i + 1 : Nat) : Int) := by simp
      rw [e, indexAt_nat, indexAt_nat, List.getElem?_eq_getElem h1,
        List.getElem?_eq_getElem h2]
      simp only []
      rw [List.drop_eq_getElem_cons h1, List.drop_eq_getElem_cons h2, checkPairs]
      by_cases hill : illegalNext tokens[i].Typ tokens[i + 1].Typ = true
      · rw [if_pos hill, if_pos hill]
      · rw [if_neg hill, if_neg hill, ih (i + 1) (by omega), List.drop_eq_getElem_cons h2]
    · rw [if_neg hi]
      have hlen : tokens.length ≤ i + 1 := by omega
      by_cases h1 : i < tokens.length
      · rw [List.drop_eq_getElem_cons h1, List.drop_eq_nil_of_le (by omega)]
        rfl
      · rw [List.drop_eq_nil_of_le (by omega)]
        rfl

/-- On its slice `ValidateExpression` neither faults nor runs on. -/
theorem validateIndexed_eq (tokens : List Token) :
    validateIndexed tokens = .returned (ValidateExpression tokens) := by
  unfold validateIndexed
  cases tokens with
  | nil => rfl
  | cons a rest =>
    rw [if_neg (by simp)]
    obtain ⟨front, l, hl⟩ := exists_append_last (a :: rest) (by simp)
    have hlast : indexAt (a :: rest) (((a :: rest).length : Int) - 1) = some l := by
      rw [hl]
      exact (indexAt_last front l).1
    have hget : (a :: rest).getLast? = some l := by
      rw [hl]
      exact List.getLast?_concat _
    have hfirst : indexAt (a :: rest) 0 = some a := by simp [indexAt]
    rw [hfirst, hlast]
    simp only []
    rw [checkPairsIndexed_eq _ _ _ (by simp), List.drop_zero]
    unfold ValidateExpression
    rw [hget]
    simp only [List.head?_cons]
    by_cases h1 : a.Typ = TokenOperator ∨ a.Typ = TokenRParen
    · rw [if_pos h1, if_pos h1]
    · rw [if_neg h1, if_neg h1]
      by_cases h2 : l.Typ = TokenOperator ∨ l.Typ = TokenFunction ∨ l.Typ = TokenLParen
      · rw [if_pos h2, if_pos h2]
      · rw [if_neg h2, if_neg h2]

/-- Stepping the index: the runes from `i` on are `runes[i]` and the runes from `i + 1`. -/
theorem drop_eq_cons (runes : List Char) (i : Nat) (h : i < runes.length) :
    ∃ c, runes[i]? = some c ∧ runes.drop i = c :: runes.drop (i + 1) := by
  refine ⟨runes[i], ?_, ?_⟩
  · simp [List.getElem?_eq_getElem h]
  · exact List.drop_eq_getElem_cons h

theorem indexAt_succ {α : Type} (s : List α) (n : Nat) :
    indexAt s ((n : Int) + 1) = s[n + 1]? := by
  have e : ((n : Int) + 1) = ((n + 1 : Nat) : Int) := by simp
  rw [e, indexAt_nat]

/-- The index-level numeric loop returns the index reached by the list-level loop. -/
theorem scanNumberIndexed_eq (U : UnicodeTables) (runes : List Char) (fuel : Nat) :
    ∀ (i : Nat) (decimal : Bool), runes.length - 1 - i < fuel →
      scanNumberIndexed U runes fuel i decimal =
        .returned (match scanNumber U decimal (runes.drop (i + 1)) with
          | .error e => .error e
          | .ok run => .ok (i + run.length)) := by
  induction fuel with
  | zero => intro i decimal h; omega
  | succ fuel ih =>
    intro i decimal h
    unfold scanNumberIndexed
    by_cases hi : i + 1 < runes.length
    · obtain ⟨next, hn, hd⟩ := drop_eq_cons runes (i + 1) hi
      rw [if_pos hi, indexAt_succ, hn, hd]
      simp only []
      unfold scanNumber
      by_cases h1 : (IsDigit U next || next == '.') = true
      · rw [if_pos h1, if_pos h1]
        by_cases h2 : (decimal && next == '.') = true
        · rw [if_pos h2, if_pos h2]
        · rw [if_neg h2, if_neg h2, ih (i + 1) _ (by omega)]
          cases scanNumber U (decimal || next == '.') (List.drop (i + 1 + 1) runes) with
          | error e => rfl
          | ok run =>
            simp only [List.length_cons]
            congr 2
            omega
      · rw [if_neg h1, if_neg h1]
        rfl
    · rw [if_neg hi]
      have e : runes.drop (i + 1) = [] := List.drop_of_length_le (by omega)
      rw [e]
      unfold scanNumber
      rfl

/-- The index-level letter loop returns the index reached by the list-level loop. -/
theorem scanLettersIndexed_eq (U : UnicodeTables) (runes : List Char) (fuel : Nat) :
    ∀ (i : Nat), runes.length - 1 - i < fuel →
      scanLettersIndexed U runes fuel i =
        .returned (i + (scanLetters U (runes.drop (i + 1))).length) := by
  induction fuel with
  | zero => intro i h; omega
  | succ fuel ih =>
    intro i h
    unfold scanLettersIndexed
    by_cases hi : i + 1 < runes.length
    · obtain ⟨next, hn, hd⟩ := drop_eq_cons runes (i + 1) hi
      rw [if_pos hi, indexAt_succ, hn, hd]
      simp only []
      unfold scanLetters
      by_cases h1 : IsLetter U next = true
      · rw [if_pos h1, if_pos h1, ih (i + 1) (by omega)]
        simp only [List.length_cons]
        congr 1
        omega
      · rw [if_neg h1, if_neg h1]
        rfl
    · rw [if_neg hi]
      have e : runes.drop (i + 1) = [] := List.drop_of_length_le (by omega)
      rw [e]
      unfold scanLetters
      rfl

theorem signPositionIndexed_eq (tokens : List Token) :
    signPositionIndexed tokens = some (signPosition tokens) := by
  unfold signPositionIndexed signPosition
  by_cases h0 : tokens.length = 0
  · have e : tokens = [] := List.length_eq_zero.mp h0
    subst e
    rfl
  · obtain ⟨front, last, h⟩ := exists_append_last tokens (by omega)
    subst h
    rw [if_neg h0, (indexAt_last front last).1]
    simp

/-- The slice expression `runes[i : i+n+1]` inside the runes. -/
theorem sliceAt_run (runes : List Char) (i n : Nat) (c : Char) (hc : runes[i]? = some c)
    (h : i + n < runes.length) :
    sliceAt runes (i : Int) (((i + n : Nat) : Int) + 1) =
      some (c :: (runes.drop (i + 1)).take n) := by
  unfold sliceAt
  have e : (((i + n : Nat) : Int) + 1) = ((i + n + 1 : Nat) : Int) := by simp
  rw [e, if_pos ⟨by omega, by omega, by omega⟩]
  simp only [Int.toNat_ofNat]
  have hi : i < runes.length := by omega
  have hd : runes.drop i = c :: runes.drop (i + 1) := by
    obtain ⟨c2, h1, h2⟩ := drop_eq_cons runes i hi
    rw [hc] at h1
    cases h1
    exact h2
  rw [List.drop_take, hd]
  have e2 : i + n + 1 - i = n + 1 := by omega
  rw [e2, List.take_succ_cons]

theorem emitSlice_eq (runes : List Char) (tokens : List Token) (typ : TokenType)
    (i n : Nat) (c : Char) (hc : runes[i]? = some c) (h : i + n < runes.length) :
    emitSlice runes tokens typ i (i + n) =
      .returned (.ok (tokens ++ [⟨typ, String.mk (c :: (runes.drop (i + 1)).take n)⟩],
        i + n)) := by
  unfold emitSlice
  rw [sliceAt_run runes i n c hc h]

/-- A run stepped over by the numeric loop is a prefix of the runes it was started on. -/
theorem scanNumber_take (U : UnicodeTables) (decimal : Bool) (rest run : List Char)
    (h : scanNumber U decimal rest = .ok run) :
    rest.take run.length = run ∧ run.length ≤ rest.length := by
  rw [scanNumber_eq] at h
  split_ifs at h
  cases h
  have h1 := take_numericRun U rest
  refine ⟨h1, ?_⟩
  have h2 := congrArg List.length h1
  rw [List.length_take] at h2
  omega

theorem scanLetters_take (U : UnicodeTables) (rest : List Char) :
    rest.take (scanLetters U rest).length = scanLetters U rest ∧
      (scanLetters U rest).length ≤ rest.length := by
  have h1 := take_scanLetters U rest
  refine ⟨h1, ?_⟩
  have h2 := congrArg List.length h1
  rw [List.length_take] at h2
  omega

/-- One iteration of `Tokenize` on its slices returns what the list-level iteration returns,
with the index moved by its advance: no index or slice expression in it is out of range. -/
theorem tokenizeStepIndexed_eq (U : UnicodeTables) (runes : List Char) (tokens : List Token)
    (i : Nat) (c : Char) (hc : runes[i]? = some c) (hi : i < runes.length) :
    tokenizeStepIndexed U runes tokens i c =
      .returned (stepAt i (tokenizeStep U tokens c (runes.drop (i + 1)))) := by
  have hlen : (runes.drop (i + 1)).length = runes.length - (i + 1) := List.length_drop _ _
  unfold tokenizeStepIndexed tokenizeStep
  by_cases h1 : (IsDigit U c || c == '.') = true
  · rw [if_pos h1, if_pos h1, scanNumberIndexed_eq U runes runes.length i _ (by omega)]
    cases hs : scanNumber U (c == '.') (runes.drop (i + 1)) with
    | error e => rfl
    | ok run =>
      obtain ⟨ht, hl⟩ := scanNumber_take _ _ _ _ hs
      simp only [stepAt]
      rw [emitSlice_eq runes tokens TokenNumber i run.length c hc (by omega), ht]
  · rw [if_neg h1, if_neg h1]
    by_cases h2 : (c == '(') = true
    · rw [if_pos h2, if_pos h2]
      rfl
    · rw [if_neg h2, if_neg h2]
      by_cases h3 : (c == ')') = true
      · rw [if_pos h3, if_pos h3]
        rfl
      · rw [if_neg h3, if_neg h3]
        by_cases h4 : isOperator (String.mk [c]) = true
        · rw [if_pos h4, if_pos h4]
          by_cases h5 : (c == '-') = true
          · rw [if_pos h5, signPositionIndexed_eq]
            simp only [h5, Bool.true_and]
            cases hsp : signPosition tokens with
            | false => rfl
            | true =>
              simp only [if_true]
              by_cases hi1 : i + 1 < runes.length
              · obtain ⟨next, hn, hd⟩ := drop_eq_cons runes (i + 1) hi1
                rw [if_pos hi1, indexAt_succ, indexAt_nat, hn, hd]
                simp only []
                by_cases h6 : (IsDigit U next || next == '.') = true
                · rw [if_pos h6, if_pos h6,
                    scanNumberIndexed_eq U runes runes.length (i + 1) _ (by omega)]
                  cases hs : scanNumber U (next == '.') (runes.drop (i + 1 + 1)) with
                  | error e => rfl
                  | ok run =>
                    obtain ⟨ht, hl⟩ := scanNumber_take _ _ _ _ hs
                    have hlen2 : (runes.drop (i + 1 + 1)).length = runes.length - (i + 1 + 1) :=
                      List.length_drop _ _
                    have e1 : i + 1 + run.length = i + (run.length + 1) := by omega
                    have e2 : 1 + run.length = run.length + 1 := by omega
                    simp only [stepAt]
                    rw [e1, e2, emitSlice_eq runes tokens TokenNumber i (run.length + 1) c hc
                      (by omega), hd, List.take_succ_cons, ht]
                · rw [if_neg h6, if_neg h6]
                  rfl
              · have e : runes.drop (i + 1) = [] := List.drop_of_length_le (by omega)
                rw [if_neg hi1, e]
                rfl
          · rw [if_neg h5]
            have h5b : (c == '-') = false := by simpa using h5
            simp only [h5b, Bool.false_and, Bool.false_eq_true, if_false]
            rfl
        · rw [if_neg h4, if_neg h4]
          by_cases h7 : IsLetter U c = true
          · obtain ⟨ht, hl⟩ := scanLetters_take U (runes.drop (i + 1))
            rw [if_pos h7, if_pos h7, scanLettersIndexed_eq U runes runes.length i (by omega)]
            simp only [stepAt]
            rw [emitSlice_eq runes tokens TokenFunction i _ c hc (by omega), ht]
          · rw [if_neg h7, if_neg h7]
            rfl

/-- The main loop of `Tokenize` on its slices, entered at the index `i` with enough
iterations allowed, returns what the list-level loop returns on the runes from `i` on. -/
theorem tokenizeIndexed_eq (U : UnicodeTables) (runes : List Char) (fuel : Nat) :
    ∀ (i : Nat) (tokens : List Token), runes.length - i < fuel →
      tokenizeIndexed U runes fuel i tokens =
        .returned (tokenizeLoop U tokens (runes.drop i)) := by
  induction fuel with
  | zero => intro i tokens h; omega
  | succ fuel ih =>
    intro i tokens h
    unfold tokenizeIndexed
    by_cases hi : i < runes.length
    · obtain ⟨c, hc, hd⟩ := drop_eq_cons runes i hi
      rw [if_pos hi, indexAt_nat, hc, hd]
      simp only []
      conv_rhs => rw [tokenizeLoop]
      by_cases hsp : IsSpace U c = true
      · rw [if_pos hsp, if_pos hsp, ih (i + 1) tokens (by omega)]
      · rw [if_neg hsp, if_neg hsp, tokenizeStepIndexed_eq U runes tokens i c hc hi]
        cases hs : tokenizeStep U tokens c (runes.drop (i + 1)) with
        | error e => rfl
        | ok result =>
          obtain ⟨tokens1, advance⟩ := result
          simp only [stepAt]
          rw [ih (i + advance + 1) tokens1 (by omega), List.drop_drop]
          have e : i + 1 + advance = i + advance + 1 := by omega
          rw [e]
    · have e : runes.drop i = [] := List.drop_of_length_le (by omega)
      rw [if_neg hi, e, tokenizeLoop]

theorem tokenizeIndexed_top (U : UnicodeTables) (expr : String) :
    TokenizeIndexed U expr = .returned (Tokenize U expr) := by
  unfold TokenizeIndexed Tokenize
  rw [tokenizeIndexed_eq U expr.toList _ 0 [] (by omega)]
  rfl

/-- An index expression outside the slice is a fault of the slice-level model. -/
theorem indexAt_out_of_range {α : Type} (s : List α) (i : Int)
    (h : i < 0 ∨ (s.length : Int) ≤ i) : indexAt s i = none := by
  unfold indexAt
  by_cases h0 : 0 ≤ i
  · rw [if_pos h0]
    apply List.getElem?_eq_none
    omega
  · rw [if_neg h0]

/-- A slice expression outside the slice is a fault of the slice-level model. -/
theorem sliceAt_out_of_range {α : Type} (s : List α) (lo hi : Int)
    (h : lo < 0 ∨ hi < lo ∨ (s.length : Int) < hi) : sliceAt s lo hi = none := by
  unfold sliceAt
  rw [if_neg]
  omega

theorem calculateIndexed_eq (U : UnicodeTables) (M : Float64) (expr : String) :
    CalculateIndexed U M expr = .returned (Calculate U M expr) := by
  unfold CalculateIndexed Calculate
  rw [tokenizeIndexed_top]
  cases Tokenize U expr with
  | error e => rfl
  | ok tokens =>
    simp only []
    rw [validateIndexed_eq]
    cases ValidateExpression tokens with
    | error e => rfl
    | ok u =>
      simp only []
      rw [shuntingIndexed_eq]
      have e : shuntingLoop tokens [] ([] : List Token).reverse = ShuntingYard tokens := rfl
      rw [e]
      cases ShuntingYard tokens with
      | error e => rfl
      | ok rpn =>
        simp only []
        rw [evaluateIndexed_eq]
        rfl

/-- C16: `Calculate` never faults. In the slice-level model, where an index or slice
expression out of range is a fault and every loop is allowed a bounded number of iterations,
each of `Tokenize`, `ValidateExpression`, `ShuntingYard` and `EvaluateRPN` returns, on every
input, the result of the function itself: no loop runs out of iterations and no read of
`runes[i+1]`, `runes[i]`, `tokens[0]`, `tokens[len(tokens)-1]`, `tokens[i+1]` or of the top of
a stack is out of range. Hence `Calculate` returns, and its result is a number or an
error. -/
theorem calculate_never_faults (U : UnicodeTables) (M : Float64) (expr : String) :
    TokenizeIndexed U expr = .returned (Tokenize U expr) ∧
    (∀ tokens : List Token, validateIndexed tokens = .returned (ValidateExpression tokens)) ∧
    (∀ tokens : List Token, shuntingIndexed tokens [] [] = .returned (ShuntingYard tokens)) ∧
    (∀ rpn : List Token, evaluateIndexed U M rpn [] = .returned (EvaluateRPN U M rpn)) ∧
    CalculateIndexed U M expr = .returned (Calculate U M expr) ∧
    CalculateIndexed U M expr ≠ .fault ∧ CalculateIndexed U M expr ≠ .unfinished ∧
    ((∃ n, CalculateIndexed U M expr = .returned (.ok n)) ∨
      (∃ e, CalculateIndexed U M expr = .returned (.error e))) := by
  have hc := calculateIndexed_eq U M expr
  refine ⟨tokenizeIndexed_top U expr, validateIndexed_eq, ?_, ?_, hc, ?_, ?_, ?_⟩
  · intro tokens
    rw [shuntingIndexed_eq]
    rfl
  · intro rpn
    rw [evaluateIndexed_eq]
    rfl
  · rw [hc]
    intro h
    cases h
  · rw [hc]
    intro h
    cases h
  · rw [hc]
    cases Calculate U M expr with
    | error e => exact Or.inr ⟨e, rfl⟩
    | ok n => exact Or.inl ⟨n, rfl⟩

end Calc
